import Mathlib

/-!
Spectrum: the validate/fix passes, the Postman URL builder, the collection merge, the folder
organizer, the security scheme edits and two lint rules.

A shallow embedding of parts of the `spectrum` Go packages

* `openapi3edit` (`validate_and_fix.go`): `ParsePathParametersParens`, `SortParameters`,
  `ValidateFixOperationPathParameters`, `MoveRequestBodies`,
  `ValidateFixOperationResponseTypes`;
* `openapi3edit` (`operations_references_fix.go`): `SpecOperationsFixResponseReferences`;
* `openapi3edit` (`security.go`): `SecuritySchemeApikeyAddDefinition`,
  `SecuritySchemeBearertokenAddOperationsByTags`;
* `openapi3lint` (`rule_tag_style_first_uppercase.go`, `rule_tag_group_exist.go`): the methods
  of `RuleTagStyleFirstUpperCase` and `RuleTagHasGroup`;
* `openapi2postman2` (`convert_swagger2_to_postman2.go`): `BuildPostmanURL`,
  `Swagger2PathToPostman2APIItem`, `postmanAddItemToFolder`, `Merge`;
* `openapi3postman2` (`folders.go`): `CreateTagsAndTagGroups`, `addFoldersFromTagGroups`,
  `addFoldersFromTags`.

Conventions of the embedding.

* Go strings are `String`s (sequences of Unicode scalar values).
* A Go pointer that may be nil is an `Option`; a nil slice and an empty slice are both `[]`.
* A Go map is an association list with pairwise distinct keys (`GoMap`); ranging over a map
  walks the list front to back.
* Code that mutates the document in place is written in state-passing style: a pass takes the
  document and returns the document it leaves behind together with its results.
* A run-time panic is the `Except.error` result of a pass, with the kind of panic as `Failure`.
* Functions of packages `openapi3` and `postman2` that the embedded code calls and that are
  not part of the files at hand are defined from the specification; their doc comments say so.
* The library functions `stringcase.IsFirstAlphaUpper` and `urlutil.JoinAbsolute` are arguments
  of the rules that call them.
-/

namespace Spectrum

/-! ## Strings -/

/-- Go `unicode.IsSpace`: the white space runes of Latin-1 and of category Z. -/
def isSpace (c : Char) : Bool :=
  c = ' ' || c = '\t' || c = '\n' || c = '\r' || c.val = 0x0B || c.val = 0x0C
    || c.val = 0x85 || c.val = 0xA0 || c.val = 0x1680
    || (0x2000 ≤ c.val && c.val ≤ 0x200A)
    || c.val = 0x2028 || c.val = 0x2029 || c.val = 0x202F || c.val = 0x205F || c.val = 0x3000

/-- Characters of a string with leading and trailing white space removed. -/
def trimSpaceChars (cs : List Char) : List Char :=
  ((cs.dropWhile isSpace).reverse.dropWhile isSpace).reverse

/-- Go `strings.TrimSpace`. -/
def TrimSpace (s : String) : String := ⟨trimSpaceChars s.data⟩

/-- Go `strings.Join`. -/
def Join : List String → String → String
  | [], _ => ""
  | [a], _ => a
  | a :: b :: rest, sep => a ++ sep ++ Join (b :: rest) sep

/-- Splits characters at every separator character; the current field is accumulated in
reverse in `cur`. -/
def splitChars (sep : Char) : List Char → List Char → List (List Char)
  | [], cur => [cur.reverse]
  | c :: cs, cur =>
    if c = sep then cur.reverse :: splitChars sep cs [] else splitChars sep cs (c :: cur)

/-- Go `strings.Split` for a one-character separator. -/
def Split (s : String) (sep : Char) : List String :=
  (splitChars sep s.data []).map String.mk

/-- Go `strings.Fields` on characters: the maximal runs of non-space characters. -/
def fieldsChars : List Char → List Char → List (List Char)
  | [], cur => if cur.isEmpty then [] else [cur.reverse]
  | c :: cs, cur =>
    if isSpace c then
      (if cur.isEmpty then fieldsChars cs [] else cur.reverse :: fieldsChars cs [])
    else fieldsChars cs (c :: cur)

/-! ## Go maps -/

/-- A Go `map[string]β` as an association list with pairwise distinct keys. -/
abbrev GoMap (β : Type) := List (String × β)

/-- Map lookup `m[k]` with the comma-ok result. -/
def mapGet {β : Type} : GoMap β → String → Option β
  | [], _ => none
  | (k', v) :: rest, k => if k' = k then some v else mapGet rest k

/-- Map assignment `m[k] = v`. -/
def mapSet {β : Type} : GoMap β → String → β → GoMap β
  | [], k, v => [(k, v)]
  | (k', v') :: rest, k, v =>
    if k' = k then (k, v) :: rest else (k', v') :: mapSet rest k v

/-- Map deletion `delete(m, k)`. -/
def mapDelete {β : Type} (m : GoMap β) (k : String) : GoMap β :=
  m.filter (fun e => e.1 ≠ k)

/-! ## Document model (the fields of `kin-openapi` that the passes read or write) -/

/-- The kinds of run-time panic a pass can end in. -/
inductive Failure where
  /-- The `panic("E_SORT_LEN_MISMATCH")` of `SortParameters`. -/
  | sortLenMismatch
  /-- A nil pointer dereference. -/
  | nilDereference
  deriving DecidableEq, Repr

deriving instance DecidableEq for Except

/-- Type `oas3.Schema`; `SchemaType` is its field `Type`. -/
structure Schema where
  SchemaType : String
  deriving DecidableEq, Repr

/-- Type `oas3.SchemaRef`. -/
structure SchemaRef where
  Ref : String
  Value : Option Schema
  deriving DecidableEq, Repr

/-- Type `oas3.Parameter`. -/
structure Parameter where
  Name : String
  In : String
  Required : Bool
  Schema : Option SchemaRef
  deriving DecidableEq, Repr

/-- Type `oas3.ParameterRef`. -/
structure ParameterRef where
  Ref : String
  Value : Option Parameter
  deriving DecidableEq, Repr

/-- Type `oas3.Parameters`, a slice of (non-nil) parameter references. -/
abbrev Parameters := List ParameterRef

/-- Type `oas3.MediaType`. -/
structure MediaType where
  Schema : Option SchemaRef
  deriving DecidableEq, Repr

/-- Type `oas3.Response`; `Content` maps a media type to a `*MediaType`. -/
structure Response where
  Content : GoMap (Option MediaType)
  deriving DecidableEq, Repr

/-- Type `oas3.ResponseRef`. -/
structure ResponseRef where
  Ref : String
  Value : Option Response
  deriving DecidableEq, Repr

/-- Type `oas3.RequestBody`. -/
structure RequestBody where
  Description : String
  Required : Bool
  deriving DecidableEq, Repr

/-- Type `oas3.RequestBodyRef`. -/
structure RequestBodyRef where
  Ref : String
  Value : Option RequestBody
  deriving DecidableEq, Repr

/-- Type `oas3.SecurityRequirements`: a list of requirements, each a map from a scheme name to
its scopes. -/
abbrev SecurityRequirements := List (GoMap (List String))

/-- Type `oas3.Operation`; `Responses` maps a status code to a `*ResponseRef`, `Security` is a
`*SecurityRequirements`. -/
structure Operation where
  Tags : List String
  Parameters : Parameters
  RequestBody : Option RequestBodyRef
  Responses : GoMap (Option ResponseRef)
  Security : Option SecurityRequirements
  deriving DecidableEq, Repr

/-- The operations of one path, by method. -/
structure PathItem where
  Get : Option Operation
  Patch : Option Operation
  Post : Option Operation
  Put : Option Operation
  Delete : Option Operation
  deriving DecidableEq, Repr

/-- Type `oas3.SecurityScheme`, with the fields that `security.go` sets; `SchemeType` is its
field `Type`. -/
structure SecurityScheme where
  SchemeType : String
  In : String
  Name : String
  Scheme : String
  BearerFormat : String
  deriving DecidableEq, Repr

/-- Type `oas3.SecuritySchemeRef`. -/
structure SecuritySchemeRef where
  Ref : String
  Value : Option SecurityScheme
  deriving DecidableEq, Repr

/-- The component registry: request bodies and security schemes by component name. The map of
the security schemes may be nil (`none`). -/
structure Components where
  RequestBodies : GoMap RequestBodyRef
  SecuritySchemes : Option (GoMap SecuritySchemeRef)
  deriving DecidableEq, Repr

/-- Type `oas3.Tag`. -/
structure Tag where
  Name : String
  Description : String
  deriving DecidableEq, Repr

/-- Type `taggroups.TagGroup`: a named group of tag names. -/
structure TagGroup where
  Name : String
  Tags : List String
  deriving DecidableEq, Repr

/-- Type `taggroups.TagGroupSet`. -/
structure TagGroupSet where
  TagGroups : List TagGroup
  deriving DecidableEq, Repr

/-- Type `openapi3.Spec`. `Paths` is the path map, listed in the order in which the operation
visitor walks it (ascending by path). `Tags` is the document-level tag list, whose entries may
be nil. `TagGroups` is the tag-group extension of the document as it can be read: its groups
(none when the document declares no extension), or the error of reading it. -/
structure Spec where
  Paths : List (String × PathItem)
  Components : Components
  Tags : List (Option Tag)
  TagGroups : Except String (List TagGroup)
  deriving DecidableEq, Repr

/-- Type `openapi3.OperationMeta`: a diagnostic with the originating path and method and its
notes. -/
structure OperationMeta where
  Path : String
  Method : String
  MetaNotes : List String
  deriving DecidableEq, Repr

/-! ## `validate_and_fix.go`: path parameters -/

/-- All matches of the regular expression `{([^}{}]+)}` (`rxParens`), as the text of the
capture group of each match, left to right. `cur` is `none` outside braces and holds the
characters read since the last opening brace (in reverse) inside them. -/
def findAllParens : List Char → Option (List Char) → List (List Char)
  | [], _ => []
  | c :: cs, none => if c = '{' then findAllParens cs (some []) else findAllParens cs none
  | c :: cs, some acc =>
    if c = '{' then findAllParens cs (some [])
    else if c = '}' then
      (if acc.isEmpty then findAllParens cs none else acc.reverse :: findAllParens cs none)
    else findAllParens cs (some (c :: acc))

/-- The loop of `SliceCondenseSpace` with `dedupe` set: `seen` are the values already kept. -/
def condenseDedupe : List String → List String → List String
  | [], _ => []
  | val :: rest, seen =>
    let val := Join ((fieldsChars val.data []).map String.mk) " "
    if val.length = 0 then condenseDedupe rest seen
    else if seen.contains val then condenseDedupe rest seen
    else val :: condenseDedupe rest (val :: seen)

/-- Library function `stringsutil.SliceCondenseSpace(items, dedupe, sort)` of `mogo`, for
`sort = false`: every item has its white space condensed (trimmed, inner runs become one
blank), empty items are dropped and, with `dedupe`, only the first occurrence of a value is
kept. -/
def SliceCondenseSpace (items : List String) (dedupe : Bool) : List String :=
  if dedupe then condenseDedupe items []
  else (items.map (fun val => Join ((fieldsChars val.data []).map String.mk) " ")).filter
    (fun val => val.length ≠ 0)

/-- Function `ParsePathParametersParens`: the names of the `{name}` tokens of a path. -/
def ParsePathParametersParens (urlPath : String) : List String :=
  let m := findAllParens urlPath.data none
  if m.length = 0 then []
  else
    let paramNames := m.map (fun n => TrimSpace (String.mk n))
    if paramNames.length > 0 then SliceCondenseSpace paramNames true else paramNames

/-- The first loop of `SortParameters`: `oldParamsMap[pRef.Value.Name] = pRef` for every
reference with a value. -/
def buildParamsMap (sourceParams : Parameters) : GoMap ParameterRef :=
  sourceParams.foldl (fun m pRef =>
    match pRef.Value with
    | some v => mapSet m v.Name pRef
    | none => m) []

/-- The second loop of `SortParameters`, over the sort order: the parameters appended so far
and the map `addedNames`. -/
def sortNamed (oldParamsMap : GoMap ParameterRef) (sortOrder : List String) :
    Parameters × GoMap Nat :=
  sortOrder.foldl (fun acc sortedName =>
    match mapGet oldParamsMap sortedName with
    | some pRef => (acc.1 ++ [pRef], mapSet acc.2 sortedName 1)
    | none => acc) ([], [])

/-- The third loop of `SortParameters`: appends the references without a value and those whose
name was not added by the second loop. -/
def sortRest (addedNames : GoMap Nat) (sourceParams : Parameters) (sortedParams : Parameters) :
    Parameters :=
  sourceParams.foldl (fun sorted pRef =>
    match pRef.Value with
    | none => sorted ++ [pRef]
    | some v => if (mapGet addedNames v.Name).isNone then sorted ++ [pRef] else sorted)
    sortedParams

/-- The slice `sortedParams` that `SortParameters` has built when it reaches its length
check. -/
def sortedBeforeCheck (sourceParams : Parameters) (sortOrder : List String) : Parameters :=
  let named := sortNamed (buildParamsMap sourceParams) sortOrder
  sortRest named.2 sourceParams named.1

/-- Function `SortParameters`: sorts parameters according to an input name list; panics with
`E_SORT_LEN_MISMATCH` when the sorted slice and the source slice differ in length. -/
def SortParameters (sourceParams : Parameters) (sortOrder : List String) :
    Except Failure Parameters :=
  let sortedParams := sortedBeforeCheck sourceParams sortOrder
  if sortedParams.length ≠ sourceParams.length then .error Failure.sortLenMismatch
  else .ok sortedParams

/-- Modelled from the spec: `OperationMore.HasParameter` is declared in package `openapi3`,
outside the files at hand. Following "for each [token], check the operation declares a matching
`in: path` parameter": some parameter of the operation has a value whose name is the wanted
name and whose location is `path`. -/
def HasParameter (op : Operation) (paramNameWant : String) : Bool :=
  op.Parameters.any (fun pRef =>
    match pRef.Value with
    | some p => p.Name = paramNameWant && p.In = "path"
    | none => false)

/-- Modelled from the spec: `openapi3.OperationToMeta` is declared in package `openapi3`,
outside the files at hand. Following "diagnostic records carrying the originating path, method,
and one or more free-text notes ... created fresh": a record of the path and the method with no
note yet. -/
def OperationToMeta (path method : String) (_op : Operation) (_inclTags : List String) :
    OperationMeta :=
  { Path := path, Method := method, MetaNotes := [] }

/-- The parameter reference that fix mode synthesizes for a missing path variable. -/
def newParamRef (varName : String) : ParameterRef :=
  { Ref := "",
    Value := some
      { Name := varName, In := "path", Required := true,
        Schema := some { Ref := "", Value := some { SchemaType := "string" } } } }

/-- The state of the loop over the path variables in `ValidateFixOperationPathParameters`. -/
structure PathParamLoop where
  op : Operation
  varNamesMissing : List String
  fixed : Bool
  deriving DecidableEq, Repr

/-- One iteration of the loop over `varNamesPath`. -/
def pathParamStep (fix : Bool) (st : PathParamLoop) (varName : String) : PathParamLoop :=
  if !HasParameter st.op varName then
    if fix then
      { st with
        op := { st.op with Parameters := st.op.Parameters ++ [newParamRef varName] },
        fixed := true }
    else { st with varNamesMissing := st.varNamesMissing ++ [varName] }
  else st

/-- The loop over `varNamesPath`. -/
def pathParamLoop (fix : Bool) (op : Operation) (varNamesPath : List String) : PathParamLoop :=
  varNamesPath.foldl (pathParamStep fix) { op := op, varNamesMissing := [], fixed := false }

/-- The visitor callback of `ValidateFixOperationPathParameters` for a non-nil operation: the
operation as left behind and `errorOperations` with the diagnostic appended, if any. -/
def pathParametersVisit (fix : Bool) (path method : String) (op : Operation)
    (errorOperations : List OperationMeta) :
    Except Failure (Operation × List OperationMeta) :=
  let varNamesPath := ParsePathParametersParens path
  if varNamesPath.length = 0 then .ok (op, errorOperations)
  else
    let st := pathParamLoop fix op varNamesPath
    let sorted : Except Failure Operation :=
      if st.fixed then
        match SortParameters st.op.Parameters varNamesPath with
        | .ok ps => .ok { st.op with Parameters := ps }
        | .error e => .error e
      else .ok st.op
    match sorted with
    | .error e => .error e
    | .ok op' =>
      if st.varNamesMissing.length > 0 then
        let om := OperationToMeta path method op' []
        let om := { om with MetaNotes := om.MetaNotes ++
          ["E_OP_MISSING_PATH_PARAMETER PARAM_NAMES[" ++ Join st.varNamesMissing "," ++ "]"] }
        .ok (op', errorOperations ++ [om])
      else .ok (op', errorOperations)

/-! ## The operation visitor -/

/-- A visitor callback: it may change the operation it is handed and the state `σ` it has
captured, or panic. -/
abbrev VisitOp (σ : Type) := String → String → Operation → σ → Except Failure (Operation × σ)

/-- Visits the operation declared for one method, skipping an absent one. -/
def visitMethod {σ : Type} (visitOp : VisitOp σ) (path method : String)
    (op : Option Operation) (s : σ) : Except Failure (Option Operation × σ) :=
  match op with
  | none => .ok (none, s)
  | some o =>
    match visitOp path method o s with
    | .ok (o', s') => .ok (some o', s')
    | .error e => .error e

/-- Visits the operations of one path in the method order GET, PATCH, POST, PUT, DELETE. -/
def VisitOperationsPathItem {σ : Type} (visitOp : VisitOp σ) (path : String)
    (pathItem : PathItem) (s : σ) : Except Failure (PathItem × σ) :=
  match visitMethod visitOp path "GET" pathItem.Get s with
  | .error e => .error e
  | .ok (get, s) =>
  match visitMethod visitOp path "PATCH" pathItem.Patch s with
  | .error e => .error e
  | .ok (patch, s) =>
  match visitMethod visitOp path "POST" pathItem.Post s with
  | .error e => .error e
  | .ok (post, s) =>
  match visitMethod visitOp path "PUT" pathItem.Put s with
  | .error e => .error e
  | .ok (put, s) =>
  match visitMethod visitOp path "DELETE" pathItem.Delete s with
  | .error e => .error e
  | .ok (delete, s) =>
    .ok ({ Get := get, Patch := patch, Post := post, Put := put, Delete := delete }, s)

/-- Visits the paths in list order. -/
def visitPaths {σ : Type} (visitOp : VisitOp σ) :
    List (String × PathItem) → σ → Except Failure (List (String × PathItem) × σ)
  | [], s => .ok ([], s)
  | (path, pathItem) :: rest, s =>
    match VisitOperationsPathItem visitOp path pathItem s with
    | .error e => .error e
    | .ok (pathItem', s') =>
      match visitPaths visitOp rest s' with
      | .error e => .error e
      | .ok (rest', s'') => .ok ((path, pathItem') :: rest', s'')

/-- Modelled from the spec: `openapi3.VisitOperations` is declared in package `openapi3`,
outside the files at hand. Following "invoke the callback exactly once for every declared
method on every declared path, in a stable, sorted-by-path order (ties broken by a fixed method
precedence: GET, PATCH, POST, PUT, DELETE) ... an operation that is nil/absent for a declared
method must be skipped silently": the paths are walked in the order of `Spec.Paths` and the
methods of a path in that precedence. -/
def VisitOperations {σ : Type} (spec : Spec) (visitOp : VisitOp σ) (s : σ) :
    Except Failure (Spec × σ) :=
  match visitPaths visitOp spec.Paths s with
  | .error e => .error e
  | .ok (paths, s') => .ok ({ spec with Paths := paths }, s')

/-- The result of a validate/fix pass: the document as the pass leaves it, the diagnostics, and
the aggregate error (`none` for nil), given by its message. -/
structure PassResult where
  spec : Spec
  errorOperations : List OperationMeta
  err : Option String
  deriving DecidableEq, Repr

/-- The tail shared by the passes: the aggregate error is set when there are diagnostics. -/
def finishPass (spec : Spec) (errorOperations : List OperationMeta) : PassResult :=
  if errorOperations.length > 0 then
    { spec := spec, errorOperations := errorOperations,
      err := some ("E_NUM_VALIDATION_ERRORS [" ++ toString errorOperations.length ++ "]") }
  else { spec := spec, errorOperations := errorOperations, err := none }

/-- Function `ValidateFixOperationPathParameters`: adds missing path parameters and re-sorts
the parameters (`fix`), or reports the missing names. -/
def ValidateFixOperationPathParameters (spec : Spec) (fix : Bool) : Except Failure PassResult :=
  match VisitOperations spec (pathParametersVisit fix) [] with
  | .error e => .error e
  | .ok (spec', errorOperations) => .ok (finishPass spec' errorOperations)

/-! ## `validate_and_fix.go`: request bodies -/

/-- Drops the characters of `pre` from the front of `cs`, if `cs` starts with them. -/
def dropLeading : List Char → List Char → Option (List Char)
  | [], cs => some cs
  | _ :: _, [] => none
  | p :: ps, c :: cs => if p = c then dropLeading ps cs else none

/-- Modelled from the spec: `SpecMore.ComponentRequestBody` is declared in package `openapi3`,
outside the files at hand. Following "looks up component definitions (schemas, request bodies,
security schemes) by pointer string; read-only lookup ... resolution failure returns an explicit
not-found result": the pointer `#/components/requestBodies/NAME` resolves to the request body
registered as `NAME`, any other pointer to nothing. -/
def ComponentRequestBody (components : Components) (componentPath : String) :
    Option RequestBodyRef :=
  match dropLeading "#/components/requestBodies/".data componentPath.data with
  | some key => mapGet components.RequestBodies (String.mk key)
  | none => none

/-- The visitor callback of `MoveRequestBodies` for a non-nil operation; `components` is the
registry of the document the pass was started on. -/
def moveRequestBodiesVisit (components : Components) (move : Bool) (path method : String)
    (op : Operation) (errorOperations : List OperationMeta) :
    Except Failure (Operation × List OperationMeta) :=
  match op.RequestBody with
  | none => .ok (op, errorOperations)
  | some requestBody =>
    if requestBody.Ref.length > 0 then
      if move then
        match ComponentRequestBody components requestBody.Ref with
        | some requestBodyRef => .ok ({ op with RequestBody := some requestBodyRef }, errorOperations)
        | none => .ok (op, errorOperations)
      else
        let om := OperationToMeta path method op []
        let om := { om with MetaNotes := om.MetaNotes ++
          ["E_REQUEST_BODY_DEFINITION REF[" ++ requestBody.Ref ++ "]"] }
        .ok (op, errorOperations ++ [om])
    else .ok (op, errorOperations)

/-- Function `MoveRequestBodies`: replaces a request body that is a bare reference by the
referenced component (`move`), or reports it. -/
def MoveRequestBodies (spec : Spec) (move : Bool) : Except Failure PassResult :=
  match VisitOperations spec (moveRequestBodiesVisit spec.Components move) [] with
  | .error e => .error e
  | .ok (spec', errorOperations) => .ok (finishPass spec' errorOperations)

/-! ## `validate_and_fix.go`: response types -/

/-- Lower-case mapping of a rune, for the Latin capital letters and the two other runes whose
lower case is a Latin letter (U+0130, U+212A); other runes are kept. -/
def toLowerRune (c : Char) : Char :=
  if c.val = 0x130 then 'i' else if c.val = 0x212A then 'k' else c.toLower

/-- Go `strings.ToLower`. -/
def ToLower (s : String) : String := ⟨s.data.map toLowerRune⟩

/-- Constant `httputilmore.ContentTypeAppJSON`. -/
def ContentTypeAppJSON : String := "application/json"

/-- Constant `httputilmore.ContentTypeTextPlain`. -/
def ContentTypeTextPlain : String := "text/plain"

/-- The body of the loop over `response.Value.Content` in `ValidateFixOperationResponseTypes`
for the entry `mediaTypeOrig ↦ mtRef`: the content map and the diagnostics it leaves. -/
def responseTypeStep (fix : Bool) (path method : String) (op : Operation)
    (st : GoMap (Option MediaType) × List OperationMeta)
    (mediaTypeOrig : String) (mtRef : Option MediaType) :
    Except Failure (GoMap (Option MediaType) × List OperationMeta) :=
  let mediaType := ToLower (TrimSpace mediaTypeOrig)
  if mediaType = ContentTypeAppJSON then
    match mtRef with
    | none => .error Failure.nilDereference
    | some mt =>
      match mt.Schema with
      | none => .error Failure.nilDereference
      | some schemaRef =>
        if schemaRef.Ref.length = 0 then
          match schemaRef.Value with
          | none => .error Failure.nilDereference
          | some schema =>
            let schemaType := schema.SchemaType
            if fix && (schemaType = "string" || schemaType = "integer") then
              let content := mapDelete st.1 mediaTypeOrig
              match mapGet content ContentTypeTextPlain with
              | some mtRefTry =>
                if mtRef ≠ mtRefTry then
                  let om := OperationToMeta path method op []
                  let om := { om with MetaNotes := om.MetaNotes ++
                    ["E_BAD_MIME_TYPE_AND_SCHEMA_COLLISION MT[" ++ mediaType ++ "] type[" ++
                      schemaType ++ "]"] }
                  .ok (content, st.2 ++ [om])
                else .ok (content, st.2)
              | none => .ok (mapSet content ContentTypeTextPlain mtRef, st.2)
            else if schemaType ≠ "object" && schemaType ≠ "array" then
              let om := OperationToMeta path method op []
              let om := { om with MetaNotes := om.MetaNotes ++
                ["E_BAD_MIME_TYPE_AND_SCHEMA MT[" ++ mediaType ++ "] type[" ++
                  schemaType ++ "]"] }
              .ok (st.1, st.2 ++ [om])
            else .ok st
        else .ok st
  else .ok st

/-- The loop over the entries of `response.Value.Content`, as they were when the loop began. -/
def responseContentLoop (fix : Bool) (path method : String) (op : Operation) :
    List (String × Option MediaType) → GoMap (Option MediaType) × List OperationMeta →
    Except Failure (GoMap (Option MediaType) × List OperationMeta)
  | [], st => .ok st
  | (mediaTypeOrig, mtRef) :: rest, st =>
    match responseTypeStep fix path method op st mediaTypeOrig mtRef with
    | .error e => .error e
    | .ok st' => responseContentLoop fix path method op rest st'

/-- The loop over `op.Responses`: the responses and the diagnostics it leaves. -/
def responsesLoop (fix : Bool) (path method : String) (op : Operation) :
    List (String × Option ResponseRef) → List OperationMeta →
    Except Failure (List (String × Option ResponseRef) × List OperationMeta)
  | [], errorOperations => .ok ([], errorOperations)
  | (code, resRef) :: rest, errorOperations =>
    let here : Except Failure (Option ResponseRef × List OperationMeta) :=
      match resRef with
      | none => .ok (none, errorOperations)
      | some response =>
        match response.Value with
        | none => .ok (some response, errorOperations)
        | some value =>
          match responseContentLoop fix path method op value.Content
              (value.Content, errorOperations) with
          | .error e => .error e
          | .ok (content, errs) =>
            .ok (some { response with Value := some { value with Content := content } }, errs)
    match here with
    | .error e => .error e
    | .ok (resRef', errs) =>
      match responsesLoop fix path method op rest errs with
      | .error e => .error e
      | .ok (rest', errs') => .ok ((code, resRef') :: rest', errs')

/-- The visitor callback of `ValidateFixOperationResponseTypes` for a non-nil operation. -/
def responseTypesVisit (fix : Bool) (path method : String) (op : Operation)
    (errorOperations : List OperationMeta) :
    Except Failure (Operation × List OperationMeta) :=
  match responsesLoop fix path method op op.Responses errorOperations with
  | .error e => .error e
  | .ok (responses, errs) => .ok ({ op with Responses := responses }, errs)

/-- Function `ValidateFixOperationResponseTypes`: looks for `application/json` responses whose
inline schema type is not `array` or `object`; with `fix`, a `string` or `integer` response is
moved to `text/plain`. -/
def ValidateFixOperationResponseTypes (spec : Spec) (fix : Bool) : Except Failure PassResult :=
  match VisitOperations spec (responseTypesVisit fix) [] with
  | .error e => .error e
  | .ok (spec', errorOperations) => .ok (finishPass spec' errorOperations)

/-! ## `operations_references_fix.go` -/

/-- Constant `oas2BasePathDefinitions`. -/
def oas2BasePathDefinitions : String := "#/definitions/"

/-- Constant `oas3BasePathComponentsSchemas`. -/
def oas3BasePathComponentsSchemas : String := "#/components/schemas/"

/-- The first capture group of `rxOAS2RefDefinition.FindStringSubmatch(ref)`, for the expression
`^#/definitions/(.*)`, if `ref` matches: what follows the prefix, up to the first line feed. -/
def matchOAS2RefDefinition (ref : String) : Option String :=
  match dropLeading oas2BasePathDefinitions.data ref.data with
  | some rest => some (String.mk (rest.takeWhile (fun c => c ≠ '\n')))
  | none => none

/-- The body of the loop over `op.Responses` in `SpecOperationsFixResponseReferences` for a
non-nil entry: the reference as left behind and the diagnostics. -/
def fixResponseReferenceStep (path method : String) (op : Operation) (resCode : String)
    (resRef : ResponseRef) (errorOperations : List OperationMeta) :
    ResponseRef × List OperationMeta :=
  if (oas2BasePathDefinitions.data.isPrefixOf resRef.Ref.data : Bool) then
    let ref := TrimSpace resRef.Ref
    match matchOAS2RefDefinition ref with
    | some m1 =>
      let resRefOrig := ref
      let om := OperationToMeta path method op []
      let om := { om with MetaNotes := om.MetaNotes ++
        ["E_BAD_RESPONSE_REF_OAS2_DEF [" ++ resCode ++ "] type[" ++ resRefOrig ++ "]"] }
      ({ resRef with Ref := oas3BasePathComponentsSchemas ++ m1 }, errorOperations ++ [om])
    | none => ({ resRef with Ref := ref }, errorOperations)
  else (resRef, errorOperations)

/-- The loop over `op.Responses` in `SpecOperationsFixResponseReferences`; a nil entry is
dereferenced. -/
def fixResponseReferencesLoop (path method : String) (op : Operation) :
    List (String × Option ResponseRef) → List OperationMeta →
    Except Failure (List (String × Option ResponseRef) × List OperationMeta)
  | [], errorOperations => .ok ([], errorOperations)
  | (resCode, resRef) :: rest, errorOperations =>
    match resRef with
    | none => .error Failure.nilDereference
    | some resRef =>
      let here := fixResponseReferenceStep path method op resCode resRef errorOperations
      match fixResponseReferencesLoop path method op rest here.2 with
      | .error e => .error e
      | .ok (rest', errs) => .ok ((resCode, some here.1) :: rest', errs)

/-- The visitor callback of `SpecOperationsFixResponseReferences` for a non-nil operation. -/
def fixResponseReferencesVisit (path method : String) (op : Operation)
    (errorOperations : List OperationMeta) :
    Except Failure (Operation × List OperationMeta) :=
  match fixResponseReferencesLoop path method op op.Responses errorOperations with
  | .error e => .error e
  | .ok (responses, errs) => .ok ({ op with Responses := responses }, errs)

/-- Function `SpecOperationsFixResponseReferences`: rewrites the response references that start
with `#/definitions/` and returns one diagnostic for each; the document as left behind comes
first. -/
def SpecOperationsFixResponseReferences (spec : Spec) :
    Except Failure (Spec × List OperationMeta) :=
  VisitOperations spec fixResponseReferencesVisit []

end Spectrum

/-! ## `convert_swagger2_to_postman2.go`: the Postman URL -/

namespace Spectrum

/-- Type `openapi2.Parameter`, with the fields the converter reads; `Default` is the default
value (`none` for nil), given by its text, and `XExamples` holds the examples of the parameter
by media type, each given by its JSON text. -/
structure Swagger2Parameter where
  Name : String
  In : String
  Required : Bool
  Default : Option String
  XExamples : GoMap String
  deriving DecidableEq, Repr

/-- Type `openapi2.Endpoint`. -/
structure Endpoint where
  Tags : List String
  Summary : String
  Consumes : List String
  Produces : List String
  Parameters : List Swagger2Parameter
  deriving DecidableEq, Repr

/-- Type `openapi2.Path`: the endpoints of one path, by method. -/
structure Path where
  Get : Option Endpoint
  Patch : Option Endpoint
  Post : Option Endpoint
  Put : Option Endpoint
  Delete : Option Endpoint
  deriving DecidableEq, Repr

/-- Type `openapi2.Info`. -/
structure Info where
  Title : String
  Description : String
  deriving DecidableEq, Repr

/-- Type `openapi2.Specification`, with the fields the converter reads; `Paths` is a map. -/
structure Specification where
  Info : Info
  Host : String
  BasePath : String
  Schemes : List String
  Paths : GoMap Path
  deriving DecidableEq, Repr

/-- Type `postman2.Header`: a header of a request, by key and value. -/
structure Header where
  Key : String
  Value : String
  deriving DecidableEq, Repr

/-- Type `Configuration` of package `openapi2postman2`. -/
structure Configuration where
  PostmanURLBase : String
  PostmanURLHostname : String
  PostmanHeaders : List Header
  deriving DecidableEq, Repr

/-- The fields of Go `url.URL` that `BuildPostmanURL` sets. -/
structure GoURL where
  Scheme : String
  Host : String
  Path : String
  deriving DecidableEq, Repr

/-- Type `postman2.URL`: host, scheme, the path segments and the variables with their default
values. -/
structure URL where
  Host : String
  Protocol : String
  Path : List String
  Variable : GoMap (Option String)
  deriving DecidableEq, Repr

/-- The replacement `rx1.ReplaceAllString(s, "/")` for `rx1` the expression `/+`: every run of
slashes becomes one slash. `inRun` tells that the character before was a slash. -/
def collapseSlashes : List Char → Bool → List Char
  | [], _ => []
  | c :: cs, inRun =>
    if c = '/' then (if inRun then collapseSlashes cs true else '/' :: collapseSlashes cs true)
    else c :: collapseSlashes cs false

/-- The replacement `rx2.ReplaceAllString(s, "")` for `rx2` the expression `^/+`: the leading
slashes are removed. -/
def dropLeadingSlashes (cs : List Char) : List Char :=
  cs.dropWhile (fun c => c = '/')

/-- The value `rawPostmanURLPath` of `BuildPostmanURL` once normalized (the assembled path): the
trimmed base path and the trimmed path template, those that are not blank, joined by a slash,
with runs of slashes collapsed and leading slashes removed. -/
def assemblePath (swag : Specification) (swaggerURL : String) : String :=
  let URLPathParts : List String :=
    (if (TrimSpace swag.BasePath).length > 0 then [TrimSpace swag.BasePath] else []) ++
    (if (TrimSpace swaggerURL).length > 0 then [TrimSpace swaggerURL] else [])
  let rawPostmanURLPath := TrimSpace (Join URLPathParts "/")
  String.mk (dropLeadingSlashes (collapseSlashes rawPostmanURLPath.data false))

/-- The value of `goURL.Host` in `BuildPostmanURL`. -/
def selectHost (cfg : Configuration) (swag : Specification) : String :=
  let PostmanURLBase := TrimSpace cfg.PostmanURLBase
  if PostmanURLBase.length > 0 then PostmanURLBase
  else if (TrimSpace cfg.PostmanURLHostname).length > 0 then cfg.PostmanURLHostname
  else if (TrimSpace swag.Host).length > 0 then swag.Host
  else ""

/-- The loop over `swag.Schemes`: the first scheme that is not blank, the empty string when
there is none. -/
def firstScheme : List String → String
  | [] => ""
  | scheme :: rest => if (TrimSpace scheme).length > 0 then scheme else firstScheme rest

/-- The value of `goURL.Scheme` in `BuildPostmanURL`. -/
def selectScheme (cfg : Configuration) (swag : Specification) : String :=
  if (TrimSpace cfg.PostmanURLBase).length = 0 then
    (if swag.Schemes.length > 0 then firstScheme swag.Schemes else "")
  else ""

/-- Rewrites `{name}` to `:name` for the names that are not empty and contain no brace and no
slash. `cur` holds the characters read since an opening brace that may still start a
placeholder (in reverse). -/
def oasToPostmanChars : List Char → Option (List Char) → List Char
  | [], none => []
  | [], some acc => '{' :: acc.reverse
  | c :: cs, none =>
    if c = '{' then oasToPostmanChars cs (some []) else c :: oasToPostmanChars cs none
  | c :: cs, some acc =>
    if c = '{' then ('{' :: acc.reverse) ++ oasToPostmanChars cs (some [])
    else if c = '}' then
      (if acc.isEmpty then '{' :: '}' :: oasToPostmanChars cs none
       else (':' :: acc.reverse) ++ oasToPostmanChars cs none)
    else if c = '/' then ('{' :: acc.reverse) ++ '/' :: oasToPostmanChars cs none
    else oasToPostmanChars cs (some (c :: acc))

/-- Modelled from the spec: `postman2.APIURLOasToPostman` is declared in package `postman2`,
outside the files at hand. Following "convert every `{name}` placeholder in the normalized path
into a `:name` segment". -/
def APIURLOasToPostman (urlWithOasVars : String) : String :=
  String.mk (oasToPostmanChars urlWithOasVars.data none)

/-- Modelled from the spec: `postman2.NewURLForGoURL` is declared in package `postman2`, outside
the files at hand. Following "URL: host, scheme, ordered path-segment list ..., plus a mapping
from variable name to an optional default value", "an empty resulting path is valid (root
path)" and the selection rules "... → specification's declared host → empty" and "first
non-empty entry", for which a blank value counts as none: host and scheme are taken over with
their surrounding white space removed, the path is cut into its segments at the slashes (no
segment for the empty path), and there is no variable yet. -/
def NewURLForGoURL (goURL : GoURL) : URL :=
  { Host := TrimSpace goURL.Host,
    Protocol := TrimSpace goURL.Scheme,
    Path := if goURL.Path.length = 0 then [] else Split goURL.Path '/',
    Variable := [] }

/-- Modelled from the spec: `URL.AddVariable` is declared in package `postman2`, outside the
files at hand. Following "copy its `Default` (absent if none) into the URL's variable map". -/
def URL.AddVariable (url : URL) (key : String) (value : Option String) : URL :=
  { url with Variable := mapSet url.Variable key value }

/-- The white space of the regular expression class `\s`. -/
def isRegexSpace (c : Char) : Bool :=
  c = ' ' || c = '\t' || c = '\n' || c = '\r' || c.val = 0x0C

/-- The second capture group of the first match of `rx4`, the expression
`^\s*(:(.+))\s*$`, in `part`, if `part` matches: after leading white space and a colon, the
rest of the text up to its first line feed, which is not empty and is followed by white space
only. -/
def matchVariable (part : String) : Option String :=
  match part.data.dropWhile isRegexSpace with
  | ':' :: rest =>
    let name := rest.takeWhile (fun c => c ≠ '\n')
    let tail := rest.dropWhile (fun c => c ≠ '\n')
    if !name.isEmpty && tail.all isRegexSpace then some (String.mk name) else none
  | _ => none

/-- The loop over `endpoint.Parameters`: the default of the first parameter of the given
name. -/
def findDefault : List Swagger2Parameter → String → Option String
  | [], _ => none
  | parameter :: rest, baseVariable =>
    if parameter.Name = baseVariable then parameter.Default else findDefault rest baseVariable

/-- The loop over `postmanURL.Path` that sets the default values of the path variables. -/
def addPathVariables (endpoint : Endpoint) : List String → URL → URL
  | [], postmanURL => postmanURL
  | part :: rest, postmanURL =>
    match matchVariable part with
    | some baseVariable =>
      addPathVariables endpoint rest
        (postmanURL.AddVariable baseVariable (findDefault endpoint.Parameters baseVariable))
    | none => addPathVariables endpoint rest postmanURL

/-- Function `BuildPostmanURL`: creates a Postman 2.0 URL from a Swagger URL (`endpoint` is not
nil). -/
def BuildPostmanURL (cfg : Configuration) (swag : Specification) (swaggerURL : String)
    (endpoint : Endpoint) : URL :=
  let goURL : GoURL :=
    { Host := selectHost cfg swag,
      Path := APIURLOasToPostman (assemblePath swag swaggerURL),
      Scheme := selectScheme cfg swag }
  let postmanURL := NewURLForGoURL goURL
  addPathVariables endpoint postmanURL.Path postmanURL

/-! ## The collection (`postman2`) -/

/-- Type `postman2.Description`; `DescriptionType` is its field `Type`. -/
structure Description where
  Content : String
  DescriptionType : String
  deriving DecidableEq, Repr

/-- Type `postman2.RequestBody`: the body of a request. -/
structure PostmanRequestBody where
  Mode : String
  Raw : String
  deriving DecidableEq, Repr

/-- Type `postman2.Request`: the method, the URL, the header list and the body, a pointer that
is nil (`none`) until a body is allocated. -/
structure Request where
  Method : String
  URL : URL
  Header : List Header
  Body : Option PostmanRequestBody
  deriving DecidableEq, Repr

set_option linter.dupNamespace false

/-- Type `postman2.Item`: a folder (with child items) or a leaf request. -/
structure Item where
  Name : String
  Description : Option Description
  Item : List Item
  Request : Option Request
  deriving Repr

/-- Type `postman2.CollectionInfo`. -/
structure CollectionInfo where
  Name : String
  Description : String
  Schema : String
  deriving DecidableEq, Repr

/-- Type `postman2.Collection`. -/
structure Collection where
  Info : CollectionInfo
  Item : List Item
  deriving Repr

/-- The first item of the given name. -/
def findItem (items : List Item) (name : String) : Option Item :=
  items.find? (fun item => item.Name = name)

/-- The items with the first item of the name of `newItem` replaced by `newItem`, or with
`newItem` appended when no item has that name. -/
def upsertItem : List Item → Item → List Item
  | [], newItem => [newItem]
  | item :: rest, newItem =>
    if item.Name = newItem.Name then newItem :: rest else item :: upsertItem rest newItem

/-- Modelled from the spec: `Collection.GetOrNewFolder` is declared in package `postman2`,
outside the files at hand. Following "create or fetch a top-level folder named after the group":
the first top-level folder of that name, or a new folder of that name without child items. -/
def Collection.GetOrNewFolder (col : Collection) (folderName : String) : Spectrum.Item :=
  match findItem col.Item folderName with
  | some folder => folder
  | none => { Name := folderName, Description := none, Item := [], Request := none }

/-- Modelled from the spec: `Collection.SetFolder` is declared in package `postman2`, outside the
files at hand. Following "folder names are unique at each tree level; re-adding a folder with
the same name merges into the existing node rather than duplicating it": the folder takes the
place of the first top-level folder of its name (the one `GetOrNewFolder` hands out for
changing), and is appended when there is none. -/
def Collection.SetFolder (col : Collection) (newFolder : Spectrum.Item) : Collection :=
  { col with Item := upsertItem col.Item newFolder }

/-- Modelled from the spec: `Item.UpsertSubItem` is declared in package `postman2`, outside the
files at hand. Following "create or merge a child folder named after the tag": the item takes
the place of the first child item of its name, and is appended when there is none. -/
def Item.UpsertSubItem (item : Spectrum.Item) (newItem : Spectrum.Item) : Spectrum.Item :=
  { item with Item := upsertItem item.Item newItem }

/-! ## `folders.go`: folders from tags and tag groups -/

/-- Modelled from the spec: `TagsMore.Get` is declared in package `openapi3`, outside the files
at hand. Following "attaching the tag's description when declared": the first entry of the tag
list that is not nil and has the given name. -/
def TagsMoreGet : List (Option Tag) → String → Option Tag
  | [], _ => none
  | none :: rest, tagName => TagsMoreGet rest tagName
  | some tag :: rest, tagName => if tag.Name = tagName then some tag else TagsMoreGet rest tagName

/-- Modelled from the spec: `taggroups.SpecTagGroups` is declared in package `taggroups`, outside
the files at hand. Following "TagGroupSet: optional document extension mapping a group name to
an ordered list of member tag names": the groups of the extension, or the error of reading
it. -/
def SpecTagGroups (spec : Spec) : Except String TagGroupSet :=
  match spec.TagGroups with
  | .ok groups => .ok { TagGroups := groups }
  | .error e => .error e

/-- The folder `subFolder` that `addFoldersFromTagGroups` builds for a trimmed tag name. -/
def tagSubFolder (tags : List (Option Tag)) (tagName : String) : Item :=
  let subFolder : Item := { Name := tagName, Description := none, Item := [], Request := none }
  match TagsMoreGet tags tagName with
  | some tag =>
    { subFolder with
      Description := some { Content := TrimSpace tag.Description,
                            DescriptionType := ContentTypeTextPlain } }
  | none => subFolder

/-- The loop over `tg.Tags` in `addFoldersFromTagGroups`. -/
def upsertTagFolders (tags : List (Option Tag)) : List String → Item → Item
  | [], topFolder => topFolder
  | tagName :: rest, topFolder =>
    let tagName := TrimSpace tagName
    if tagName.length = 0 then upsertTagFolders tags rest topFolder
    else upsertTagFolders tags rest (topFolder.UpsertSubItem (tagSubFolder tags tagName))

/-- The loop over `tgSet.TagGroups` in `addFoldersFromTagGroups`. -/
def addTagGroups (tags : List (Option Tag)) : List TagGroup → Collection →
    Collection × Option String
  | [], pman => (pman, none)
  | tg :: rest, pman =>
    let name := TrimSpace tg.Name
    if name.length = 0 ∧ tg.Tags.length > 0 then
      (pman, some ("E_TAG_GROUP_EMPTY_NAME TAGS [" ++ Join tg.Tags "," ++ "]"))
    else
      let topFolder := pman.GetOrNewFolder name
      let topFolder := upsertTagFolders tags tg.Tags topFolder
      addTagGroups tags rest (pman.SetFolder topFolder)

/-- Function `addFoldersFromTagGroups`: the collection and the error (`none` for nil). -/
def addFoldersFromTagGroups (pman : Collection) (tgSet : TagGroupSet)
    (tags : List (Option Tag)) : Collection × Option String :=
  addTagGroups tags tgSet.TagGroups pman

/-- Function `addFoldersFromTags`: one top-level folder for every tag that is not nil and whose
trimmed name is not empty. -/
def addFoldersFromTags : Collection → List (Option Tag) → Collection
  | pman, [] => pman
  | pman, none :: rest => addFoldersFromTags pman rest
  | pman, some tag :: rest =>
    let folder : Item :=
      { Name := TrimSpace tag.Name,
        Description := some { Content := TrimSpace tag.Description,
                              DescriptionType := ContentTypeTextPlain },
        Item := [], Request := none }
    if folder.Name.length = 0 then addFoldersFromTags pman rest
    else addFoldersFromTags (pman.SetFolder folder) rest

/-- Function `CreateTagsAndTagGroups`: the collection and the error (`none` for nil). -/
def CreateTagsAndTagGroups (pman : Collection) (spec : Spec) : Collection × Option String :=
  match SpecTagGroups spec with
  | .error err => (pman, some err)
  | .ok tagGroupSet =>
    if tagGroupSet.TagGroups.length > 0 then addFoldersFromTagGroups pman tagGroupSet spec.Tags
    else (addFoldersFromTags pman spec.Tags, none)

/-! ## `convert_swagger2_to_postman2.go`: `Merge` -/

/-- Upper-case mapping of a rune, for the Latin small letters and the two other runes whose
upper case is a Latin letter (U+0131, U+017F); other runes are kept. -/
def toUpperRune (c : Char) : Char :=
  if c.val = 0x131 then 'I' else if c.val = 0x17F then 'S' else c.toUpper

/-- Go `strings.ToUpper`. -/
def ToUpper (s : String) : String := ⟨s.data.map toUpperRune⟩

/-- The order of Go strings on their characters: lexicographic by code point. -/
def charsLe : List Char → List Char → Bool
  | [], _ => true
  | _ :: _, [] => false
  | a :: as, b :: bs => a.toNat < b.toNat || (a.toNat = b.toNat && charsLe as bs)

/-- The order `a <= b` of Go strings. -/
def strLe (a b : String) : Bool := charsLe a.data b.data

/-- Go `sort.Strings`: the strings in ascending order. -/
def sortStrings (urls : List String) : List String :=
  urls.insertionSort (fun a b => strLe a b = true)

/-- Modelled from the spec: `Path.HasMethodWithTag` is declared in package `openapi2`, outside
the files at hand. Following "Leaf operation items are filed into the folder matching their
first declared tag only; operations with no tags are dropped": the path declares an endpoint for
the method and the endpoint has at least one tag. -/
def Path.HasMethodWithTag (path : Path) (method : String) : Bool :=
  let endpoint : Option Endpoint :=
    if method = "GET" then path.Get
    else if method = "PATCH" then path.Patch
    else if method = "POST" then path.Post
    else if method = "PUT" then path.Put
    else if method = "DELETE" then path.Delete
    else none
  match endpoint with
  | some e => e.Tags.length > 0
  | none => false

/-- Constant `httputilmore.HeaderContentType`. -/
def HeaderContentType : String := "Content-Type"

/-- Constant `httputilmore.HeaderAccept`. -/
def HeaderAccept : String := "Accept"

/-- Constant `httputilmore.ContentTypeAppJSONUtf8`. -/
def ContentTypeAppJSONUtf8 : String := "application/json; charset=utf-8"

/-- Modelled from the spec: `postman2.DefaultMediaTypePreferencesSlice` is declared in package
`postman2`, outside the files at hand. Following "a global ranked preference list of media
types"; the entries are those of the retired constant `DefaultContentTypePreferences` that
`configuration.go` keeps in a comment. -/
def DefaultMediaTypePreferencesSlice : List String :=
  ["multipart/form-data", "application/json", "application/x-www-form-urlencoded",
    "application/xml", "text/plain"]

/-- Modelled from the spec: `postman2.AppendPostmanHeaderValueLower` is declared in package
`postman2`, outside the files at hand. Following "if the declared list is non-empty, select the
first entry that also appears in the preference list (preference order wins over declaration
order); if none matches, fall back to the first declared entry; if the declared list is empty,
emit no header for that concern. Returns both the updated header list and the single chosen
value ... matching is case-insensitive; the emitted header name is fixed". -/
def AppendPostmanHeaderValueLower (headers : List Header) (headerName : String)
    (options preferences : List String) : List Header × String :=
  match options with
  | [] => (headers, "")
  | first :: _ =>
    let preferred := preferences.filterMap
      (fun preference => options.find? (fun option => ToLower option = ToLower preference))
    let chosen := preferred.head?.getD first
    (headers ++ [{ Key := headerName, Value := chosen }], chosen)

/-- Modelled from the spec: `openapi2.GetJSONBodyParameterExampleForKey` is declared in package
`openapi2`, outside the files at hand. Following "the single chosen value (used downstream to
decide whether to attach a JSON body example)" and "leaf requests with method/URL/headers/body":
the example that the first body parameter with an example for the key has for it, and an error
when no body parameter has one. -/
def GetJSONBodyParameterExampleForKey : List Swagger2Parameter → String → Except String String
  | [], _ => .error "no example"
  | param :: rest, exampleKey =>
    if param.In = "body" then
      match mapGet param.XExamples exampleKey with
      | some exampleText => .ok exampleText
      | none => GetJSONBodyParameterExampleForKey rest exampleKey
    else GetJSONBodyParameterExampleForKey rest exampleKey

/-- Whether `sub` occurs in `cs`: Go `strings.Index(cs, sub) > -1`. -/
def hasInfix (sub : List Char) : List Char → Bool
  | [] => sub.isEmpty
  | c :: cs => sub.isPrefixOf (c :: cs) || hasInfix sub cs

/-- Function `Swagger2PathToPostman2APIItem`: the item for an endpoint. The request is made
with its method and URL only, so its body is nil; the assignment `item.Request.Body.Mode =
"raw"` for an endpoint with a JSON body example dereferences that nil pointer. -/
def Swagger2PathToPostman2APIItem (cfg : Configuration) (swag : Specification) (url : String)
    (method : String) (endpoint : Endpoint) : Except Failure Item :=
  let pmURL := BuildPostmanURL cfg swag url endpoint
  let request : Request :=
    { Method := ToUpper method, URL := pmURL, Header := [], Body := none }
  let headers := cfg.PostmanHeaders
  let contentType := AppendPostmanHeaderValueLower headers HeaderContentType endpoint.Consumes
    DefaultMediaTypePreferencesSlice
  let headers := contentType.1
  let requestContentType := contentType.2
  let headers := (AppendPostmanHeaderValueLower headers HeaderAccept endpoint.Produces
    DefaultMediaTypePreferencesSlice).1
  let request := { request with Header := headers }
  let jsonCT := ContentTypeAppJSONUtf8
  if hasInfix jsonCT.data (ToLower requestContentType).data then
    match GetJSONBodyParameterExampleForKey endpoint.Parameters jsonCT with
    | .ok jsonExample =>
      let jsonExample := TrimSpace jsonExample
      if jsonExample.length ≥ 0 then
        match request.Body with
        | none => .error Failure.nilDereference
        | some body =>
          let request :=
            { request with Body := some { body with Mode := "raw", Raw := jsonExample } }
          .ok { Name := endpoint.Summary, Description := none, Item := [],
                Request := some request }
      else
        .ok { Name := endpoint.Summary, Description := none, Item := [],
              Request := some request }
    | .error _ =>
      .ok { Name := endpoint.Summary, Description := none, Item := [], Request := some request }
  else
    .ok { Name := endpoint.Summary, Description := none, Item := [], Request := some request }

/-- Function `postmanAddItemToFolder` (`pmItem` is not nil): appends the item to the folder of
the given name. -/
def postmanAddItemToFolder (pman : Collection) (pmItem : Item) (pmFolderName : String) :
    Collection :=
  let pmFolder := pman.GetOrNewFolder pmFolderName
  let pmFolder := { pmFolder with Item := pmFolder.Item ++ [pmItem] }
  pman.SetFolder pmFolder

/-- One of the five `if path.HasMethodWithTag(...)` blocks of `Merge`; under the guard the
endpoint is not nil and has a first tag. -/
def mergeMethod (cfg : Configuration) (swag : Specification) (u : String) (path : Path)
    (method : String) (endpoint : Option Endpoint) (pman : Collection) :
    Except Failure Collection :=
  if path.HasMethodWithTag method then
    match endpoint with
    | some e =>
      match Swagger2PathToPostman2APIItem cfg swag u method e with
      | .error failure => .error failure
      | .ok pmItem =>
        match e.Tags with
        | tag :: _ => .ok (postmanAddItemToFolder pman pmItem (TrimSpace tag))
        | [] => .ok pman
    | none => .ok pman
  else .ok pman

/-- The body of the loop over the sorted paths in `Merge`. -/
def mergePath (cfg : Configuration) (swag : Specification) (pman : Collection) (u : String) :
    Except Failure Collection :=
  let path : Path := (mapGet swag.Paths u).getD
    { Get := none, Patch := none, Post := none, Put := none, Delete := none }
  match mergeMethod cfg swag u path "GET" path.Get pman with
  | .error failure => .error failure
  | .ok pman =>
  match mergeMethod cfg swag u path "PATCH" path.Patch pman with
  | .error failure => .error failure
  | .ok pman =>
  match mergeMethod cfg swag u path "POST" path.Post pman with
  | .error failure => .error failure
  | .ok pman =>
  match mergeMethod cfg swag u path "PUT" path.Put pman with
  | .error failure => .error failure
  | .ok pman => mergeMethod cfg swag u path "DELETE" path.Delete pman

/-- The loop over the sorted paths in `Merge`. -/
def mergePaths (cfg : Configuration) (swag : Specification) :
    List String → Collection → Except Failure Collection
  | [], pman => .ok pman
  | u :: urls, pman =>
    match mergePath cfg swag pman u with
    | .error failure => .error failure
    | .ok pman => mergePaths cfg swag urls pman

/-- The head of `Merge`: name, description and schema of the collection are taken from the
specification when they are empty. -/
def mergeInfo (pman : Collection) (swag : Specification) : Collection :=
  let info := pman.Info
  let info := if info.Name.length = 0 then { info with Name := TrimSpace swag.Info.Title }
    else info
  let info := if info.Description.length = 0 then
      { info with Description := TrimSpace swag.Info.Description }
    else info
  let info := if info.Schema.length = 0 then
      { info with Schema := "https://schema.getpostman.com/json/collection/v2.0.0/collection.json" }
    else info
  { pman with Info := info }

/-- Function `Merge`: creates a Postman 2.0 collection from a configuration, a base collection
and a Swagger 2.0 specification. -/
def Merge (cfg : Configuration) (pman : Collection) (swag : Specification) :
    Except Failure Collection :=
  let urls := sortStrings (swag.Paths.map (fun e => e.1))
  mergePaths cfg swag urls (mergeInfo pman swag)

/-! ## `validate_and_fix.go`: the parameter check with its side effect -/

/-- One iteration of the loop over `varNamesPath`, for a check `opm.HasParameter` that is given
as a function from the operation and the name to the answer and the operation as the check
leaves it. -/
def pathParamStepWith (hasParameter : Operation → String → Bool × Operation) (fix : Bool)
    (st : PathParamLoop) (varName : String) : PathParamLoop :=
  let answer := hasParameter st.op varName
  let st := { st with op := answer.2 }
  if !answer.1 then
    if fix then
      { st with
        op := { st.op with Parameters := st.op.Parameters ++ [newParamRef varName] },
        fixed := true }
    else { st with varNamesMissing := st.varNamesMissing ++ [varName] }
  else st

/-- The loop over `varNamesPath`, for the given check. -/
def pathParamLoopWith (hasParameter : Operation → String → Bool × Operation) (fix : Bool)
    (op : Operation) (varNamesPath : List String) : PathParamLoop :=
  varNamesPath.foldl (pathParamStepWith hasParameter fix)
    { op := op, varNamesMissing := [], fixed := false }

/-- The visitor callback of `ValidateFixOperationPathParameters`, for the given check. -/
def pathParametersVisitWith (hasParameter : Operation → String → Bool × Operation)
    (fix : Bool) (path method : String) (op : Operation)
    (errorOperations : List OperationMeta) :
    Except Failure (Operation × List OperationMeta) :=
  let varNamesPath := ParsePathParametersParens path
  if varNamesPath.length = 0 then .ok (op, errorOperations)
  else
    let st := pathParamLoopWith hasParameter fix op varNamesPath
    let sorted : Except Failure Operation :=
      if st.fixed then
        match SortParameters st.op.Parameters varNamesPath with
        | .ok ps => .ok { st.op with Parameters := ps }
        | .error e => .error e
      else .ok st.op
    match sorted with
    | .error e => .error e
    | .ok op' =>
      if st.varNamesMissing.length > 0 then
        let om := OperationToMeta path method op' []
        let om := { om with MetaNotes := om.MetaNotes ++
          ["E_OP_MISSING_PATH_PARAMETER PARAM_NAMES[" ++ Join st.varNamesMissing "," ++ "]"] }
        .ok (op', errorOperations ++ [om])
      else .ok (op', errorOperations)

/-- Function `ValidateFixOperationPathParameters`, for the given check. With the check
`HasParameter` that leaves the operation alone it is `ValidateFixOperationPathParameters`. -/
def ValidateFixOperationPathParametersWith
    (hasParameter : Operation → String → Bool × Operation) (spec : Spec) (fix : Bool) :
    Except Failure PassResult :=
  match VisitOperations spec (pathParametersVisitWith hasParameter fix) [] with
  | .error e => .error e
  | .ok (spec', errorOperations) => .ok (finishPass spec' errorOperations)

/-! ## `security.go` -/

/-- Constant `SecuritySchemeApikeyDefaultName`. -/
def SecuritySchemeApikeyDefaultName : String := "ApiKeyAuth"

/-- Constant `SecuritySchemeBearertokenDefaultName`. -/
def SecuritySchemeBearertokenDefaultName : String := "BearerAuth"

/-- Function `SecuritySchemeApikeyAddDefinition`: the document it leaves and the error (`none`
for nil). -/
def SecuritySchemeApikeyAddDefinition (spec : Spec) (schemeName location name : String) :
    Spec × Option String :=
  let schemeName := TrimSpace schemeName
  let location := TrimSpace location
  let name := TrimSpace name
  let schemeName :=
    if schemeName.length = 0 then SecuritySchemeApikeyDefaultName else schemeName
  if location.length = 0 then
    (spec, some ("api key security scheme location cannot be empty. " ++
      "Must be one of: [\"header\", \"query\", \"cookie\"]"))
  else if location ≠ "header" ∧ location ≠ "query" ∧ location ≠ "cookie" then
    (spec, some ("api key security scheme invalid location [" ++ location ++
      "], must be one of: [\"header\", \"query\", \"cookie\"]"))
  else if name.length = 0 then
    (spec, some "api key security scheme name cannot be empty")
  else
    let schemes := spec.Components.SecuritySchemes.getD []
    let scheme : SecuritySchemeRef :=
      { Ref := "",
        Value := some
          { SchemeType := "apiKey", In := location, Name := name, Scheme := "",
            BearerFormat := "" } }
    ({ spec with
       Components :=
         { spec.Components with SecuritySchemes := some (mapSet schemes schemeName scheme) } },
      none)

/-- The loops that fill `inclTagsMap` and `skipTagsMap`: every tag, trimmed and in lower case,
that is not empty becomes a key. -/
def tagsMap : List String → GoMap Nat → GoMap Nat
  | [], m => m
  | tag :: rest, m =>
    let tag := ToLower (TrimSpace tag)
    if tag.length > 0 then tagsMap rest (mapSet m tag 1) else tagsMap rest m

/-- The loop over `op.Tags` in the callback of `SecuritySchemeBearertokenAddOperationsByTags`:
the value of `addSecurity` after it. -/
def addSecurityLoop (inclTagsMap skipTagsMap : GoMap Nat) : List String → Bool → Bool
  | [], addSecurity => addSecurity
  | tag :: rest, addSecurity =>
    let tag := ToLower (TrimSpace tag)
    let addSecurity := if (mapGet inclTagsMap tag).isSome then true else addSecurity
    let addSecurity :=
      if inclTagsMap.length = 0 then
        if skipTagsMap.length = 0 then true
        else if !(mapGet skipTagsMap tag).isSome then true
        else addSecurity
      else addSecurity
    addSecurityLoop inclTagsMap skipTagsMap rest addSecurity

/-- Modelled from the spec: `OperationEdit.AddSecurityRequirement` (on the edit handle that
`NewOperationEdit` makes for the operation) is declared in package `openapi3edit`, outside the
files at hand. Following "inclusion/exclusion tag or path-method filters for security-scheme
application": the requirement of the scheme, with its scopes, is added to the security
requirements of the operation. -/
def AddSecurityRequirement (op : Operation) (securitySchemeName : String)
    (securityScopes : List String) : Operation :=
  { op with
    Security := some ((op.Security.getD []) ++ [[(securitySchemeName, securityScopes)]]) }

/-- The visitor callback of `SecuritySchemeBearertokenAddOperationsByTags`. -/
def bearertokenVisit (schemeName : String) (inclTagsMap skipTagsMap : GoMap Nat) :
    VisitOp Unit :=
  fun _skipPath _skipMethod op s =>
    if addSecurityLoop inclTagsMap skipTagsMap op.Tags false then
      .ok (AddSecurityRequirement op schemeName [], s)
    else .ok (op, s)

/-- Function `SecuritySchemeBearertokenAddOperationsByTags`: the document it leaves. -/
def SecuritySchemeBearertokenAddOperationsByTags (spec : Spec) (schemeName : String)
    (inclTags skipTags : List String) : Except Failure Spec :=
  let inclTagsMap := tagsMap inclTags []
  let skipTagsMap := tagsMap skipTags []
  match VisitOperations spec (bearertokenVisit schemeName inclTagsMap skipTagsMap) () with
  | .error e => .error e
  | .ok (spec', _) => .ok spec'

/-! ## `openapi3lint`: the rules -/

/-- Type `lintutil.PolicyViolation`. -/
structure PolicyViolation where
  RuleName : String
  Location : String
  Value : String
  deriving DecidableEq, Repr

/-- Modelled from the spec: constant `lintutil.RulenameTagStyleFirstUpperCase` is declared in
package `lintutil`, outside the files at hand. Following "exactly one violation with rule name
`tag-style-first-uppercase`". -/
def RulenameTagStyleFirstUpperCase : String := "tag-style-first-uppercase"

/-- Modelled from the spec: constant `lintutil.ScopeOperation` is declared in package
`lintutil`, outside the files at hand. Following "Scope() → "operation" | "specification"". -/
def ScopeOperation : String := "operation"

/-- Modelled from the spec: constant `lintutil.ScopeSpecification` is declared in package
`lintutil`, outside the files at hand. Following "Scope() → "operation" | "specification"". -/
def ScopeSpecification : String := "specification"

/-- Modelled from the spec: constant `openapi3.PropertyTags` is declared in package `openapi3`,
outside the files at hand. Following "emit a violation pointing at that tag's index in the
operation": the name of the property `tags` of an operation. -/
def PropertyTags : String := "tags"

/-- Library function `jsonpointer.PointerSubEscape` of `mogo`: the escaping of a JSON pointer
token, `~` becomes `~0` and `/` becomes `~1`. -/
def PointerSubEscape (s : String) : String :=
  String.mk (s.data.flatMap (fun c =>
    if c = '~' then ['~', '0'] else if c = '/' then ['~', '1'] else [c]))

/-- The call `jsonpointer.PointerSubEscapeAll("%s#/paths/%s/%s/tags/", pointerBase, path,
method)`: the string arguments are escaped and put into the format. -/
def operationTagsPointer (pointerBase path method : String) : String :=
  PointerSubEscape pointerBase ++ "#/paths/" ++ PointerSubEscape path ++ "/" ++
    PointerSubEscape method ++ "/tags/"

/-- The call `jsonpointer.PointerSubEscapeAll("%s#/tags/%d/name", pointerBase, i)`. -/
def documentTagPointer (pointerBase : String) (i : Nat) : String :=
  PointerSubEscape pointerBase ++ "#/tags/" ++ toString i ++ "/name"

/-- Method `RuleTagStyleFirstUpperCase.Name` (for a rule made by `NewRule`). -/
def RuleTagStyleFirstUpperCase.Name : String := RulenameTagStyleFirstUpperCase

/-- Method `RuleTagStyleFirstUpperCase.Scope`. -/
def RuleTagStyleFirstUpperCase.Scope : String := ScopeOperation

/-- Method `RuleTagStyleFirstUpperCase.ProcessOperation`: it returns nil. -/
def RuleTagStyleFirstUpperCase.ProcessOperation (_spec : Option Spec) (_op : Option Operation)
    (_opPointer _path _method : String) : List PolicyViolation :=
  []

/-- The loop `for i, tag := range op.Tags` of `ProcessSpec`, from index `i` on.
`isFirstAlphaUpper` stands for the library function `stringcase.IsFirstAlphaUpper` of
`mogo`. -/
def operationTagViolations (isFirstAlphaUpper : String → Bool) (opLoc : String) :
    Nat → List String → List PolicyViolation
  | _, [] => []
  | i, tag :: rest =>
    if !isFirstAlphaUpper tag then
      { RuleName := RuleTagStyleFirstUpperCase.Name, Location := opLoc ++ toString i,
        Value := tag } :: operationTagViolations isFirstAlphaUpper opLoc (i + 1) rest
    else operationTagViolations isFirstAlphaUpper opLoc (i + 1) rest

/-- The visitor callback of `ProcessSpec` for a non-nil operation. -/
def tagStyleVisit (isFirstAlphaUpper : String → Bool) (pointerBase : String) :
    VisitOp (List PolicyViolation) :=
  fun path method op vios =>
    let opLoc := operationTagsPointer pointerBase path method
    .ok (op, vios ++ operationTagViolations isFirstAlphaUpper opLoc 0 op.Tags)

/-- The loop `for i, tag := range spec.Tags` of `ProcessSpec`, from index `i` on. -/
def documentTagViolations (isFirstAlphaUpper : String → Bool) (pointerBase : String) :
    Nat → List (Option Tag) → List PolicyViolation
  | _, [] => []
  | i, none :: rest =>
    { RuleName := RuleTagStyleFirstUpperCase.Name, Location := documentTagPointer pointerBase i,
      Value := "" } :: documentTagViolations isFirstAlphaUpper pointerBase (i + 1) rest
  | i, some tag :: rest =>
    if !isFirstAlphaUpper tag.Name then
      { RuleName := RuleTagStyleFirstUpperCase.Name,
        Location := documentTagPointer pointerBase i,
        Value := tag.Name } :: documentTagViolations isFirstAlphaUpper pointerBase (i + 1) rest
    else documentTagViolations isFirstAlphaUpper pointerBase (i + 1) rest

/-- Method `RuleTagStyleFirstUpperCase.ProcessSpec`; `isFirstAlphaUpper` stands for the library
function `stringcase.IsFirstAlphaUpper` of `mogo`. -/
def RuleTagStyleFirstUpperCase.ProcessSpec (isFirstAlphaUpper : String → Bool) (spec : Spec)
    (pointerBase : String) : Except Failure (List PolicyViolation) :=
  match VisitOperations spec (tagStyleVisit isFirstAlphaUpper pointerBase) [] with
  | .error e => .error e
  | .ok (_, vios) =>
    .ok (vios ++ documentTagViolations isFirstAlphaUpper pointerBase 0 spec.Tags)

/-- Constant `RuleName` of package `ruletaggroupexist`. -/
def RuleTagHasGroup.RuleName : String := "x-tag-has-group"

/-- Method `RuleTagHasGroup.Scope`. -/
def RuleTagHasGroup.Scope : String := ScopeOperation

/-- Modelled from the spec: `TagGroupSet.Exists` is declared in package `taggroups`, outside
the files at hand. Following "every operation tag must appear in some declared tag group": some
group lists the tag name. -/
def TagGroupSet.Exists (set : TagGroupSet) (tagName : String) : Bool :=
  set.TagGroups.any (fun tg => tg.Tags.contains tagName)

/-- The loop `for i, tagName := range op.Tags` of `RuleTagHasGroup.ProcessOperation`, from
index `i` on. `joinAbsolute` stands for the library function `urlutil.JoinAbsolute` of
`mogo`. -/
def tagGroupViolations (joinAbsolute : List String → String) (tagGroups : TagGroupSet)
    (opPointer : String) : Nat → List String → List PolicyViolation
  | _, [] => []
  | i, tagName :: rest =>
    if !tagGroups.Exists tagName then
      { RuleName := RuleTagHasGroup.RuleName,
        Location := joinAbsolute [opPointer, PropertyTags, toString i],
        Value := tagName } :: tagGroupViolations joinAbsolute tagGroups opPointer (i + 1) rest
    else tagGroupViolations joinAbsolute tagGroups opPointer (i + 1) rest

/-- Method `RuleTagHasGroup.ProcessOperation`; `joinAbsolute` stands for the library function
`urlutil.JoinAbsolute` of `mogo`. -/
def RuleTagHasGroup.ProcessOperation (joinAbsolute : List String → String)
    (spec : Option Spec) (op : Option Operation) (opPointer _path _method : String) :
    List PolicyViolation :=
  match spec, op with
  | some spec, some op =>
    if op.Tags.length = 0 then []
    else
      match SpecTagGroups spec with
      | .error err =>
        [{ RuleName := RuleTagHasGroup.RuleName, Location := "#/x-tag-groups", Value := err }]
      | .ok tagGroups => tagGroupViolations joinAbsolute tagGroups opPointer 0 op.Tags
  | _, _ => []

/-- Method `RuleTagHasGroup.ProcessSpec`. -/
def RuleTagHasGroup.ProcessSpec (_spec : Option Spec) (_pointerBase : String) :
    List PolicyViolation :=
  []

/-- The operations a path item declares, each with its method, in visiting order. -/
def PathItem.operations (pathItem : PathItem) : List (String × Operation) :=
  [("GET", pathItem.Get), ("PATCH", pathItem.Patch), ("POST", pathItem.Post),
    ("PUT", pathItem.Put), ("DELETE", pathItem.Delete)].filterMap
    (fun e => e.2.map (fun op => (e.1, op)))

/-- Whether a parameter reference has a value of the given name. -/
def hasName (pRef : ParameterRef) (name : String) : Bool :=
  match pRef.Value with
  | some p => p.Name = name
  | none => false

/-- The path variables of `path` that the operation does not declare, in path order. -/
def missingPathParameters (path : String) (op : Operation) : List String :=
  (ParsePathParametersParens path).filter (fun varName => !HasParameter op varName)

/-- The diagnostic that names the given missing path parameters. -/
def missingParametersMeta (path method : String) (names : List String) : OperationMeta :=
  { Path := path, Method := method,
    MetaNotes := ["E_OP_MISSING_PATH_PARAMETER PARAM_NAMES[" ++ Join names "," ++ "]"] }

/-- What the path-parameter pass reports for one operation in report mode. -/
def reportPathParameters (path method : String) (op : Operation) : List OperationMeta :=
  if (missingPathParameters path op).length > 0 then
    [missingParametersMeta path method (missingPathParameters path op)]
  else []

/-- What the request-body pass reports for one operation in report mode. -/
def reportRequestBody (path method : String) (op : Operation) : List OperationMeta :=
  match op.RequestBody with
  | none => []
  | some requestBody =>
    if requestBody.Ref.length > 0 then
      [{ Path := path, Method := method,
         MetaNotes := ["E_REQUEST_BODY_DEFINITION REF[" ++ requestBody.Ref ++ "]"] }]
    else []

/-- The name of a parameter reference (empty when it has no value). -/
def refName (pRef : ParameterRef) : String :=
  match pRef.Value with
  | some p => p.Name
  | none => ""

/-- The names of the parameters that have a value, in list order. -/
def valuedNames (params : Parameters) : List String :=
  params.filterMap (fun pRef => pRef.Value.map (fun p => p.Name))

/-- For every name of the order list, in the order of that list, the parameter of that name (the
first one in the source list), if there is one. -/
def namedInOrder (sourceParams : Parameters) (sortOrder : List String) : Parameters :=
  sortOrder.filterMap (fun name => sourceParams.find? (fun pRef => hasName pRef name))

/-- Whether a parameter reference has no value or a name that is not in the order list. -/
def notNamedIn (sortOrder : List String) (pRef : ParameterRef) : Bool :=
  match pRef.Value with
  | none => true
  | some p => !sortOrder.contains p.Name

/-- The parameters without a value or with a name that is not in the order list, in their
original relative order. -/
def remainingInOrder (sourceParams : Parameters) (sortOrder : List String) : Parameters :=
  sourceParams.filter (notNamedIn sortOrder)

/-- Whether the characters contain two slashes in a row. -/
def hasRepeatedSlash : List Char → Bool
  | [] => false
  | [_] => false
  | c :: d :: rest => (c = '/' && d = '/') || hasRepeatedSlash (d :: rest)

/-! ## Sample documents -/

/-- A parameter reference with a value of the given name and location. -/
def sampleParam (name location : String) : ParameterRef :=
  { Ref := "", Value := some { Name := name, In := location, Required := false, Schema := none } }

/-- An operation with the given parameters and nothing else. -/
def sampleOperation (params : Parameters) : Operation :=
  { Tags := [], Parameters := params, RequestBody := none, Responses := [],
    Security := none }

/-- A document with one path that declares a GET operation only. -/
def sampleSpec (path : String) (op : Operation) : Spec :=
  let pathItem : PathItem :=
    { Get := some op, Patch := none, Post := none, Put := none, Delete := none }
  { Paths := [(path, pathItem)],
    Components := { RequestBodies := [], SecuritySchemes := none }, Tags := [],
    TagGroups := .ok [] }

/-- A document whose only operation, a GET on `/x/{a}/{b}`, declares the path parameter `b` and
misses `a`. -/
def specMissingA : Spec := sampleSpec "/x/{a}/{b}" (sampleOperation [sampleParam "b" "path"])

/-- The diagnostic of report mode for the operation of `specMissingA`. -/
def metaMissingA : OperationMeta :=
  { Path := "/x/{a}/{b}", Method := "GET",
    MetaNotes := ["E_OP_MISSING_PATH_PARAMETER PARAM_NAMES[a]"] }

/-- A response reference whose only content entry is `application/json` with an inline schema
of the given type. -/
def jsonResponse (schemaType : String) : ResponseRef :=
  { Ref := "",
    Value := some { Content := [("application/json",
      some { Schema := some { Ref := "", Value := some { SchemaType := schemaType } } })] } }

/-- A document whose only operation, a GET on `/text`, answers 200 with a JSON string. -/
def specStringResponse : Spec :=
  sampleSpec "/text"
    { sampleOperation [] with Responses := [("200", some (jsonResponse "string"))] }

/-- The diagnostic of report mode for the operation of `specStringResponse`. -/
def metaStringResponse : OperationMeta :=
  { Path := "/text", Method := "GET",
    MetaNotes := ["E_BAD_MIME_TYPE_AND_SCHEMA MT[application/json] type[string]"] }

/-- An operation that declares `b` twice, in the path and in a header, and does not declare
`a`. -/
def opTwiceB : Operation := sampleOperation [sampleParam "b" "path", sampleParam "b" "header"]

/-- The document `specMissingA` after the fix: the synthesized parameter `a` comes first. -/
def specMissingAFixed : Spec :=
  sampleSpec "/x/{a}/{b}" (sampleOperation [newParamRef "a", sampleParam "b" "path"])

/-- An endpoint with the given parameters and nothing else. -/
def sampleEndpoint (params : List Swagger2Parameter) : Endpoint :=
  { Tags := [], Summary := "", Consumes := [], Produces := [], Parameters := params }

/-- The configuration without overrides. -/
def noOverrides : Configuration :=
  { PostmanURLBase := "", PostmanURLHostname := "", PostmanHeaders := [] }

/-- A specification with host `example.com`, base path `/v1` and the given schemes. -/
def exampleSwagger (schemes : List String) : Specification :=
  { Info := { Title := "", Description := "" }, Host := "example.com", BasePath := "/v1",
    Schemes := schemes, Paths := [] }

/-- The first non-blank value, with surrounding white space removed, among the given values;
the empty string when all are blank. -/
def firstNonBlankTrimmed : List String → String
  | [] => ""
  | v :: rest => if (TrimSpace v).length > 0 then TrimSpace v else firstNonBlankTrimmed rest

/-- The path item with every declared operation replaced by its image under `g`, which is
given the method. -/
def PathItem.mapOperations (g : String → Operation → Operation) (pathItem : PathItem) :
    PathItem :=
  { Get := pathItem.Get.map (g "GET"), Patch := pathItem.Patch.map (g "PATCH"),
    Post := pathItem.Post.map (g "POST"), Put := pathItem.Put.map (g "PUT"),
    Delete := pathItem.Delete.map (g "DELETE") }

/-- The document with every declared operation replaced by its image under `g`, which is given
the path and the method. -/
def Spec.mapOperations (g : String → String → Operation → Operation) (spec : Spec) : Spec :=
  { spec with Paths := spec.Paths.map (fun e => (e.1, e.2.mapOperations (g e.1))) }

/-- The diagnostics `d` gives for the declared operations of the document, in visiting
order. -/
def Spec.collect (d : String → String → Operation → List OperationMeta) (spec : Spec) :
    List OperationMeta :=
  spec.Paths.flatMap (fun e => e.2.operations.flatMap (fun mo => d e.1 mo.1 mo.2))

/-- What move mode does to one operation: a request body that is a bare reference is replaced
by the component it resolves to, and left as it is when it does not resolve. -/
def moveBody (components : Components) (op : Operation) : Operation :=
  match op.RequestBody with
  | none => op
  | some requestBody =>
    if requestBody.Ref.length > 0 then
      match ComponentRequestBody components requestBody.Ref with
      | some requestBodyRef => { op with RequestBody := some requestBodyRef }
      | none => op
    else op

/-- Whether a media type is `application/json` after trimming and lower-casing. -/
def isJSONMediaType (mediaTypeOrig : String) : Bool :=
  ToLower (TrimSpace mediaTypeOrig) = ContentTypeAppJSON

/-- The type of the inline schema of a media-type entry: `none` when the entry, its schema
reference or the schema is missing, or when the schema is a reference. -/
def inlineSchemaType (mtRef : Option MediaType) : Option String :=
  match mtRef with
  | none => none
  | some mt =>
    match mt.Schema with
    | none => none
    | some schemaRef =>
      if schemaRef.Ref.length = 0 then schemaRef.Value.map (fun schema => schema.SchemaType)
      else none

/-- The diagnostic of the response-type pass for a JSON entry of the given schema type. -/
def badMimeTypeMeta (path method mediaTypeOrig schemaType : String) : OperationMeta :=
  { Path := path, Method := method,
    MetaNotes := ["E_BAD_MIME_TYPE_AND_SCHEMA MT[" ++ ToLower (TrimSpace mediaTypeOrig) ++
      "] type[" ++ schemaType ++ "]"] }

/-- The collision diagnostic of the response-type pass for a JSON entry of the given schema
type. -/
def collisionMeta (path method mediaTypeOrig schemaType : String) : OperationMeta :=
  { Path := path, Method := method,
    MetaNotes := ["E_BAD_MIME_TYPE_AND_SCHEMA_COLLISION MT[" ++
      ToLower (TrimSpace mediaTypeOrig) ++ "] type[" ++ schemaType ++ "]"] }

/-- What non-fix mode records for one content entry: one diagnostic for a JSON entry whose
inline schema type is neither `object` nor `array`, nothing otherwise. -/
def reportContentEntry (path method : String) (mediaTypeOrig : String)
    (mtRef : Option MediaType) : List OperationMeta :=
  if isJSONMediaType mediaTypeOrig then
    match inlineSchemaType mtRef with
    | some schemaType =>
      if schemaType ≠ "object" ∧ schemaType ≠ "array" then
        [badMimeTypeMeta path method mediaTypeOrig schemaType]
      else []
    | none => []
  else []

/-- What non-fix mode records for one operation: the diagnostics of the content entries of its
responses, in order. -/
def reportResponseTypes (path method : String) (op : Operation) : List OperationMeta :=
  op.Responses.flatMap (fun e =>
    match e.2 with
    | none => []
    | some resRef =>
      match resRef.Value with
      | none => []
      | some value => value.Content.flatMap (fun c => reportContentEntry path method c.1 c.2))

/-- An operation whose request body is the bare reference `#/components/requestBodies/Missing`. -/
def opUnresolvedBody : Operation :=
  { sampleOperation [] with
    RequestBody := some { Ref := "#/components/requestBodies/Missing", Value := none } }

/-- A document with an empty component registry whose only operation, a GET on `/pets`, has a request body reference that does not resolve. -/
def specUnresolvedBody : Spec := sampleSpec "/pets" opUnresolvedBody

/-- Whether a content entry can be handled without a nil dereference: a JSON entry has a media
type object with a schema reference, which has a value when it is inline. -/
def contentEntryWellFormed (mediaTypeOrig : String) (mtRef : Option MediaType) : Bool :=
  if isJSONMediaType mediaTypeOrig then
    match mtRef with
    | none => false
    | some mt =>
      match mt.Schema with
      | none => false
      | some schemaRef => if schemaRef.Ref.length = 0 then schemaRef.Value.isSome else true
  else true

/-- Whether every content entry of every response of the operation is well formed. -/
def responsesWellFormed (op : Operation) : Bool :=
  op.Responses.all (fun e =>
    match e.2 with
    | none => true
    | some resRef =>
      match resRef.Value with
      | none => true
      | some value => value.Content.all (fun c => contentEntryWellFormed c.1 c.2))

/-- A media-type entry with an inline schema of the given type. -/
def inlineMediaType (schemaType : String) : MediaType :=
  { Schema := some { Ref := "", Value := some { SchemaType := schemaType } } }

/-- A document whose only operation, a GET on `/n`, answers 200 with a JSON integer and with a
plain-text string. -/
def specCollision : Spec :=
  sampleSpec "/n"
    { sampleOperation [] with
      Responses := [("200", some { Ref := "", Value := some { Content :=
        [("application/json", some (inlineMediaType "integer")),
         ("text/plain", some (inlineMediaType "string"))] } })] }

/-- The document `specCollision` after the fix: the JSON entry is gone, the plain-text entry is
as before. -/
def specCollisionFixed : Spec :=
  sampleSpec "/n"
    { sampleOperation [] with
      Responses := [("200", some { Ref := "", Value := some { Content :=
        [("text/plain", some (inlineMediaType "string"))] } })] }

/-- The document `specStringResponse` after the fix: the entry is stored under `text/plain`. -/
def specStringResponseFixed : Spec :=
  sampleSpec "/text"
    { sampleOperation [] with
      Responses := [("200", some { Ref := "", Value := some { Content :=
        [("text/plain", some (inlineMediaType "string"))] } })] }

/-- Characters with trailing white space removed. -/
def trimRightChars (cs : List Char) : List Char :=
  (cs.reverse.dropWhile isSpace).reverse

/-- The rewritten form of a legacy reference `#/definitions/X`: `#/components/schemas/` followed
by `X` without its trailing white space and cut at its first line feed; `none` for a reference
that does not start with `#/definitions/`. -/
def legacyTarget (ref : String) : Option String :=
  match dropLeading oas2BasePathDefinitions.data ref.data with
  | some x =>
    some (oas3BasePathComponentsSchemas ++
      String.mk ((trimRightChars x).takeWhile (fun c => c ≠ '\n')))
  | none => none

/-- A response reference with a legacy reference rewritten, any other left as it is. -/
def rewriteResponseRef (resRef : ResponseRef) : ResponseRef :=
  match legacyTarget resRef.Ref with
  | some target => { resRef with Ref := target }
  | none => resRef

/-- An operation with the legacy references of its responses rewritten. -/
def rewriteResponses (op : Operation) : Operation :=
  { op with Responses := op.Responses.map (fun e => (e.1, e.2.map rewriteResponseRef)) }

/-- The diagnostic for a rewritten response reference. -/
def legacyReferenceMeta (path method resCode ref : String) : OperationMeta :=
  { Path := path, Method := method,
    MetaNotes := ["E_BAD_RESPONSE_REF_OAS2_DEF [" ++ resCode ++ "] type[" ++ TrimSpace ref ++
      "]"] }

/-- One diagnostic for every response of the operation whose reference is a legacy
reference. -/
def reportLegacyReferences (path method : String) (op : Operation) : List OperationMeta :=
  op.Responses.flatMap (fun e =>
    match e.2 with
    | none => []
    | some resRef =>
      if (legacyTarget resRef.Ref).isSome then
        [legacyReferenceMeta path method e.1 resRef.Ref]
      else [])

/-- Whether no response entry of the operation is nil. -/
def noNilResponse (op : Operation) : Bool :=
  op.Responses.all (fun e => e.2.isSome)

/-- A document whose only operation, a GET on `/widgets`, answers 200 by the given reference and
404 by a reference to a component response. -/
def specWithResponseRef (ref : String) : Spec :=
  sampleSpec "/widgets"
    { sampleOperation [] with
      Responses := [("200", some { Ref := ref, Value := none }),
        ("404", some { Ref := "#/components/responses/NotFound", Value := none })] }

/-- The collection without info and without items. -/
def emptyCollection : Collection :=
  { Info := { Name := "", Description := "", Schema := "" }, Item := [] }

/-- A document with the tag groups `{"Core": ["Widgets"]}` and the tag `Widgets` described by
`desc`. -/
def specCore : Spec :=
  { Paths := [], Components := { RequestBodies := [], SecuritySchemes := none },
    Tags := [some { Name := "Widgets", Description := "desc" }],
    TagGroups := .ok [{ Name := "Core", Tags := ["Widgets"] }] }

/-- The child folder `Widgets` with the description `desc`. -/
def widgetsFolder : Item :=
  { Name := "Widgets",
    Description := some { Content := "desc", DescriptionType := "text/plain" },
    Item := [], Request := none }

/-- The top-level folder `Core` with the child folder `Widgets`. -/
def coreFolder : Item :=
  { Name := "Core", Description := none, Item := [widgetsFolder], Request := none }

/-- The names of the given items. -/
def itemNames (items : List Item) : List String := items.map (fun item => item.Name)

/-- The body of the loop over the tag groups, for a group that passes the name check. -/
def tagGroupStep (tags : List (Option Tag)) (pman : Collection) (tg : TagGroup) : Collection :=
  pman.SetFolder (upsertTagFolders tags tg.Tags (pman.GetOrNewFolder (TrimSpace tg.Name)))

/-- Whether a tag group fails the name check: no name but tags. -/
def unnamedWithTags (tg : TagGroup) : Bool :=
  (TrimSpace tg.Name).length = 0 && tg.Tags.length > 0

/-- The tag groups in front of the first one that fails the name check. -/
def processedGroups : List TagGroup → List TagGroup
  | [] => []
  | tg :: rest => if unnamedWithTags tg then [] else tg :: processedGroups rest

/-- The error for the first tag group that fails the name check. -/
def groupsError : List TagGroup → Option String
  | [] => none
  | tg :: rest =>
    if unnamedWithTags tg then
      some ("E_TAG_GROUP_EMPTY_NAME TAGS [" ++ Join tg.Tags "," ++ "]")
    else groupsError rest

/-- The folders that `addFoldersFromTags` sets, in order: one for every tag that is not nil and
whose trimmed name is not empty. -/
def tagFolders : List (Option Tag) → List Item
  | [] => []
  | none :: rest => tagFolders rest
  | some tag :: rest =>
    if (TrimSpace tag.Name).length = 0 then tagFolders rest
    else
      { Name := TrimSpace tag.Name,
        Description := some { Content := TrimSpace tag.Description,
                              DescriptionType := ContentTypeTextPlain },
        Item := [], Request := none } :: tagFolders rest

/-- The collection has the top-level folder of the tag group, and that folder has, for every
non-blank tag of the group, the child folder built for the tag. -/
def groupFolderPresent (tags : List (Option Tag)) (tg : TagGroup) (pman : Collection) : Prop :=
  ∃ folder, findItem pman.Item (TrimSpace tg.Name) = some folder ∧
    ∀ t ∈ tg.Tags, (TrimSpace t).length ≠ 0 →
      findItem folder.Item (TrimSpace t) = some (tagSubFolder tags (TrimSpace t))

/-- One visit of `Merge`: a path, a method and the endpoint that the path declares for the
method. -/
structure Visit where
  Path : String
  Method : String
  Endpoint : Endpoint
  deriving DecidableEq, Repr

/-- The path without endpoints: the zero value that `swag.Paths[u]` gives for a missing key. -/
def noEndpoints : Path :=
  { Get := none, Patch := none, Post := none, Put := none, Delete := none }

/-- The endpoints a path declares, each with its method, in the order GET, PATCH, POST, PUT,
DELETE. -/
def Path.endpoints (path : Path) : List (String × Endpoint) :=
  [("GET", path.Get), ("PATCH", path.Patch), ("POST", path.Post), ("PUT", path.Put),
    ("DELETE", path.Delete)].filterMap (fun e => e.2.map (fun endpoint => (e.1, endpoint)))

/-- The visits of the path `u`: one for every endpoint the specification declares for it. -/
def pathVisits (swag : Specification) (u : String) : List Visit :=
  ((mapGet swag.Paths u).getD noEndpoints).endpoints.map
    (fun e => { Path := u, Method := e.1, Endpoint := e.2 })

/-- The declared operations of the specification, path by path in ascending order. -/
def declaredOperations (swag : Specification) : List Visit :=
  (sortStrings (swag.Paths.map (fun e => e.1))).flatMap (pathVisits swag)

/-- The item that `Merge` builds for a visit, or the failure of building it. -/
def operationItem (cfg : Configuration) (swag : Specification) (v : Visit) :
    Except Failure Item :=
  Swagger2PathToPostman2APIItem cfg swag v.Path v.Method v.Endpoint

/-- Filing of one visit: the item is built and goes to the folder of the first tag; nothing is
built or filed when the endpoint has no tag. -/
def fileVisit (cfg : Configuration) (swag : Specification) (pman : Collection) (v : Visit) :
    Except Failure Collection :=
  match v.Endpoint.Tags with
  | tag :: _ =>
    match operationItem cfg swag v with
    | .error failure => .error failure
    | .ok item => .ok (postmanAddItemToFolder pman item (TrimSpace tag))
  | [] => .ok pman

/-- Filing of the visits one after the other, up to the first failure. -/
def fileVisits (cfg : Configuration) (swag : Specification) :
    List Visit → Collection → Except Failure Collection
  | [], pman => .ok pman
  | v :: rest, pman =>
    match fileVisit cfg swag pman v with
    | .error failure => .error failure
    | .ok pman => fileVisits cfg swag rest pman

/-- The child items of the top-level folder of the given name; none when there is no such
folder. -/
def folderItems (col : Collection) (name : String) : List Item :=
  match findItem col.Item name with
  | some folder => folder.Item
  | none => []

/-- The place of a method in the order GET, PATCH, POST, PUT, DELETE. -/
def methodRank (method : String) : Nat :=
  if method = "GET" then 0
  else if method = "PATCH" then 1
  else if method = "POST" then 2
  else if method = "PUT" then 3
  else if method = "DELETE" then 4
  else 5

/-- Whether visit `a` is on a smaller path than visit `b`, or on the same path with an earlier
method. -/
def visitedBefore (a b : Visit) : Bool :=
  (strLe a.Path b.Path && decide (a.Path ≠ b.Path)) ||
    (decide (a.Path = b.Path) && decide (methodRank a.Method < methodRank b.Method))

/-- An endpoint with the given summary and tags. -/
def endpointTagged (summary : String) (tags : List String) : Endpoint :=
  { Tags := tags, Summary := summary, Consumes := [], Produces := [], Parameters := [] }

/-- The path `/pets/{id}` of the example: GET with the tags `Pets` and `Admin`, DELETE with the
tag `Pets` written with blanks around it. -/
def petPath : Path :=
  { noEndpoints with
    Get := some (endpointTagged "get pet" ["Pets", "Admin"]),
    Delete := some (endpointTagged "delete pet" [" Pets "]) }

/-- The path `/pets` of the example: GET and POST with the tag `Pets`. -/
def petsPath : Path :=
  { noEndpoints with
    Get := some (endpointTagged "list pets" ["Pets"]),
    Post := some (endpointTagged "create pet" ["Pets"]) }

/-- The path `/health` of the example: GET without tags. -/
def healthPath : Path :=
  { noEndpoints with Get := some (endpointTagged "health" []) }

/-- An endpoint with the tag `Pets` that consumes `application/json; charset=utf-8` and has a
body parameter with an example for that media type. -/
def endpointJSONBody : Endpoint :=
  { Tags := ["Pets"], Summary := "create pet",
    Consumes := ["application/json; charset=utf-8"], Produces := [],
    Parameters :=
      [{ Name := "pet", In := "body", Required := true, Default := none,
         XExamples := [("application/json; charset=utf-8", "[\"Rex\"]")] }] }

/-- A specification whose only path `/pets` declares the POST endpoint `endpointJSONBody`. -/
def swaggerJSONBody : Specification :=
  { Info := { Title := "Pets", Description := "" }, Host := "example.com", BasePath := "/v1",
    Schemes := ["https"],
    Paths := [("/pets", { noEndpoints with Post := some endpointJSONBody })] }

/-- A specification with the paths `/pets/{id}`, `/health` and `/pets`, stored in this order. -/
def swaggerPets : Specification :=
  { Info := { Title := "Pets", Description := "" }, Host := "example.com", BasePath := "/v1",
    Schemes := ["https"],
    Paths := [("/pets/{id}", petPath), ("/health", healthPath), ("/pets", petsPath)] }

/-- Whether the first character of a string is an upper-case Latin letter: the reading of
`stringcase.IsFirstAlphaUpper` that the examples use. -/
def startsUpper (s : String) : Bool :=
  match s.data with
  | c :: _ => c.isUpper
  | [] => false

/-- The elements joined by a slash: the reading of `urlutil.JoinAbsolute` that the examples
use. -/
def joinSlash (elem : List String) : String := Join elem "/"

/-- The violation of the tag-casing rule at a location, for a value. -/
def tagStyleViolation (location value : String) : PolicyViolation :=
  { RuleName := "tag-style-first-uppercase", Location := location, Value := value }

/-- The violation of the tag-membership rule at a location, for a value. -/
def tagGroupViolation (location value : String) : PolicyViolation :=
  { RuleName := "x-tag-has-group", Location := location, Value := value }

/-- An operation with the given tags and nothing else. -/
def operationTagged (tags : List String) : Operation :=
  { sampleOperation [] with Tags := tags }

/-- A document whose only operation, a GET on `/widgets`, has the tag `widgets`, and whose tag
list declares the tag `widgets`. -/
def specWidgets : Spec :=
  { sampleSpec "/widgets" (operationTagged ["widgets"]) with
    Tags := [some { Name := "widgets", Description := "" }] }

/-- A document with the tag groups `{"Core": ["Widgets"]}` whose only operation, a GET on
`/widgets`, has the tags `Widgets` and `Gadgets`. -/
def specGadgets : Spec :=
  { sampleSpec "/widgets" (operationTagged ["Widgets", "Gadgets"]) with
    TagGroups := .ok [{ Name := "Core", Tags := ["Widgets"] }] }

/-- A document whose only operation, a GET on `/widgets`, answers 200 with the given JSON media
type entry. -/
def specJSONEntry (mtRef : Option MediaType) : Spec :=
  sampleSpec "/widgets"
    { sampleOperation [] with
      Responses := [("200", some { Ref := "", Value := some { Content :=
        [("application/json", mtRef)] } })] }

/-- A JSON media type entry that declares no schema. -/
def mediaTypeNoSchema : MediaType := { Schema := none }

/-- A JSON media type entry whose schema entry is inline and has no value. -/
def mediaTypeNoValue : MediaType := { Schema := some { Ref := "", Value := none } }

/-- A document whose only operation, a GET on `/reports`, has the given tags. -/
def specReports (tags : List String) : Spec := sampleSpec "/reports" (operationTagged tags)

/-- The document `specReports tags` with the requirement of the scheme `BearerAuth` added to
its operation. -/
def specReportsSecured (tags : List String) : Spec :=
  sampleSpec "/reports"
    { operationTagged tags with Security := some [[("BearerAuth", [])]] }

/-- A document with the tag groups `A` (tag `x`), a group without name (tags `x`, `y`) and
`B` (tag `z`), in this order. -/
def specUnnamedGroup : Spec :=
  { Paths := [], Components := { RequestBodies := [], SecuritySchemes := none }, Tags := [],
    TagGroups := .ok [{ Name := "A", Tags := ["x"] }, { Name := " ", Tags := ["x", "y"] },
      { Name := "B", Tags := ["z"] }] }

/-- A document whose only operation, a GET on `/text`, answers 200 with a JSON string and 500
with a JSON entry that declares no schema. -/
def specStringAndNoSchema : Spec :=
  sampleSpec "/text"
    { sampleOperation [] with
      Responses := [("200", some (jsonResponse "string")),
        ("500", some { Ref := "", Value := some { Content :=
          [("application/json", some mediaTypeNoSchema)] } })] }

/-- What fix mode does with one content entry, given the content map as it stands when the
entry is handled: the content map it leaves and the diagnostics it records. A JSON entry whose
inline schema has the type `string` or `integer` is removed; it is stored under `text/plain`
when the map has no such entry then, and a collision is recorded when the map has one that
differs. Another JSON entry whose inline schema type is neither `object` nor `array` is
reported. -/
def fixContentEntry (path method : String) (content : GoMap (Option MediaType))
    (mediaTypeOrig : String) (mtRef : Option MediaType) :
    GoMap (Option MediaType) × List OperationMeta :=
  if isJSONMediaType mediaTypeOrig then
    match inlineSchemaType mtRef with
    | some schemaType =>
      if schemaType = "string" ∨ schemaType = "integer" then
        match mapGet (mapDelete content mediaTypeOrig) ContentTypeTextPlain with
        | some other =>
          if mtRef ≠ other then
            (mapDelete content mediaTypeOrig,
              [collisionMeta path method mediaTypeOrig schemaType])
          else (mapDelete content mediaTypeOrig, [])
        | none => (mapSet (mapDelete content mediaTypeOrig) ContentTypeTextPlain mtRef, [])
      else if schemaType ≠ "object" ∧ schemaType ≠ "array" then
        (content, [badMimeTypeMeta path method mediaTypeOrig schemaType])
      else (content, [])
    | none => (content, [])
  else (content, [])

/-- What fix mode does with the content entries of one response, handled one after the other:
the content map it leaves and the diagnostics it records. -/
def fixContent (path method : String) :
    List (String × Option MediaType) → GoMap (Option MediaType) →
    GoMap (Option MediaType) × List OperationMeta
  | [], content => (content, [])
  | entry :: rest, content =>
    ((fixContent path method rest
        (fixContentEntry path method content entry.1 entry.2).1).1,
      (fixContentEntry path method content entry.1 entry.2).2 ++
        (fixContent path method rest
          (fixContentEntry path method content entry.1 entry.2).1).2)

/-- What fix mode does with one response entry: the entry it leaves and the diagnostics it
records. -/
def fixResponse (path method : String) (resRef : Option ResponseRef) :
    Option ResponseRef × List OperationMeta :=
  match resRef with
  | none => (none, [])
  | some response =>
    match response.Value with
    | none => (some response, [])
    | some value =>
      (some { response with
          Value := some { value with
            Content := (fixContent path method value.Content value.Content).1 } },
        (fixContent path method value.Content value.Content).2)

/-- What fix mode does with the responses of one operation. -/
def fixResponses (path method : String) (op : Operation) : Operation :=
  { op with Responses := op.Responses.map (fun e => (e.1, (fixResponse path method e.2).1)) }

/-- What fix mode records for one operation. -/
def fixDiagnostics (path method : String) (op : Operation) : List OperationMeta :=
  op.Responses.flatMap (fun e => (fixResponse path method e.2).2)

/-- A document whose only operation, a GET on `/n`, answers 200 with two JSON entries, a string
under `application/json` and an integer under `Application/JSON`, and with no plain-text
entry. -/
def specTwoJSONKeys : Spec :=
  sampleSpec "/n"
    { sampleOperation [] with
      Responses := [("200", some { Ref := "", Value := some { Content :=
        [("application/json", some (inlineMediaType "string")),
         ("Application/JSON", some (inlineMediaType "integer"))] } })] }

/-- An endpoint whose parameter `id` has the default `7`. -/
def endpointWithDefault : Endpoint :=
  sampleEndpoint
    [{ Name := "id", In := "path", Required := true, Default := some "7", XExamples := [] }]

end Spectrum

/-! ## Theorems -/

namespace Spectrum

/-! ### The aggregate error -/

theorem finishPass_err (spec : Spec) (errorOperations : List OperationMeta) :
    (finishPass spec errorOperations).err ≠ none ↔
      (finishPass spec errorOperations).errorOperations ≠ [] := by
  unfold finishPass
  cases errorOperations with
  | nil => simp
  | cons om rest => simp

theorem finishPass_spec (spec : Spec) (errorOperations : List OperationMeta) :
    (finishPass spec errorOperations).spec = spec := by
  unfold finishPass
  split <;> rfl

theorem finishPass_errorOperations (spec : Spec) (errorOperations : List OperationMeta) :
    (finishPass spec errorOperations).errorOperations = errorOperations := by
  unfold finishPass
  split <;> rfl

/-- Claim C6. Whenever one of the passes `ValidateFixOperationPathParameters`,
`MoveRequestBodies`, `ValidateFixOperationResponseTypes` returns, for either value of its mode
flag, the aggregate error it returns is non-nil exactly when the diagnostic list it returns is
not empty. -/
theorem aggregate_error_iff_diagnostics :
    (∀ (spec : Spec) (fix : Bool) (r : PassResult),
      ValidateFixOperationPathParameters spec fix = .ok r →
        (r.err ≠ none ↔ r.errorOperations ≠ [])) ∧
    (∀ (spec : Spec) (move : Bool) (r : PassResult),
      MoveRequestBodies spec move = .ok r → (r.err ≠ none ↔ r.errorOperations ≠ [])) ∧
    (∀ (spec : Spec) (fix : Bool) (r : PassResult),
      ValidateFixOperationResponseTypes spec fix = .ok r →
        (r.err ≠ none ↔ r.errorOperations ≠ [])) := by
  refine ⟨?_, ?_, ?_⟩
  · intro spec fix r h
    unfold ValidateFixOperationPathParameters at h
    split at h
    · cases h
    · cases h; exact finishPass_err _ _
  · intro spec move r h
    unfold MoveRequestBodies at h
    split at h
    · cases h
    · cases h; exact finishPass_err _ _
  · intro spec fix r h
    unfold ValidateFixOperationResponseTypes at h
    split at h
    · cases h
    · cases h; exact finishPass_err _ _

/-- Witness for claim C6: the report-mode path-parameter pass on a document whose only operation
misses the path parameter `a` returns one diagnostic and a non-nil error. -/
theorem aggregate_error_iff_diagnostics_witness :
    ValidateFixOperationPathParameters specMissingA false =
        .ok (finishPass specMissingA [metaMissingA]) ∧
      ((finishPass specMissingA [metaMissingA]).err ≠ none ↔
        (finishPass specMissingA [metaMissingA]).errorOperations ≠ []) :=
  ⟨by decide,
    aggregate_error_iff_diagnostics.1 specMissingA false
      (finishPass specMissingA [metaMissingA]) (by decide)⟩

/-- Claim C1 (the code at the failing input). On the path `/x/{a}/{b}`, for an operation that
declares `b` in the path and `b` in the query and misses `a`, fix mode hands three parameters to
`SortParameters`, which builds a sorted slice of two and panics with `E_SORT_LEN_MISMATCH`; the
pass ends in that panic. -/
theorem fix_mode_reaches_sort_len_mismatch :
    ParsePathParametersParens "/x/{a}/{b}" = ["a", "b"] ∧
    (pathParamLoop true (sampleOperation [sampleParam "b" "path", sampleParam "b" "query"])
        ["a", "b"]).op.Parameters =
      [sampleParam "b" "path", sampleParam "b" "query", newParamRef "a"] ∧
    sortedBeforeCheck [sampleParam "b" "path", sampleParam "b" "query", newParamRef "a"]
        ["a", "b"] = [newParamRef "a", sampleParam "b" "query"] ∧
    ValidateFixOperationPathParameters
        (sampleSpec "/x/{a}/{b}"
          (sampleOperation [sampleParam "b" "path", sampleParam "b" "query"])) true =
      .error Failure.sortLenMismatch := by
  decide

/-! ### The operation visitor -/

/-- The diagnostics that a reporting callback contributes for the operations of one path. -/
theorem visitMethod_report {α : Type} {d : String → String → Operation → List α}
    {visitOp : VisitOp (List α)}
    (hf : ∀ path method op s, visitOp path method op s = .ok (op, s ++ d path method op))
    (path method : String) (op : Option Operation) (s : List α) :
    visitMethod visitOp path method op s =
      .ok (op, s ++ (match op with | none => [] | some o => d path method o)) := by
  cases op with
  | none => simp [visitMethod]
  | some o => simp [visitMethod, hf]

theorem VisitOperationsPathItem_report {α : Type} {d : String → String → Operation → List α}
    {visitOp : VisitOp (List α)}
    (hf : ∀ path method op s, visitOp path method op s = .ok (op, s ++ d path method op))
    (path : String) (pathItem : PathItem) (s : List α) :
    VisitOperationsPathItem visitOp path pathItem s =
      .ok (pathItem, s ++ pathItem.operations.flatMap (fun mo => d path mo.1 mo.2)) := by
  unfold VisitOperationsPathItem
  simp only [visitMethod_report hf]
  rcases pathItem with ⟨get, patch, post, put, delete⟩
  cases get <;> cases patch <;> cases post <;> cases put <;> cases delete <;>
    simp [PathItem.operations, List.flatMap]

theorem visitPaths_report {α : Type} {d : String → String → Operation → List α}
    {visitOp : VisitOp (List α)}
    (hf : ∀ path method op s, visitOp path method op s = .ok (op, s ++ d path method op))
    (paths : List (String × PathItem)) (s : List α) :
    visitPaths visitOp paths s =
      .ok (paths, s ++ paths.flatMap
        (fun e => e.2.operations.flatMap (fun mo => d e.1 mo.1 mo.2))) := by
  induction paths generalizing s with
  | nil => simp [visitPaths]
  | cons e rest ih =>
    rcases e with ⟨path, pathItem⟩
    simp [visitPaths, VisitOperationsPathItem_report hf, ih, List.flatMap]

theorem VisitOperations_report {α : Type} {d : String → String → Operation → List α}
    {visitOp : VisitOp (List α)}
    (hf : ∀ path method op s, visitOp path method op s = .ok (op, s ++ d path method op))
    (spec : Spec) (s : List α) :
    VisitOperations spec visitOp s =
      .ok (spec, s ++ spec.Paths.flatMap
        (fun e => e.2.operations.flatMap (fun mo => d e.1 mo.1 mo.2))) := by
  unfold VisitOperations
  rw [visitPaths_report hf]

/-- A callback that leaves the operation as it is whenever it returns leaves the document as it
is. -/
theorem visitMethod_frame {σ : Type} {visitOp : VisitOp σ}
    (hf : ∀ path method op s op' s', visitOp path method op s = .ok (op', s') → op' = op)
    {path method : String} {op op' : Option Operation} {s s' : σ}
    (h : visitMethod visitOp path method op s = .ok (op', s')) : op' = op := by
  unfold visitMethod at h
  cases op with
  | none => simp at h; exact h.1.symm
  | some o =>
    simp only at h
    split at h
    · rename_i o' s1 heq
      cases h
      rw [hf _ _ _ _ _ _ heq]
    · cases h

theorem VisitOperationsPathItem_frame {σ : Type} {visitOp : VisitOp σ}
    (hf : ∀ path method op s op' s', visitOp path method op s = .ok (op', s') → op' = op)
    {path : String} {pathItem pathItem' : PathItem} {s s' : σ}
    (h : VisitOperationsPathItem visitOp path pathItem s = .ok (pathItem', s')) :
    pathItem' = pathItem := by
  unfold VisitOperationsPathItem at h
  split at h
  · cases h
  · rename_i h1
    split at h
    · cases h
    · rename_i h2
      split at h
      · cases h
      · rename_i h3
        split at h
        · cases h
        · rename_i h4
          split at h
          · cases h
          · rename_i h5
            cases h
            rw [visitMethod_frame hf h1, visitMethod_frame hf h2, visitMethod_frame hf h3,
              visitMethod_frame hf h4, visitMethod_frame hf h5]

theorem visitPaths_frame {σ : Type} {visitOp : VisitOp σ}
    (hf : ∀ path method op s op' s', visitOp path method op s = .ok (op', s') → op' = op)
    {paths paths' : List (String × PathItem)} {s s' : σ}
    (h : visitPaths visitOp paths s = .ok (paths', s')) : paths' = paths := by
  induction paths generalizing paths' s s' with
  | nil => simp [visitPaths] at h; exact h.1
  | cons e rest ih =>
    rcases e with ⟨path, pathItem⟩
    unfold visitPaths at h
    split at h
    · cases h
    · rename_i h1
      split at h
      · cases h
      · rename_i h2
        cases h
        rw [VisitOperationsPathItem_frame hf h1, ih h2]

theorem VisitOperations_frame {σ : Type} {visitOp : VisitOp σ}
    (hf : ∀ path method op s op' s', visitOp path method op s = .ok (op', s') → op' = op)
    {spec spec' : Spec} {s s' : σ}
    (h : VisitOperations spec visitOp s = .ok (spec', s')) : spec' = spec := by
  unfold VisitOperations at h
  split at h
  · cases h
  · rename_i h1
    cases h
    rw [visitPaths_frame hf h1]

/-! ### Report mode -/

theorem pathParamLoop_report_aux (tokens : List String) (st : PathParamLoop) :
    tokens.foldl (pathParamStep false) st =
      { op := st.op,
        varNamesMissing :=
          st.varNamesMissing ++ tokens.filter (fun varName => !HasParameter st.op varName),
        fixed := st.fixed } := by
  induction tokens generalizing st with
  | nil => simp
  | cons t rest ih =>
    rw [List.foldl_cons, ih]
    by_cases h : HasParameter st.op t = true
    · simp [pathParamStep, h]
    · simp [pathParamStep, h]

theorem pathParamLoop_report (op : Operation) (tokens : List String) :
    pathParamLoop false op tokens =
      { op := op,
        varNamesMissing := tokens.filter (fun varName => !HasParameter op varName),
        fixed := false } := by
  unfold pathParamLoop
  rw [pathParamLoop_report_aux]
  simp

theorem pathParametersVisit_report (path method : String) (op : Operation)
    (s : List OperationMeta) :
    pathParametersVisit false path method op s =
      .ok (op, s ++ reportPathParameters path method op) := by
  unfold pathParametersVisit reportPathParameters missingPathParameters
  by_cases h0 : (ParsePathParametersParens path).length = 0
  · have h1 : ParsePathParametersParens path = [] := List.length_eq_zero.mp h0
    simp [h1]
  · simp only [h0, if_false, pathParamLoop_report, Bool.false_eq_true]
    split
    · simp [OperationToMeta, missingParametersMeta]
    · simp

theorem moveRequestBodiesVisit_report (components : Components) (path method : String)
    (op : Operation) (s : List OperationMeta) :
    moveRequestBodiesVisit components false path method op s =
      .ok (op, s ++ reportRequestBody path method op) := by
  unfold moveRequestBodiesVisit reportRequestBody
  cases op.RequestBody with
  | none => simp
  | some requestBody =>
    by_cases h : requestBody.Ref.length > 0
    · simp [h, OperationToMeta]
    · simp [h]

/-- The result of the path-parameter pass in report mode. -/
theorem ValidateFixOperationPathParameters_report (spec : Spec) :
    ValidateFixOperationPathParameters spec false =
      .ok (finishPass spec (spec.Paths.flatMap
        (fun e => e.2.operations.flatMap (fun mo => reportPathParameters e.1 mo.1 mo.2)))) := by
  unfold ValidateFixOperationPathParameters
  rw [VisitOperations_report pathParametersVisit_report]
  simp

/-- The result of the request-body pass in report mode. -/
theorem MoveRequestBodies_report (spec : Spec) :
    MoveRequestBodies spec false =
      .ok (finishPass spec (spec.Paths.flatMap
        (fun e => e.2.operations.flatMap (fun mo => reportRequestBody e.1 mo.1 mo.2)))) := by
  unfold MoveRequestBodies
  rw [VisitOperations_report (moveRequestBodiesVisit_report spec.Components)]
  simp

theorem responseTypeStep_report {path method : String} {op : Operation}
    {st st' : GoMap (Option MediaType) × List OperationMeta} {mediaTypeOrig : String}
    {mtRef : Option MediaType}
    (h : responseTypeStep false path method op st mediaTypeOrig mtRef = .ok st') :
    st'.1 = st.1 := by
  unfold responseTypeStep at h
  simp only [Bool.false_and, Bool.false_eq_true, if_false] at h
  repeat' split at h
  all_goals first
    | cases h; rfl
    | cases h

theorem responseContentLoop_report {path method : String} {op : Operation}
    (entries : List (String × Option MediaType))
    {st st' : GoMap (Option MediaType) × List OperationMeta}
    (h : responseContentLoop false path method op entries st = .ok st') :
    st'.1 = st.1 := by
  induction entries generalizing st with
  | nil => simp [responseContentLoop] at h; rw [h]
  | cons e rest ih =>
    rcases e with ⟨mediaTypeOrig, mtRef⟩
    unfold responseContentLoop at h
    split at h
    · cases h
    · rename_i st1 h1
      rw [ih h, responseTypeStep_report h1]

theorem responsesLoop_report {path method : String} {op : Operation}
    (responses : List (String × Option ResponseRef))
    {responses' : List (String × Option ResponseRef)} {errs errs' : List OperationMeta}
    (h : responsesLoop false path method op responses errs = .ok (responses', errs')) :
    responses' = responses := by
  induction responses generalizing responses' errs errs' with
  | nil => simp [responsesLoop] at h; exact h.1
  | cons e rest ih =>
    rcases e with ⟨code, resRef⟩
    unfold responsesLoop at h
    simp only at h
    split at h
    · cases h
    · rename_i resRef1 errs1 h1
      split at h
      · cases h
      · rename_i rest1 errs2 h2
        cases h
        rw [ih h2]
        have hres : resRef1 = resRef := by
          cases resRef with
          | none => simp at h1; exact h1.1.symm
          | some response =>
            rcases response with ⟨ref, value⟩
            cases value with
            | none => simp at h1; exact h1.1.symm
            | some value =>
              simp only at h1
              split at h1
              · cases h1
              · rename_i content errs3 h3
                cases h1
                have hc := responseContentLoop_report _ h3
                simp only at hc
                rw [hc]
        rw [hres]

theorem responseTypesVisit_report {path method : String} {op op' : Operation}
    {s s' : List OperationMeta}
    (h : responseTypesVisit false path method op s = .ok (op', s')) : op' = op := by
  unfold responseTypesVisit at h
  split at h
  · cases h
  · rename_i responses errs h1
    cases h
    rw [responsesLoop_report _ h1]

/-- In report mode the request-body pass always returns and returns the document it was given;
the response-type pass, whenever it returns, returns the document it was given. -/
theorem report_mode_keeps_bodies_and_responses :
    (∀ spec : Spec, ∃ r, MoveRequestBodies spec false = .ok r ∧ r.spec = spec) ∧
    (∀ (spec : Spec) (r : PassResult),
      ValidateFixOperationResponseTypes spec false = .ok r → r.spec = spec) := by
  refine ⟨?_, ?_⟩
  · intro spec
    exact ⟨_, MoveRequestBodies_report spec, finishPass_spec _ _⟩
  · intro spec r h
    unfold ValidateFixOperationResponseTypes at h
    split at h
    · cases h
    · rename_i spec1 errs h1
      cases h
      rw [finishPass_spec]
      exact VisitOperations_frame (fun _ _ _ _ _ _ h2 => responseTypesVisit_report h2) h1

/-- With a check that leaves the operation alone, the pass for the given check is the pass. -/
theorem ValidateFixOperationPathParametersWith_pure (spec : Spec) (fix : Bool) :
    ValidateFixOperationPathParametersWith (fun op name => (HasParameter op name, op)) spec
      fix = ValidateFixOperationPathParameters spec fix := by
  have hstep : pathParamStepWith (fun op name => (HasParameter op name, op)) fix =
      pathParamStep fix := by
    funext st varName
    rfl
  have hvisit : pathParametersVisitWith (fun op name => (HasParameter op name, op)) fix =
      pathParametersVisit fix := by
    funext path method op errorOperations
    unfold pathParametersVisitWith pathParametersVisit pathParamLoopWith pathParamLoop
    rw [hstep]
  unfold ValidateFixOperationPathParametersWith ValidateFixOperationPathParameters
  rw [hvisit]

theorem condenseDedupe_nodup (items seen : List String) :
    (condenseDedupe items seen).Nodup ∧ ∀ x ∈ condenseDedupe items seen, x ∉ seen := by
  induction items generalizing seen with
  | nil => simp [condenseDedupe]
  | cons val rest ih =>
    unfold condenseDedupe
    simp only
    split
    · exact ih seen
    · split
      · exact ih seen
      · rename_i hlen hseen
        have ih' := ih (Join (List.map String.mk (fieldsChars val.data [])) " " :: seen)
        refine ⟨List.nodup_cons.mpr ⟨fun hmem => ?_, ih'.1⟩, ?_⟩
        · exact ih'.2 _ hmem (List.mem_cons_self _ _)
        · intro x hx
          rcases List.mem_cons.mp hx with h | h
          · subst h
            simpa using hseen
          · exact fun hxs => ih'.2 x h (List.mem_cons_of_mem _ hxs)

theorem ParsePathParametersParens_nodup (urlPath : String) :
    (ParsePathParametersParens urlPath).Nodup := by
  unfold ParsePathParametersParens
  simp only
  split
  · exact List.nodup_nil
  · split
    · unfold SliceCondenseSpace
      simp only [if_true]
      exact (condenseDedupe_nodup _ _).1
    · rename_i h
      have h0 : (List.map (fun n => TrimSpace (String.mk n))
          (findAllParens urlPath.data none)) = [] := by
        apply List.length_eq_zero.mp
        omega
      rw [h0]
      exact List.nodup_nil

theorem filter_eq_singleton {α : Type} {p : α → Bool} {l : List α} {a : α}
    (hn : l.Nodup) (ha : a ∈ l) (hp : ∀ t ∈ l, (p t = true ↔ t = a)) : l.filter p = [a] := by
  induction l with
  | nil => cases ha
  | cons x rest ih =>
    have hx := List.nodup_cons.mp hn
    by_cases hxa : x = a
    · subst hxa
      have hrest : rest.filter p = [] := by
        apply List.filter_eq_nil_iff.mpr
        intro t ht hpt
        have := (hp t (List.mem_cons_of_mem _ ht)).mp hpt
        subst this
        exact hx.1 ht
      have hpx : p x = true := (hp x (List.mem_cons_self _ _)).mpr rfl
      simp [List.filter_cons, hpx, hrest]
    · have hpx : ¬ p x = true := fun h => hxa ((hp x (List.mem_cons_self _ _)).mp h)
      have ha' : a ∈ rest := by
        rcases List.mem_cons.mp ha with h | h
        · exact absurd h.symm hxa
        · exact h
      simp only [List.filter_cons, hpx, if_false]
      exact ih hx.2 ha' (fun t ht => hp t (List.mem_cons_of_mem _ ht))

theorem filter_flatMap_eq_nil {α β : Type} {g : α → List β} {P : β → Bool} {l : List α}
    (h : ∀ e ∈ l, ∀ x ∈ g e, P x = false) : (l.flatMap g).filter P = [] := by
  apply List.filter_eq_nil_iff.mpr
  intro x hx
  rcases List.mem_flatMap.mp hx with ⟨e, he, hxe⟩
  simp [h e he x hxe]

theorem filter_flatMap_of_key {α β : Type} (key : α → String) (g : α → List β) (P : β → Bool)
    (l : List α) (a : α) (hn : (l.map key).Nodup) (ha : a ∈ l)
    (hP : ∀ e ∈ l, key e ≠ key a → ∀ x ∈ g e, P x = false) :
    (l.flatMap g).filter P = (g a).filter P := by
  induction l with
  | nil => cases ha
  | cons e rest ih =>
    rw [List.map_cons, List.nodup_cons] at hn
    rw [List.flatMap_cons, List.filter_append]
    by_cases hea : a = e
    · subst hea
      have hrest : (rest.flatMap g).filter P = [] := by
        apply filter_flatMap_eq_nil
        intro e' he' x hx
        refine hP e' (List.mem_cons_of_mem _ he') (fun hk => hn.1 ?_) x hx
        rw [← hk]
        exact List.mem_map_of_mem key he'
      rw [hrest, List.append_nil]
    · have ha' : a ∈ rest := by
        rcases List.mem_cons.mp ha with h | h
        · exact absurd h hea
        · exact h
      have hke : key e ≠ key a := by
        intro hk
        apply hn.1
        rw [hk]
        exact List.mem_map_of_mem key ha'
      have hhead : (g e).filter P = [] := by
        apply List.filter_eq_nil_iff.mpr
        intro x hx
        simp [hP e (List.mem_cons_self _ _) hke x hx]
      rw [hhead, List.nil_append]
      exact ih hn.2 ha' (fun e' he' => hP e' (List.mem_cons_of_mem _ he'))

theorem operations_methods_nodup (pathItem : PathItem) :
    (pathItem.operations.map Prod.fst).Nodup := by
  rcases pathItem with ⟨get, patch, post, put, delete⟩
  cases get <;> cases patch <;> cases post <;> cases put <;> cases delete <;>
    simp [PathItem.operations]

theorem reportPathParameters_path {path method : String} {op : Operation} {om : OperationMeta}
    (h : om ∈ reportPathParameters path method op) : om.Path = path ∧ om.Method = method := by
  unfold reportPathParameters at h
  split at h
  · simp [missingParametersMeta] at h
    subst h
    exact ⟨rfl, rfl⟩
  · cases h

/-- Claim C4. Let the tokens of a path template be `{a}` and `{b}`, and let an operation on that
path declare the parameter `b` but not `a`. In report mode the path-parameter pass returns, for
that operation, exactly one diagnostic: among the diagnostics returned, the ones that carry the
path and the method of the operation are the single diagnostic whose note is
`E_OP_MISSING_PATH_PARAMETER PARAM_NAMES[a]`, which names `a` and does not name `b`. -/
theorem report_mode_names_only_missing_parameter (spec : Spec) (path method : String)
    (pathItem : PathItem) (op : Operation) (a b : String)
    (hkeys : (spec.Paths.map Prod.fst).Nodup)
    (hpath : (path, pathItem) ∈ spec.Paths)
    (hop : (method, op) ∈ pathItem.operations)
    (ha : a ∈ ParsePathParametersParens path)
    (hb : b ∈ ParsePathParametersParens path)
    (hab : ∀ t ∈ ParsePathParametersParens path, t = a ∨ t = b)
    (hdb : HasParameter op b = true)
    (hda : HasParameter op a = false) :
    ∃ r, ValidateFixOperationPathParameters spec false = .ok r ∧
      r.errorOperations.filter (fun om => om.Path = path && om.Method = method) =
        [{ Path := path, Method := method,
           MetaNotes := ["E_OP_MISSING_PATH_PARAMETER PARAM_NAMES[" ++ a ++ "]"] }] := by
  refine ⟨_, ValidateFixOperationPathParameters_report spec, ?_⟩
  rw [finishPass_errorOperations]
  have hmissing : missingPathParameters path op = [a] := by
    unfold missingPathParameters
    apply filter_eq_singleton (ParsePathParametersParens_nodup path) ha
    intro t ht
    constructor
    · intro hpt
      rcases hab t ht with h | h
      · exact h
      · subst h
        simp [hdb] at hpt
    · intro hta
      subst hta
      simp [hda]
  have hreport : reportPathParameters path method op =
      [{ Path := path, Method := method,
         MetaNotes := ["E_OP_MISSING_PATH_PARAMETER PARAM_NAMES[" ++ a ++ "]"] }] := by
    unfold reportPathParameters
    rw [hmissing]
    simp [missingParametersMeta, Join]
  rw [filter_flatMap_of_key Prod.fst _ _ spec.Paths (path, pathItem) hkeys hpath]
  · rw [filter_flatMap_of_key Prod.fst _ _ pathItem.operations (method, op)
      (operations_methods_nodup pathItem) hop]
    · simp only [hreport]
      simp
    · intro mo _ hk om hom
      have := reportPathParameters_path hom
      have hk' : om.Method ≠ method := by rw [this.2]; exact hk
      simp [hk']
  · intro e _ hk om hom
    rcases List.mem_flatMap.mp hom with ⟨mo, _, hmo⟩
    have := reportPathParameters_path hmo
    have hk' : om.Path ≠ path := by rw [this.1]; exact hk
    simp [hk']

/-- Witness for claim C4: the GET operation on `/x/{a}/{b}` that declares only the path
parameter `b`. -/
theorem report_mode_names_only_missing_parameter_witness :
    ∃ r, ValidateFixOperationPathParameters specMissingA false = .ok r ∧
      r.errorOperations.filter (fun om => om.Path = "/x/{a}/{b}" && om.Method = "GET") =
        [{ Path := "/x/{a}/{b}", Method := "GET",
           MetaNotes := ["E_OP_MISSING_PATH_PARAMETER PARAM_NAMES[" ++ "a" ++ "]"] }] :=
  report_mode_names_only_missing_parameter specMissingA "/x/{a}/{b}" "GET"
    { Get := some (sampleOperation [sampleParam "b" "path"]), Patch := none, Post := none,
      Put := none, Delete := none }
    (sampleOperation [sampleParam "b" "path"]) "a" "b"
    (by decide) (by decide) (by decide) (by decide) (by decide) (by decide) (by decide)
    (by decide)

/-! ### Sorting parameters -/

theorem mapGet_mapSet {β : Type} (m : GoMap β) (k k' : String) (v : β) :
    mapGet (mapSet m k v) k' = if k = k' then some v else mapGet m k' := by
  induction m with
  | nil => simp [mapSet, mapGet]
  | cons e rest ih =>
    rcases e with ⟨k0, v0⟩
    unfold mapSet
    by_cases h0 : k0 = k
    · subst h0
      by_cases h1 : k0 = k' <;> simp [mapGet, h1]
    · simp only [h0, if_false, mapGet, ih]
      by_cases h1 : k0 = k'
      · subst h1
        have : ¬ k = k0 := fun h => h0 h.symm
        simp [this]
      · simp [h1]

theorem buildParamsMap_snoc (l : Parameters) (pRef : ParameterRef) (name : String) :
    mapGet (buildParamsMap (l ++ [pRef])) name =
      if hasName pRef name then some pRef else mapGet (buildParamsMap l) name := by
  unfold buildParamsMap
  rw [List.foldl_append]
  simp only [List.foldl_cons, List.foldl_nil]
  cases hv : pRef.Value with
  | none => simp [hasName, hv]
  | some p => simp [hasName, hv, mapGet_mapSet]

/-- A parameter found in `oldParamsMap` under a name is a source parameter of that name. -/
theorem buildParamsMap_some {sourceParams : Parameters} {name : String} {pRef : ParameterRef}
    (h : mapGet (buildParamsMap sourceParams) name = some pRef) :
    pRef ∈ sourceParams ∧ hasName pRef name = true := by
  induction sourceParams using List.reverseRecOn with
  | nil => simp [buildParamsMap, mapGet] at h
  | append_singleton l x ih =>
    rw [buildParamsMap_snoc] at h
    by_cases hx : hasName x name = true
    · simp only [hx, if_true, Option.some.injEq] at h
      subst h
      exact ⟨by simp, hx⟩
    · simp only [hx] at h
      have := ih h
      exact ⟨by simp [this.1], this.2⟩

/-- Every name of a source parameter is a key of `oldParamsMap`. -/
theorem buildParamsMap_isSome {sourceParams : Parameters} {name : String} {pRef : ParameterRef}
    (hmem : pRef ∈ sourceParams) (hname : hasName pRef name = true) :
    (mapGet (buildParamsMap sourceParams) name).isSome = true := by
  induction sourceParams using List.reverseRecOn with
  | nil => cases hmem
  | append_singleton l x ih =>
    rw [buildParamsMap_snoc]
    by_cases hx : hasName x name = true
    · simp [hx]
    · simp only [hx]
      rcases List.mem_append.mp hmem with h | h
      · exact ih h
      · simp at h
        subst h
        exact absurd hname hx

theorem sortNamed_fst_aux (m : GoMap ParameterRef) (sortOrder : List String)
    (acc : Parameters × GoMap Nat) :
    (sortOrder.foldl (fun acc sortedName =>
        match mapGet m sortedName with
        | some pRef => (acc.1 ++ [pRef], mapSet acc.2 sortedName 1)
        | none => acc) acc).1 = acc.1 ++ sortOrder.filterMap (mapGet m) := by
  induction sortOrder generalizing acc with
  | nil => simp
  | cons name rest ih =>
    rw [List.foldl_cons, ih]
    cases h : mapGet m name with
    | none => simp [List.filterMap_cons, h]
    | some pRef => simp [List.filterMap_cons, h]

theorem sortNamed_snd_aux (m : GoMap ParameterRef) (sortOrder : List String)
    (acc : Parameters × GoMap Nat) (name : String) :
    (mapGet (sortOrder.foldl (fun acc sortedName =>
        match mapGet m sortedName with
        | some pRef => (acc.1 ++ [pRef], mapSet acc.2 sortedName 1)
        | none => acc) acc).2 name).isSome =
      ((mapGet acc.2 name).isSome || (sortOrder.contains name && (mapGet m name).isSome)) := by
  induction sortOrder generalizing acc with
  | nil => simp
  | cons n rest ih =>
    rw [List.foldl_cons, ih]
    cases h : mapGet m n with
    | none =>
      by_cases hn : n = name
      · subst hn
        simp [h]
      · have hn' : ¬ name = n := fun e => hn e.symm
        simp [hn']
    | some pRef =>
      by_cases hn : n = name
      · subst hn
        simp [h, mapGet_mapSet]
      · have hn' : ¬ name = n := fun e => hn e.symm
        simp [hn, hn', mapGet_mapSet]

theorem sortRest_eq (addedNames : GoMap Nat) (sourceParams sortedParams : Parameters) :
    sortRest addedNames sourceParams sortedParams =
      sortedParams ++ sourceParams.filter (fun pRef =>
        match pRef.Value with
        | none => true
        | some v => (mapGet addedNames v.Name).isNone) := by
  unfold sortRest
  induction sourceParams generalizing sortedParams with
  | nil => simp
  | cons pRef rest ih =>
    rw [List.foldl_cons, ih]
    cases hv : pRef.Value with
    | none => simp [List.filter_cons, hv]
    | some v =>
      by_cases hk : (mapGet addedNames v.Name).isNone = true
      · simp [List.filter_cons, hv, hk]
      · simp [List.filter_cons, hv, hk]

/-- The slice that `SortParameters` builds: the entries of `oldParamsMap` for the names of the
order list, then the remaining source parameters. -/
theorem sortedBeforeCheck_eq (sourceParams : Parameters) (sortOrder : List String) :
    sortedBeforeCheck sourceParams sortOrder =
      sortOrder.filterMap (mapGet (buildParamsMap sourceParams)) ++
        remainingInOrder sourceParams sortOrder := by
  unfold sortedBeforeCheck sortNamed remainingInOrder
  simp only
  rw [sortRest_eq, sortNamed_fst_aux]
  simp only [List.nil_append]
  congr 1
  apply List.filter_congr
  intro pRef hmem
  unfold notNamedIn
  cases hv : pRef.Value with
  | none => rfl
  | some v =>
    have hsome : (mapGet (buildParamsMap sourceParams) v.Name).isSome = true :=
      buildParamsMap_isSome hmem (by simp [hasName, hv])
    have := sortNamed_snd_aux (buildParamsMap sourceParams) sortOrder ([], []) v.Name
    simp only [mapGet, Option.isSome_none, Bool.false_or, hsome, Bool.and_true] at this
    have key : ∀ (o : Option Nat) (c : Bool), o.isSome = c → o.isNone = !c := by
      intro o c h
      subst h
      cases o <;> rfl
    exact key _ _ this

theorem find_hasName {params : Parameters} {name : String} {q : ParameterRef}
    (h : params.find? (fun pRef => hasName pRef name) = some q) :
    q ∈ params ∧ hasName q name = true :=
  ⟨List.mem_of_find?_eq_some h, List.find?_some (p := fun pRef => hasName pRef name) h⟩

theorem hasName_eq {pRef : ParameterRef} {n n' : String}
    (h : hasName pRef n = true) (h' : hasName pRef n' = true) : n = n' := by
  unfold hasName at h h'
  cases hv : pRef.Value with
  | none => simp [hv] at h
  | some v =>
    simp [hv] at h h'
    rw [← h, ← h']

theorem mem_valuedNames {params : Parameters} {name : String} :
    name ∈ valuedNames params ↔ ∃ pRef ∈ params, hasName pRef name = true := by
  unfold valuedNames
  rw [List.mem_filterMap]
  constructor
  · rintro ⟨pRef, hmem, hv⟩
    refine ⟨pRef, hmem, ?_⟩
    cases hval : pRef.Value with
    | none => simp [hval] at hv
    | some v =>
      simp [hval] at hv
      simp [hasName, hval, hv]
  · rintro ⟨pRef, hmem, hn⟩
    refine ⟨pRef, hmem, ?_⟩
    cases hval : pRef.Value with
    | none => simp [hasName, hval] at hn
    | some v =>
      simp [hasName, hval] at hn
      simp [hn]

theorem valuedNames_cons (pRef : ParameterRef) (rest : Parameters) :
    valuedNames (pRef :: rest) =
      match pRef.Value with
      | some v => v.Name :: valuedNames rest
      | none => valuedNames rest := by
  unfold valuedNames
  cases hv : pRef.Value with
  | none => simp [List.filterMap_cons, hv]
  | some v => simp [List.filterMap_cons, hv]

/-- With pairwise distinct names, a name belongs to at most one parameter. -/
theorem unique_of_nodup_names {params : Parameters} (hn : (valuedNames params).Nodup)
    {p q : ParameterRef} {name : String} (hp : p ∈ params) (hq : q ∈ params)
    (hpn : hasName p name = true) (hqn : hasName q name = true) : p = q := by
  induction params with
  | nil => cases hp
  | cons x rest ih =>
    rw [valuedNames_cons] at hn
    cases hv : x.Value with
    | none =>
      rw [hv] at hn
      have hx : ∀ n, hasName x n = false := by intro n; simp [hasName, hv]
      rcases List.mem_cons.mp hp with h | h
      · subst h; simp [hx] at hpn
      · rcases List.mem_cons.mp hq with h' | h'
        · subst h'; simp [hx] at hqn
        · exact ih hn h h'
    | some v =>
      rw [hv] at hn
      simp only at hn
      have hnd := List.nodup_cons.mp hn
      have hxname : ∀ n, hasName x n = true → n = v.Name := by
        intro n h
        simp [hasName, hv] at h
        exact h.symm
      rcases List.mem_cons.mp hp with h | h
      · rcases List.mem_cons.mp hq with h' | h'
        · rw [h, h']
        · subst h
          exfalso
          apply hnd.1
          rw [← hxname name hpn]
          exact mem_valuedNames.mpr ⟨q, h', hqn⟩
      · rcases List.mem_cons.mp hq with h' | h'
        · subst h'
          exfalso
          apply hnd.1
          rw [← hxname name hqn]
          exact mem_valuedNames.mpr ⟨p, h, hpn⟩
        · exact ih hnd.2 h h'

/-- With pairwise distinct names, `oldParamsMap` holds under every name the parameter of that
name. -/
theorem buildParamsMap_eq_find {sourceParams : Parameters}
    (hn : (valuedNames sourceParams).Nodup) (name : String) :
    mapGet (buildParamsMap sourceParams) name =
      sourceParams.find? (fun pRef => hasName pRef name) := by
  cases hf : sourceParams.find? (fun pRef => hasName pRef name) with
  | none =>
    cases hm : mapGet (buildParamsMap sourceParams) name with
    | none => rfl
    | some pRef =>
      have := buildParamsMap_some hm
      have hnone := List.find?_eq_none.mp hf pRef this.1
      exact absurd this.2 hnone
  | some pRef =>
    have hmem := (find_hasName hf).1
    have hname : hasName pRef name = true := (find_hasName hf).2
    have hsome := buildParamsMap_isSome hmem hname
    cases hm : mapGet (buildParamsMap sourceParams) name with
    | none => simp [hm] at hsome
    | some q =>
      have := buildParamsMap_some hm
      rw [unique_of_nodup_names hn this.1 hmem this.2 hname]

theorem notNamedIn_false_iff {sortOrder : List String} {pRef : ParameterRef} :
    notNamedIn sortOrder pRef = false ↔ ∃ name ∈ sortOrder, hasName pRef name = true := by
  unfold notNamedIn hasName
  cases hv : pRef.Value with
  | none => simp
  | some v => simp

theorem nodup_filter_named {params : Parameters} (hn : (valuedNames params).Nodup)
    (sortOrder : List String) :
    (params.filter (fun pRef => !notNamedIn sortOrder pRef)).Nodup := by
  induction params with
  | nil => simp
  | cons x rest ih =>
    have hrest : (valuedNames rest).Nodup := by
      rw [valuedNames_cons] at hn
      cases hv : x.Value with
      | none => rw [hv] at hn; exact hn
      | some v => rw [hv] at hn; exact (List.nodup_cons.mp hn).2
    by_cases hx : notNamedIn sortOrder x = false
    · rw [List.filter_cons]
      simp only [hx, Bool.not_false, if_true]
      refine List.nodup_cons.mpr ⟨fun hmem => ?_, ih hrest⟩
      have hxr : x ∈ rest := (List.mem_filter.mp hmem).1
      rcases notNamedIn_false_iff.mp hx with ⟨name, _, hname⟩
      rw [valuedNames_cons] at hn
      cases hv : x.Value with
      | none => simp [hasName, hv] at hname
      | some v =>
        rw [hv] at hn
        simp only at hn
        apply (List.nodup_cons.mp hn).1
        exact mem_valuedNames.mpr ⟨x, hxr, by simp [hasName, hv]⟩
    · rw [List.filter_cons]
      have hx' : notNamedIn sortOrder x = true := by simpa using hx
      simp only [hx', Bool.not_true]
      exact ih hrest

/-- With pairwise distinct names and a duplicate-free order list, the named parameters followed
by the remaining ones are a permutation of the source. -/
theorem namedInOrder_append_perm {sourceParams : Parameters} {sortOrder : List String}
    (hnames : (valuedNames sourceParams).Nodup) (horder : sortOrder.Nodup) :
    (namedInOrder sourceParams sortOrder ++ remainingInOrder sourceParams sortOrder).Perm
      sourceParams := by
  have hsplit := List.filter_append_perm (fun pRef => !notNamedIn sortOrder pRef) sourceParams
  simp only [Bool.not_not] at hsplit
  refine List.Perm.trans (List.Perm.append_right _ ?_) hsplit
  have hnd1 : (namedInOrder sourceParams sortOrder).Nodup := by
    unfold namedInOrder
    apply List.Nodup.filterMap _ horder
    intro n n' pRef h h'
    exact hasName_eq (find_hasName (Option.mem_def.mp h)).2
      (find_hasName (Option.mem_def.mp h')).2
  apply (List.perm_ext_iff_of_nodup hnd1 (nodup_filter_named hnames sortOrder)).mpr
  intro pRef
  unfold namedInOrder
  rw [List.mem_filterMap, List.mem_filter]
  constructor
  · rintro ⟨name, hname, hfind⟩
    refine ⟨(find_hasName hfind).1, ?_⟩
    have : notNamedIn sortOrder pRef = false :=
      notNamedIn_false_iff.mpr ⟨name, hname, (find_hasName hfind).2⟩
    simp [this]
  · rintro ⟨hmem, hin⟩
    have hin' : notNamedIn sortOrder pRef = false := by simpa using hin
    rcases notNamedIn_false_iff.mp hin' with ⟨name, hname, hpn⟩
    refine ⟨name, hname, ?_⟩
    cases hf : sourceParams.find? (fun pRef => hasName pRef name) with
    | none => exact absurd hpn (List.find?_eq_none.mp hf pRef hmem)
    | some q =>
      rw [unique_of_nodup_names hnames (find_hasName hf).1 hmem (find_hasName hf).2 hpn]

/-- With pairwise distinct names, the slice that `SortParameters` builds is the named parameters
followed by the remaining ones. -/
theorem sortedBeforeCheck_of_nodup {sourceParams : Parameters}
    (hnames : (valuedNames sourceParams).Nodup) (sortOrder : List String) :
    sortedBeforeCheck sourceParams sortOrder =
      namedInOrder sourceParams sortOrder ++ remainingInOrder sourceParams sortOrder := by
  rw [sortedBeforeCheck_eq]
  unfold namedInOrder
  congr 1
  apply List.filterMap_congr
  intro name _
  exact buildParamsMap_eq_find hnames name

/-- Claim C2. For a parameter list whose valued parameters have pairwise distinct names and a
duplicate-free order list, `SortParameters` returns the parameters named in the order list, in
the order of that list, followed by all remaining parameters (those without a value included)
in their original relative order; this result is a permutation of the input. -/
theorem SortParameters_sorted_permutation (sourceParams : Parameters)
    (sortOrder : List String)
    (hnames : (valuedNames sourceParams).Nodup) (horder : sortOrder.Nodup) :
    SortParameters sourceParams sortOrder =
        .ok (namedInOrder sourceParams sortOrder ++ remainingInOrder sourceParams sortOrder) ∧
      (namedInOrder sourceParams sortOrder ++ remainingInOrder sourceParams sortOrder).Perm
        sourceParams := by
  have hperm := namedInOrder_append_perm hnames horder
  have heq := sortedBeforeCheck_of_nodup hnames sortOrder
  refine ⟨?_, hperm⟩
  unfold SortParameters
  simp only [heq, hperm.length_eq, ne_eq, not_true_eq_false, if_false]

/-- Witness for claim C2: the parameters `q`, `b`, an entry without a value, and `a`, sorted by
the order `a`, `b`, `c`. -/
theorem SortParameters_sorted_permutation_witness :
    SortParameters
        [sampleParam "q" "query", sampleParam "b" "path", { Ref := "#/x", Value := none },
          sampleParam "a" "path"] ["a", "b", "c"] =
      .ok [sampleParam "a" "path", sampleParam "b" "path", sampleParam "q" "query",
        { Ref := "#/x", Value := none }] ∧
    [sampleParam "a" "path", sampleParam "b" "path", sampleParam "q" "query",
        { Ref := "#/x", Value := none }].Perm
      [sampleParam "q" "query", sampleParam "b" "path", { Ref := "#/x", Value := none },
          sampleParam "a" "path"] :=
  SortParameters_sorted_permutation
    [sampleParam "q" "query", sampleParam "b" "path", { Ref := "#/x", Value := none },
      sampleParam "a" "path"] ["a", "b", "c"] (by decide) (by decide)

/-! ### A successful sort keeps every parameter -/

theorem refName_of_hasName {pRef : ParameterRef} {name : String}
    (h : hasName pRef name = true) : refName pRef = name := by
  unfold hasName at h
  unfold refName
  cases hv : pRef.Value with
  | none => simp [hv] at h
  | some v => simpa [hv] using h

/-- Whenever `SortParameters` returns, for a duplicate-free order list, its result is a
permutation of the source parameters. -/
theorem SortParameters_ok_perm {sourceParams sorted : Parameters} {sortOrder : List String}
    (horder : sortOrder.Nodup)
    (h : SortParameters sourceParams sortOrder = .ok sorted) : sorted.Perm sourceParams := by
  unfold SortParameters at h
  simp only at h
  split at h
  · cases h
  · rename_i hlen
    cases h
    have hlen' : (sortedBeforeCheck sourceParams sortOrder).length = sourceParams.length := by
      simpa using hlen
    rw [sortedBeforeCheck_eq] at hlen' ⊢
    have hsplit : (sourceParams.filter (fun pRef => !notNamedIn sortOrder pRef) ++
        sourceParams.filter (notNamedIn sortOrder)).Perm sourceParams := by
      have := List.filter_append_perm (fun pRef => !notNamedIn sortOrder pRef) sourceParams
      simp only [Bool.not_not] at this
      exact this
    refine List.Perm.trans (List.Perm.append_right _ ?_) hsplit
    -- the lengths of the two lists of named parameters agree
    have hcount : (sortOrder.filterMap (mapGet (buildParamsMap sourceParams))).length =
        (sourceParams.filter (fun pRef => !notNamedIn sortOrder pRef)).length := by
      have h2 := hsplit.length_eq
      rw [List.length_append] at h2 hlen'
      unfold remainingInOrder at hlen'
      omega
    -- membership in the filtered source list
    have hmemQ : ∀ {q : ParameterRef} {name : String}, q ∈ sourceParams → name ∈ sortOrder →
        hasName q name = true →
        q ∈ sourceParams.filter (fun pRef => !notNamedIn sortOrder pRef) := by
      intro q name hq hname hqn
      apply List.mem_filter.mpr
      refine ⟨hq, ?_⟩
      have : notNamedIn sortOrder q = false := notNamedIn_false_iff.mpr ⟨name, hname, hqn⟩
      simp [this]
    -- the names of the parameters taken from the map are pairwise distinct
    have hnames1 : ((sortOrder.filterMap (mapGet (buildParamsMap sourceParams))).map
        refName).Nodup := by
      rw [List.map_filterMap]
      apply List.Nodup.filterMap _ horder
      intro n n' m hm hm'
      rw [Option.mem_def, Option.map_eq_some'] at hm hm'
      rcases hm with ⟨q, hq, hqm⟩
      rcases hm' with ⟨q', hq', hqm'⟩
      rw [← refName_of_hasName (buildParamsMap_some hq).2,
        ← refName_of_hasName (buildParamsMap_some hq').2, hqm, hqm']
    have hsub : (sortOrder.filterMap (mapGet (buildParamsMap sourceParams))).map refName ⊆
        (sourceParams.filter (fun pRef => !notNamedIn sortOrder pRef)).map refName := by
      intro m hm
      rcases List.mem_map.mp hm with ⟨q, hq, hqm⟩
      rcases List.mem_filterMap.mp hq with ⟨name, hname, hget⟩
      have := buildParamsMap_some hget
      exact List.mem_map.mpr ⟨q, hmemQ this.1 hname this.2, hqm⟩
    have hnamesQ : ((sourceParams.filter (fun pRef => !notNamedIn sortOrder pRef)).map
        refName).Nodup := by
      have hp := (List.Nodup.subperm hnames1 hsub).perm_of_length_le
        (by rw [List.length_map, List.length_map, hcount])
      exact hp.nodup_iff.mp hnames1
    have hnd1 : (sortOrder.filterMap (mapGet (buildParamsMap sourceParams))).Nodup :=
      List.Nodup.of_map _ hnames1
    have hndQ : (sourceParams.filter (fun pRef => !notNamedIn sortOrder pRef)).Nodup :=
      List.Nodup.of_map _ hnamesQ
    apply (List.perm_ext_iff_of_nodup hnd1 hndQ).mpr
    intro pRef
    constructor
    · intro hp
      rcases List.mem_filterMap.mp hp with ⟨name, hname, hget⟩
      have := buildParamsMap_some hget
      exact hmemQ this.1 hname this.2
    · intro hp
      have hmem := (List.mem_filter.mp hp).1
      have hin : notNamedIn sortOrder pRef = false := by
        simpa using (List.mem_filter.mp hp).2
      rcases notNamedIn_false_iff.mp hin with ⟨name, hname, hpn⟩
      have hsome := buildParamsMap_isSome hmem hpn
      cases hget : mapGet (buildParamsMap sourceParams) name with
      | none => simp [hget] at hsome
      | some q =>
        have hq := buildParamsMap_some hget
        have hqp : q = pRef :=
          List.inj_on_of_nodup_map hnamesQ (hmemQ hq.1 hname hq.2) hp
            (by rw [refName_of_hasName hq.2, refName_of_hasName hpn])
        rw [← hqp]
        exact List.mem_filterMap.mpr ⟨name, hname, hget⟩

/-! ### Fix mode of the path-parameter pass -/

theorem HasParameter_iff {op : Operation} {name : String} :
    HasParameter op name = true ↔
      ∃ pRef ∈ op.Parameters, ∃ p, pRef.Value = some p ∧ p.Name = name ∧ p.In = "path" := by
  unfold HasParameter
  rw [List.any_eq_true]
  constructor
  · rintro ⟨pRef, hmem, h⟩
    refine ⟨pRef, hmem, ?_⟩
    cases hv : pRef.Value with
    | none => simp [hv] at h
    | some p =>
      simp [hv] at h
      exact ⟨p, rfl, h.1, h.2⟩
  · rintro ⟨pRef, hmem, p, hv, hn, hi⟩
    exact ⟨pRef, hmem, by simp [hv, hn, hi]⟩

theorem pathParamStep_fix_missing (st : PathParamLoop) (varName : String) :
    (pathParamStep true st varName).varNamesMissing = st.varNamesMissing := by
  unfold pathParamStep
  split <;> simp

theorem pathParamStep_fix_mono (st : PathParamLoop) (varName name : String)
    (h : HasParameter st.op name = true) :
    HasParameter (pathParamStep true st varName).op name = true := by
  unfold pathParamStep
  split
  · simp only [if_true]
    rcases HasParameter_iff.mp h with ⟨pRef, hmem, hp⟩
    exact HasParameter_iff.mpr ⟨pRef, List.mem_append_left _ hmem, hp⟩
  · exact h

theorem pathParamStep_fix_has (st : PathParamLoop) (varName : String) :
    HasParameter (pathParamStep true st varName).op varName = true := by
  unfold pathParamStep
  split
  · simp only [if_true]
    exact HasParameter_iff.mpr ⟨newParamRef varName, by simp, _, rfl, rfl, rfl⟩
  · rename_i h
    simpa using h

theorem pathParamLoop_fix_aux (tokens : List String) (st : PathParamLoop) :
    (tokens.foldl (pathParamStep true) st).varNamesMissing = st.varNamesMissing ∧
    (∀ name, HasParameter st.op name = true →
      HasParameter (tokens.foldl (pathParamStep true) st).op name = true) ∧
    (∀ name ∈ tokens, HasParameter (tokens.foldl (pathParamStep true) st).op name = true) := by
  induction tokens generalizing st with
  | nil => simp
  | cons t rest ih =>
    rw [List.foldl_cons]
    have ih' := ih (pathParamStep true st t)
    refine ⟨?_, ?_, ?_⟩
    · rw [ih'.1, pathParamStep_fix_missing]
    · intro name h
      exact ih'.2.1 name (pathParamStep_fix_mono st t name h)
    · intro name hmem
      rcases List.mem_cons.mp hmem with h | h
      · subst h
        exact ih'.2.1 name (pathParamStep_fix_has st name)
      · exact ih'.2.2 name h

/-- Whenever the fix-mode callback returns, it has added no diagnostic and the operation it
leaves declares a path parameter for every token of the path. -/
theorem pathParametersVisit_fix {path method : String} {op op' : Operation}
    {s s' : List OperationMeta}
    (h : pathParametersVisit true path method op s = .ok (op', s')) :
    s' = s ∧ ∀ name ∈ ParsePathParametersParens path, HasParameter op' name = true := by
  unfold pathParametersVisit at h
  simp only at h
  split at h
  · rename_i h0
    have h1 : ParsePathParametersParens path = [] := List.length_eq_zero.mp h0
    simp only [Except.ok.injEq, Prod.mk.injEq] at h
    rw [h1]
    exact ⟨h.2.symm, by simp⟩
  · have hloop := pathParamLoop_fix_aux (ParsePathParametersParens path)
      { op := op, varNamesMissing := [], fixed := false }
    have hmiss : (pathParamLoop true op (ParsePathParametersParens path)).varNamesMissing
        = [] := hloop.1
    have hhas : ∀ name ∈ ParsePathParametersParens path,
        HasParameter (pathParamLoop true op (ParsePathParametersParens path)).op name = true :=
      hloop.2.2
    rw [hmiss] at h
    simp only [List.length_nil, gt_iff_lt, Nat.lt_irrefl, if_false] at h
    split at h
    · cases h
    · rename_i op1 hsorted
      simp only [Except.ok.injEq, Prod.mk.injEq] at h
      refine ⟨h.2.symm, ?_⟩
      rw [← h.1]
      intro name hname
      split at hsorted
      · split at hsorted
        · rename_i ps hps
          cases hsorted
          rcases HasParameter_iff.mp (hhas name hname) with ⟨pRef, hmem, hp⟩
          have hperm := SortParameters_ok_perm (ParsePathParametersParens_nodup path) hps
          exact HasParameter_iff.mpr ⟨pRef, hperm.mem_iff.mpr hmem, hp⟩
        · cases hsorted
      · cases hsorted
        exact hhas name hname

theorem mem_operations {pathItem : PathItem} {method : String} {op : Operation}
    (h : (method, op) ∈ pathItem.operations) :
    pathItem.Get = some op ∨ pathItem.Patch = some op ∨ pathItem.Post = some op ∨
      pathItem.Put = some op ∨ pathItem.Delete = some op := by
  rcases pathItem with ⟨get, patch, post, put, delete⟩
  cases get <;> cases patch <;> cases post <;> cases put <;> cases delete <;>
    simp [PathItem.operations] at h ⊢ <;> aesop

theorem visitMethod_post {σ : Type} {visitOp : VisitOp σ} (Q : String → Operation → Prop)
    (I : σ → Prop)
    (hf : ∀ path method op s op' s', I s → visitOp path method op s = .ok (op', s') →
      Q path op' ∧ I s')
    {path method : String} {op op' : Option Operation} {s s' : σ} (hs : I s)
    (h : visitMethod visitOp path method op s = .ok (op', s')) :
    I s' ∧ ∀ o, op' = some o → Q path o := by
  unfold visitMethod at h
  cases op with
  | none =>
    simp only [Except.ok.injEq, Prod.mk.injEq] at h
    rw [← h.1, ← h.2]
    exact ⟨hs, by simp⟩
  | some o =>
    simp only at h
    split at h
    · rename_i o1 s1 heq
      simp only [Except.ok.injEq, Prod.mk.injEq] at h
      have := hf _ _ _ _ _ _ hs heq
      rw [← h.1, ← h.2]
      refine ⟨this.2, ?_⟩
      intro o2 ho2
      cases ho2
      exact this.1
    · cases h

theorem VisitOperationsPathItem_post {σ : Type} {visitOp : VisitOp σ}
    (Q : String → Operation → Prop) (I : σ → Prop)
    (hf : ∀ path method op s op' s', I s → visitOp path method op s = .ok (op', s') →
      Q path op' ∧ I s')
    {path : String} {pathItem pathItem' : PathItem} {s s' : σ} (hs : I s)
    (h : VisitOperationsPathItem visitOp path pathItem s = .ok (pathItem', s')) :
    I s' ∧ ∀ method op, (method, op) ∈ pathItem'.operations → Q path op := by
  unfold VisitOperationsPathItem at h
  split at h
  · cases h
  · rename_i h1
    have p1 := visitMethod_post Q I hf hs h1
    split at h
    · cases h
    · rename_i h2
      have p2 := visitMethod_post Q I hf p1.1 h2
      split at h
      · cases h
      · rename_i h3
        have p3 := visitMethod_post Q I hf p2.1 h3
        split at h
        · cases h
        · rename_i h4
          have p4 := visitMethod_post Q I hf p3.1 h4
          split at h
          · cases h
          · rename_i h5
            have p5 := visitMethod_post Q I hf p4.1 h5
            cases h
            refine ⟨p5.1, ?_⟩
            intro method op hmem
            rcases mem_operations hmem with e | e | e | e | e
            · exact p1.2 op e
            · exact p2.2 op e
            · exact p3.2 op e
            · exact p4.2 op e
            · exact p5.2 op e

theorem visitPaths_post {σ : Type} {visitOp : VisitOp σ} (Q : String → Operation → Prop)
    (I : σ → Prop)
    (hf : ∀ path method op s op' s', I s → visitOp path method op s = .ok (op', s') →
      Q path op' ∧ I s')
    {paths paths' : List (String × PathItem)} {s s' : σ} (hs : I s)
    (h : visitPaths visitOp paths s = .ok (paths', s')) :
    I s' ∧ ∀ path pathItem, (path, pathItem) ∈ paths' →
      ∀ method op, (method, op) ∈ pathItem.operations → Q path op := by
  induction paths generalizing paths' s s' with
  | nil =>
    simp only [visitPaths, Except.ok.injEq, Prod.mk.injEq] at h
    rw [← h.1, ← h.2]
    exact ⟨hs, by simp⟩
  | cons e rest ih =>
    rcases e with ⟨path, pathItem⟩
    unfold visitPaths at h
    split at h
    · cases h
    · rename_i item1 s1 h1
      have p1 := VisitOperationsPathItem_post Q I hf hs h1
      split at h
      · cases h
      · rename_i rest1 s2 h2
        have p2 := ih p1.1 h2
        cases h
        refine ⟨p2.1, ?_⟩
        intro path' pathItem' hmem method op hop
        rcases List.mem_cons.mp hmem with e | e
        · cases e
          exact p1.2 method op hop
        · exact p2.2 path' pathItem' e method op hop

/-- Claim C5. After the path-parameter pass has run in fix mode and returned, every token
`{name}` of every path template is matched, on every operation of that path, by a declared
parameter of that name, located in the path; and the pass has returned an empty diagnostic list
and a nil error. -/
theorem fix_mode_declares_every_placeholder (spec : Spec) (r : PassResult)
    (h : ValidateFixOperationPathParameters spec true = .ok r) :
    r.errorOperations = [] ∧ r.err = none ∧
      ∀ path pathItem, (path, pathItem) ∈ r.spec.Paths →
        ∀ method op, (method, op) ∈ pathItem.operations →
          ∀ name ∈ ParsePathParametersParens path,
            ∃ pRef ∈ op.Parameters, ∃ p,
              pRef.Value = some p ∧ p.Name = name ∧ p.In = "path" := by
  unfold ValidateFixOperationPathParameters VisitOperations at h
  split at h
  · cases h
  · rename_i spec1 errs h1
    split at h1
    · cases h1
    · rename_i paths1 errs1 h2
      cases h1
      cases h
      have post := visitPaths_post
        (fun path op => ∀ name ∈ ParsePathParametersParens path, HasParameter op name = true)
        (fun s : List OperationMeta => s = [])
        (fun path method op s op' s' hs hv => by
          have := pathParametersVisit_fix hv
          exact ⟨this.2, by rw [this.1, hs]⟩)
        rfl h2
      have herrs : errs = [] := post.1
      subst herrs
      refine ⟨rfl, rfl, ?_⟩
      intro path pathItem hmem method op hop name hname
      exact HasParameter_iff.mp (post.2 path pathItem hmem method op hop name hname)

/-- Witness for claim C5: fixing `specMissingA` returns the document in which the operation
declares `a` and `b`, no diagnostic and no error. -/
theorem fix_mode_declares_every_placeholder_witness :
    ValidateFixOperationPathParameters specMissingA true =
        .ok (finishPass specMissingAFixed []) ∧
      (finishPass specMissingAFixed []).errorOperations = [] ∧
      (finishPass specMissingAFixed []).err = none ∧
      ∀ path pathItem, (path, pathItem) ∈ (finishPass specMissingAFixed []).spec.Paths →
        ∀ method op, (method, op) ∈ pathItem.operations →
          ∀ name ∈ ParsePathParametersParens path,
            ∃ pRef ∈ op.Parameters, ∃ p,
              pRef.Value = some p ∧ p.Name = name ∧ p.In = "path" :=
  ⟨by decide,
    fix_mode_declares_every_placeholder specMissingA (finishPass specMissingAFixed [])
      (by decide)⟩

theorem pathParamLoop_fix_noop (tokens : List String) (st : PathParamLoop)
    (h : ∀ t ∈ tokens, HasParameter st.op t = true) :
    tokens.foldl (pathParamStep true) st = st := by
  induction tokens with
  | nil => rfl
  | cons t rest ih =>
    have ht : pathParamStep true st t = st := by
      unfold pathParamStep
      simp [h t (List.mem_cons_self _ _)]
    rw [List.foldl_cons, ht]
    exact ih (fun u hu => h u (List.mem_cons_of_mem _ hu))

theorem pathParamLoop_fix_one (tokens : List String) (st : PathParamLoop) (a : String)
    (hn : tokens.Nodup) (ha : a ∈ tokens) (hda : HasParameter st.op a = false)
    (hrest : ∀ t ∈ tokens, t ≠ a → HasParameter st.op t = true) :
    tokens.foldl (pathParamStep true) st =
      { op := { st.op with Parameters := st.op.Parameters ++ [newParamRef a] },
        varNamesMissing := st.varNamesMissing, fixed := true } := by
  induction tokens with
  | nil => cases ha
  | cons t rest ih =>
    have hnd := List.nodup_cons.mp hn
    rw [List.foldl_cons]
    by_cases hta : t = a
    · subst hta
      have hstep : pathParamStep true st t =
          { op := { st.op with Parameters := st.op.Parameters ++ [newParamRef t] },
            varNamesMissing := st.varNamesMissing, fixed := true } := by
        unfold pathParamStep
        simp [hda]
      rw [hstep]
      apply pathParamLoop_fix_noop
      intro u hu
      have hut : u ≠ t := fun e => hnd.1 (e ▸ hu)
      rcases HasParameter_iff.mp (hrest u (List.mem_cons_of_mem _ hu) hut) with ⟨pRef, hmem, hp⟩
      exact HasParameter_iff.mpr ⟨pRef, List.mem_append_left _ hmem, hp⟩
    · have hstep : pathParamStep true st t = st := by
        unfold pathParamStep
        simp [hrest t (List.mem_cons_self _ _) hta]
      rw [hstep]
      have ha' : a ∈ rest := by
        rcases List.mem_cons.mp ha with h | h
        · exact absurd h.symm hta
        · exact h
      exact ih hnd.2 ha' (fun u hu => hrest u (List.mem_cons_of_mem _ hu))

/-- The fix on operations without a repeated name. Let the tokens of the path be `{a}` and
`{b}`, and let the operation declare the path parameter `b`, no parameter named `a`, and no two
valued parameters of the same name. Then the fix-mode callback returns, adds no diagnostic, and
leaves a parameter list that is a permutation of the original parameters and the one synthesized
parameter `a` (in the path, required, of schema type string): its length is the original length
plus one. -/
theorem fix_mode_adds_missing_parameter (path method : String) (op : Operation)
    (s : List OperationMeta) (a b : String)
    (ha : a ∈ ParsePathParametersParens path)
    (hab : ∀ t ∈ ParsePathParametersParens path, t = a ∨ t = b)
    (hdb : HasParameter op b = true)
    (hda : a ∉ valuedNames op.Parameters)
    (hnames : (valuedNames op.Parameters).Nodup) :
    ∃ ps, pathParametersVisit true path method op s = .ok ({ op with Parameters := ps }, s) ∧
      ps.Perm (op.Parameters ++ [newParamRef a]) ∧
      ps.length = op.Parameters.length + 1 := by
  have hnd := ParsePathParametersParens_nodup path
  have hda' : HasParameter op a = false := by
    cases hh : HasParameter op a with
    | false => rfl
    | true =>
      rcases HasParameter_iff.mp hh with ⟨pRef, hmem, p, hv, hname, _⟩
      exact absurd (mem_valuedNames.mpr ⟨pRef, hmem, by simp [hasName, hv, hname]⟩) hda
  have hloop : pathParamLoop true op (ParsePathParametersParens path) =
      { op := { op with Parameters := op.Parameters ++ [newParamRef a] },
        varNamesMissing := [], fixed := true } := by
    unfold pathParamLoop
    apply pathParamLoop_fix_one _ _ a hnd ha hda'
    intro t ht hta
    rcases hab t ht with h | h
    · exact absurd h hta
    · rw [h]; exact hdb
  have hnames' : (valuedNames (op.Parameters ++ [newParamRef a])).Nodup := by
    have : valuedNames (op.Parameters ++ [newParamRef a]) = valuedNames op.Parameters ++ [a] := by
      simp [valuedNames, List.filterMap_append, newParamRef]
    rw [this]
    apply List.Nodup.append hnames (List.nodup_singleton a)
    intro x hx hx'
    rw [List.mem_singleton] at hx'
    subst hx'
    exact hda hx
  have hperm := namedInOrder_append_perm hnames' hnd
  have hsort : SortParameters (op.Parameters ++ [newParamRef a])
      (ParsePathParametersParens path) =
      .ok (namedInOrder (op.Parameters ++ [newParamRef a]) (ParsePathParametersParens path) ++
        remainingInOrder (op.Parameters ++ [newParamRef a])
          (ParsePathParametersParens path)) := by
    unfold SortParameters
    simp only [sortedBeforeCheck_of_nodup hnames', hperm.length_eq, ne_eq, not_true_eq_false,
      if_false]
  have hlen0 : (ParsePathParametersParens path).length ≠ 0 := by
    intro h0
    rw [List.length_eq_zero.mp h0] at ha
    cases ha
  refine ⟨_, ?_, hperm, ?_⟩
  · unfold pathParametersVisit
    simp [hlen0, hloop, hsort]
  · rw [hperm.length_eq]
    simp

/-- Claim C3 (the code at the failing input). The tokens of `/pets/{a}/{b}` are `a` and `b`, and
the operation `opTwiceB` declares `b` (in the path and in a header) but not `a`. In fix mode the
callback does not leave a parameter list of the original length plus one: it ends in the panic
`E_SORT_LEN_MISMATCH` of `SortParameters`, and so does the pass. -/
theorem fix_mode_fails_when_declared_twice :
    ParsePathParametersParens "/pets/{a}/{b}" = ["a", "b"] ∧
    HasParameter opTwiceB "b" = true ∧ HasParameter opTwiceB "a" = false ∧
    pathParametersVisit true "/pets/{a}/{b}" "GET" opTwiceB [] =
      .error Failure.sortLenMismatch ∧
    ValidateFixOperationPathParameters (sampleSpec "/pets/{a}/{b}" opTwiceB) true =
      .error Failure.sortLenMismatch := by
  decide

/-! ### The Postman URL -/

theorem addPathVariables_Path (endpoint : Endpoint) (parts : List String) (url : URL) :
    (addPathVariables endpoint parts url).Path = url.Path := by
  induction parts generalizing url with
  | nil => rfl
  | cons part rest ih =>
    unfold addPathVariables
    split
    · rw [ih]; rfl
    · exact ih url

theorem addPathVariables_Host (endpoint : Endpoint) (parts : List String) (url : URL) :
    (addPathVariables endpoint parts url).Host = url.Host := by
  induction parts generalizing url with
  | nil => rfl
  | cons part rest ih =>
    unfold addPathVariables
    split
    · rw [ih]; rfl
    · exact ih url

theorem addPathVariables_Protocol (endpoint : Endpoint) (parts : List String) (url : URL) :
    (addPathVariables endpoint parts url).Protocol = url.Protocol := by
  induction parts generalizing url with
  | nil => rfl
  | cons part rest ih =>
    unfold addPathVariables
    split
    · rw [ih]; rfl
    · exact ih url

theorem BuildPostmanURL_Path (cfg : Configuration) (swag : Specification) (swaggerURL : String)
    (endpoint : Endpoint) :
    (BuildPostmanURL cfg swag swaggerURL endpoint).Path =
      if (APIURLOasToPostman (assemblePath swag swaggerURL)).length = 0 then []
      else Split (APIURLOasToPostman (assemblePath swag swaggerURL)) '/' := by
  simp [BuildPostmanURL, addPathVariables_Path, NewURLForGoURL]

theorem BuildPostmanURL_Host (cfg : Configuration) (swag : Specification) (swaggerURL : String)
    (endpoint : Endpoint) :
    (BuildPostmanURL cfg swag swaggerURL endpoint).Host = TrimSpace (selectHost cfg swag) := by
  simp [BuildPostmanURL, addPathVariables_Host, NewURLForGoURL]

theorem BuildPostmanURL_Protocol (cfg : Configuration) (swag : Specification)
    (swaggerURL : String) (endpoint : Endpoint) :
    (BuildPostmanURL cfg swag swaggerURL endpoint).Protocol =
      TrimSpace (selectScheme cfg swag) := by
  simp [BuildPostmanURL, addPathVariables_Protocol, NewURLForGoURL]

theorem trimSpaceChars_idem (cs : List Char) :
    trimSpaceChars (trimSpaceChars cs) = trimSpaceChars cs := by
  have hdef : ∀ l : List Char, trimSpaceChars l = (l.dropWhile isSpace).rdropWhile isSpace :=
    fun _ => rfl
  have hhead : (trimSpaceChars cs).dropWhile isSpace = trimSpaceChars cs := by
    rw [hdef]
    cases hB : List.rdropWhile isSpace (List.dropWhile isSpace cs) with
    | nil => rfl
    | cons b bs =>
      have hpre : List.rdropWhile isSpace (List.dropWhile isSpace cs) <+:
          List.dropWhile isSpace cs := List.rdropWhile_prefix _ _
      rw [hB] at hpre
      obtain ⟨t, ht⟩ := hpre
      have hnot := List.head?_dropWhile_not isSpace cs
      rw [← ht] at hnot
      simp only [List.cons_append, List.head?_cons] at hnot
      rw [List.dropWhile_cons]
      simp [hnot]
  rw [hdef (trimSpaceChars cs), hhead, hdef, List.rdropWhile_idempotent]

theorem TrimSpace_idem (s : String) : TrimSpace (TrimSpace s) = TrimSpace s := by
  unfold TrimSpace
  simp only [trimSpaceChars_idem]

theorem firstScheme_eq_find (schemes : List String) :
    firstScheme schemes = (schemes.find? (fun s => TrimSpace s ≠ "")).getD "" := by
  induction schemes with
  | nil => rfl
  | cons scheme rest ih =>
    unfold firstScheme
    by_cases h : TrimSpace scheme = ""
    · simp [h, ih]
    · have hlen : (TrimSpace scheme).length > 0 := by
        rcases hs : TrimSpace scheme with ⟨cs⟩
        cases cs with
        | nil => exact absurd hs h
        | cons c cs => simp [String.length]
      simp [h, hlen]

/-- Claim C8 (counterexample). For host `example.com`, base path `/v1`, path template
`/widgets/{id}` and no overrides, the path segments of the URL are not `["widgets", ":id"]`. -/
theorem example_url_segments_not_widgets_id :
    (BuildPostmanURL noOverrides (exampleSwagger []) "/widgets/{id}" (sampleEndpoint [])).Path ≠
      ["widgets", ":id"] := by
  decide

/-- Claim C8 (amended). For host `example.com`, base path `/v1`, path template `/widgets/{id}`
and no overrides, whatever the schemes and the endpoint, the path segments of the URL are
`["v1", "widgets", ":id"]`: the base path is part of the assembled path. The assembled path is
`v1/widgets/{id}`, which has no leading slash and no repeated slash. -/
theorem example_url_segments (schemes : List String) (endpoint : Endpoint) :
    (BuildPostmanURL noOverrides (exampleSwagger schemes) "/widgets/{id}" endpoint).Path =
        ["v1", "widgets", ":id"] ∧
      assemblePath (exampleSwagger schemes) "/widgets/{id}" = "v1/widgets/{id}" ∧
      (assemblePath (exampleSwagger schemes) "/widgets/{id}").data.head? ≠ some '/' ∧
      hasRepeatedSlash (assemblePath (exampleSwagger schemes) "/widgets/{id}").data = false := by
  have h : assemblePath (exampleSwagger schemes) "/widgets/{id}" = "v1/widgets/{id}" := by
    have h0 : assemblePath (exampleSwagger schemes) "/widgets/{id}" =
        assemblePath (exampleSwagger []) "/widgets/{id}" := rfl
    rw [h0]
    decide
  rw [BuildPostmanURL_Path, h]
  decide

/-- Claim C9. For every configuration and specification, the host of the URL built by
`BuildPostmanURL` is the first value, in the order base-URL override, hostname override,
declared host of the specification, that is not blank, with its surrounding white space
removed; it is empty when all three are blank. -/
theorem host_is_first_non_blank_trimmed (cfg : Configuration) (swag : Specification)
    (swaggerURL : String) (endpoint : Endpoint) :
    (BuildPostmanURL cfg swag swaggerURL endpoint).Host =
      firstNonBlankTrimmed [cfg.PostmanURLBase, cfg.PostmanURLHostname, swag.Host] := by
  rw [BuildPostmanURL_Host]
  unfold selectHost firstNonBlankTrimmed firstNonBlankTrimmed firstNonBlankTrimmed
    firstNonBlankTrimmed
  simp only
  by_cases h1 : (TrimSpace cfg.PostmanURLBase).length > 0
  · simp only [h1, if_true, TrimSpace_idem]
  · by_cases h2 : (TrimSpace cfg.PostmanURLHostname).length > 0
    · simp only [h1, h2, if_true, if_false]
    · by_cases h3 : (TrimSpace swag.Host).length > 0
      · simp only [h1, h2, h3, if_true, if_false]
      · simp only [h1, h2, h3, if_false]
        decide

/-- Claim C10 (counterexample). With no base-URL override and the scheme list `[" ", "https"]`,
the scheme of the URL is `https`, although the first non-empty entry of the list is `" "`; and
with the scheme list `[" https "]` the scheme of the URL is `https`, not the entry
`" https "`. With the base-URL override `" "`, which is blank, the scheme is set all the
same. -/
theorem scheme_skips_blank_entry :
    ((BuildPostmanURL noOverrides (exampleSwagger [" ", "https"]) "/widgets/{id}"
        (sampleEndpoint [])).Protocol = "https" ∧
      (BuildPostmanURL noOverrides (exampleSwagger [" ", "https"]) "/widgets/{id}"
        (sampleEndpoint [])).Protocol ≠
        ((exampleSwagger [" ", "https"]).Schemes.find? (fun s => s ≠ "")).getD "") ∧
    ((BuildPostmanURL noOverrides (exampleSwagger [" https "]) "/widgets/{id}"
        (sampleEndpoint [])).Protocol = "https" ∧
      (BuildPostmanURL noOverrides (exampleSwagger [" https "]) "/widgets/{id}"
        (sampleEndpoint [])).Protocol ≠
        ((exampleSwagger [" https "]).Schemes.find? (fun s => s ≠ "")).getD "") ∧
    (BuildPostmanURL { noOverrides with PostmanURLBase := " " } (exampleSwagger ["https"])
      "/widgets/{id}" (sampleEndpoint [])).Protocol = "https" := by
  decide

/-- Claim C10 (amended). When no base-URL override is set (the override is blank), the scheme
of the URL is the first entry of the scheme list that is not blank, with its surrounding white
space removed, and empty when there is no such entry; when a base-URL override is set, the
scheme is empty. -/
theorem scheme_selection (cfg : Configuration) (swag : Specification) (swaggerURL : String)
    (endpoint : Endpoint) :
    (BuildPostmanURL cfg swag swaggerURL endpoint).Protocol =
      if TrimSpace cfg.PostmanURLBase = "" then
        TrimSpace ((swag.Schemes.find? (fun s => TrimSpace s ≠ "")).getD "")
      else "" := by
  rw [BuildPostmanURL_Protocol]
  unfold selectScheme
  by_cases h : TrimSpace cfg.PostmanURLBase = ""
  · rw [h]
    cases hs : swag.Schemes with
    | nil =>
      simp only [String.length, List.length_nil, if_true, gt_iff_lt, Nat.lt_irrefl, if_false,
        List.find?_nil, Option.getD_none]
    | cons s rest => simp [String.length, firstScheme_eq_find]
  · have hlen : (TrimSpace cfg.PostmanURLBase).length ≠ 0 := by
      rcases hs : TrimSpace cfg.PostmanURLBase with ⟨cs⟩
      cases cs with
      | nil => exact absurd hs h
      | cons c cs => simp [String.length]
    simp only [hlen, if_false, h]
    decide

end Spectrum

/-! ### The variables of the Postman URL -/

namespace Spectrum

theorem findDefault_eq_find (parameters : List Swagger2Parameter) (name : String) :
    findDefault parameters name =
      match parameters.find? (fun p => p.Name = name) with
      | some p => p.Default
      | none => none := by
  induction parameters with
  | nil => rfl
  | cons p rest ih =>
    unfold findDefault
    by_cases h : p.Name = name
    · simp [h]
    · simp [h, ih]

theorem addPathVariables_Variable (endpoint : Endpoint) (parts : List String) (url : URL)
    (key : String) :
    mapGet (addPathVariables endpoint parts url).Variable key =
      if parts.any (fun part => matchVariable part = some key) then
        some (findDefault endpoint.Parameters key)
      else mapGet url.Variable key := by
  induction parts generalizing url with
  | nil => simp [addPathVariables]
  | cons part rest ih =>
    unfold addPathVariables
    cases hm : matchVariable part with
    | none => simp [ih, hm]
    | some baseVariable =>
      simp only [ih, URL.AddVariable, mapGet_mapSet, List.any_cons, hm]
      by_cases hk : baseVariable = key
      · subst hk
        simp
      · simp [hk]

theorem matchVariable_colon (name : List Char) (hne : name ≠ [])
    (hnl : ∀ c ∈ name, c ≠ '\n') :
    matchVariable (String.mk (':' :: name)) = some (String.mk name) := by
  have h1 : name.takeWhile (fun c => c ≠ '\n') = name := by
    apply List.takeWhile_eq_self_iff.mpr
    intro c hc
    simpa using hnl c hc
  have h2 : name.dropWhile (fun c => c ≠ '\n') = [] := by
    apply List.dropWhile_eq_nil_iff.mpr
    intro c hc
    simpa using hnl c hc
  have h3 : name.isEmpty = false := by
    cases name with
    | nil => exact absurd rfl hne
    | cons c cs => rfl
  unfold matchVariable
  have h0 : List.dropWhile isRegexSpace (':' :: name) = ':' :: name := by
    rw [List.dropWhile_cons]
    have : isRegexSpace ':' = false := by decide
    simp [this]
  simp only [h0, h1, h2, h3]
  simp

/-- Claim C11. In the URL built by `BuildPostmanURL`, for every path segment of the form
`:name` (a segment in which the expression `rx4` captures `name`), the variable map binds
`name` to the `Default` of the first declared parameter of the endpoint whose name equals
`name`, and to an absent value when no parameter has that name; a key of the variable map is
always the name of such a segment, so no variable is added for a literal segment. A colon
followed by a non-empty name without line feed is a segment of that form, with that name. -/
theorem path_variables_bind_defaults (cfg : Configuration) (swag : Specification)
    (swaggerURL : String) (endpoint : Endpoint) :
    (∀ part ∈ (BuildPostmanURL cfg swag swaggerURL endpoint).Path, ∀ name,
      matchVariable part = some name →
        mapGet (BuildPostmanURL cfg swag swaggerURL endpoint).Variable name =
          some (match endpoint.Parameters.find? (fun p => p.Name = name) with
            | some p => p.Default
            | none => none)) ∧
    (∀ key, mapGet (BuildPostmanURL cfg swag swaggerURL endpoint).Variable key ≠ none →
      ∃ part ∈ (BuildPostmanURL cfg swag swaggerURL endpoint).Path,
        matchVariable part = some key) ∧
    (∀ name : List Char, name ≠ [] → (∀ c ∈ name, c ≠ '\n') →
      matchVariable (String.mk (':' :: name)) = some (String.mk name)) := by
  have hpath := BuildPostmanURL_Path cfg swag swaggerURL endpoint
  have hvar : ∀ key, mapGet (BuildPostmanURL cfg swag swaggerURL endpoint).Variable key =
      if (BuildPostmanURL cfg swag swaggerURL endpoint).Path.any
          (fun part => matchVariable part = some key) then
        some (findDefault endpoint.Parameters key)
      else none := by
    intro key
    rw [hpath]
    simp only [BuildPostmanURL]
    rw [addPathVariables_Variable]
    simp [NewURLForGoURL, mapGet]
  refine ⟨?_, ?_, matchVariable_colon⟩
  · intro part hpart name hname
    rw [hvar name, ← findDefault_eq_find]
    have : (BuildPostmanURL cfg swag swaggerURL endpoint).Path.any
        (fun part => matchVariable part = some name) = true :=
      List.any_eq_true.mpr ⟨part, hpart, by simp [hname]⟩
    simp [this]
  · intro key hkey
    rw [hvar key] at hkey
    by_cases hany : (BuildPostmanURL cfg swag swaggerURL endpoint).Path.any
        (fun part => matchVariable part = some key) = true
    · rcases List.any_eq_true.mp hany with ⟨part, hpart, hm⟩
      exact ⟨part, hpart, by simpa using hm⟩
    · simp [hany] at hkey

/-- Witness for claim C11: for the path template `/widgets/{id}` and an endpoint whose parameter
`id` has the default `7`, the segment `:id` binds `id` to `7`. -/
theorem path_variables_bind_defaults_witness :
    mapGet (BuildPostmanURL noOverrides (exampleSwagger []) "/widgets/{id}"
        endpointWithDefault).Variable "id" = some (some "7") :=
  (path_variables_bind_defaults noOverrides (exampleSwagger []) "/widgets/{id}"
    endpointWithDefault).1 ":id" (by decide) "id" (by decide)

end Spectrum

/-! ### The visitor, for callbacks that rewrite operations -/

namespace Spectrum

theorem visitMethod_map_of_ok {g : String → String → Operation → Operation}
    {d : String → String → Operation → List OperationMeta}
    {visitOp : VisitOp (List OperationMeta)}
    (hf : ∀ path method op s op' s', visitOp path method op s = .ok (op', s') →
      op' = g path method op ∧ s' = s ++ d path method op)
    {path method : String} {op op' : Option Operation} {s s' : List OperationMeta}
    (h : visitMethod visitOp path method op s = .ok (op', s')) :
    op' = op.map (g path method) ∧ s' = s ++ (op.map (d path method)).getD [] := by
  unfold visitMethod at h
  cases op with
  | none =>
    simp only [Except.ok.injEq, Prod.mk.injEq] at h
    simp [← h.1, ← h.2]
  | some o =>
    simp only at h
    split at h
    · rename_i o1 s1 heq
      simp only [Except.ok.injEq, Prod.mk.injEq] at h
      have := hf _ _ _ _ _ _ heq
      rw [← h.1, ← h.2, this.1, this.2]
      simp
    · cases h

theorem operations_flatMap (pathItem : PathItem) (path : String)
    (d : String → String → Operation → List OperationMeta) :
    pathItem.operations.flatMap (fun mo => d path mo.1 mo.2) =
      (pathItem.Get.map (d path "GET")).getD [] ++
      ((pathItem.Patch.map (d path "PATCH")).getD [] ++
      ((pathItem.Post.map (d path "POST")).getD [] ++
      ((pathItem.Put.map (d path "PUT")).getD [] ++
      (pathItem.Delete.map (d path "DELETE")).getD []))) := by
  rcases pathItem with ⟨get, patch, post, put, delete⟩
  cases get <;> cases patch <;> cases post <;> cases put <;> cases delete <;>
    simp [PathItem.operations, List.flatMap]

theorem VisitOperationsPathItem_map_of_ok {g : String → String → Operation → Operation}
    {d : String → String → Operation → List OperationMeta}
    {visitOp : VisitOp (List OperationMeta)}
    (hf : ∀ path method op s op' s', visitOp path method op s = .ok (op', s') →
      op' = g path method op ∧ s' = s ++ d path method op)
    {path : String} {pathItem pathItem' : PathItem} {s s' : List OperationMeta}
    (h : VisitOperationsPathItem visitOp path pathItem s = .ok (pathItem', s')) :
    pathItem' = pathItem.mapOperations (g path) ∧
      s' = s ++ pathItem.operations.flatMap (fun mo => d path mo.1 mo.2) := by
  unfold VisitOperationsPathItem at h
  split at h
  · cases h
  · rename_i h1
    have p1 := visitMethod_map_of_ok hf h1
    split at h
    · cases h
    · rename_i h2
      have p2 := visitMethod_map_of_ok hf h2
      split at h
      · cases h
      · rename_i h3
        have p3 := visitMethod_map_of_ok hf h3
        split at h
        · cases h
        · rename_i h4
          have p4 := visitMethod_map_of_ok hf h4
          split at h
          · cases h
          · rename_i h5
            have p5 := visitMethod_map_of_ok hf h5
            cases h
            refine ⟨?_, ?_⟩
            · rw [p1.1, p2.1, p3.1, p4.1, p5.1]
              rfl
            · rw [operations_flatMap, p5.2, p4.2, p3.2, p2.2, p1.2]
              simp only [List.append_assoc]

theorem visitPaths_map_of_ok {g : String → String → Operation → Operation}
    {d : String → String → Operation → List OperationMeta}
    {visitOp : VisitOp (List OperationMeta)}
    (hf : ∀ path method op s op' s', visitOp path method op s = .ok (op', s') →
      op' = g path method op ∧ s' = s ++ d path method op)
    {paths paths' : List (String × PathItem)} {s s' : List OperationMeta}
    (h : visitPaths visitOp paths s = .ok (paths', s')) :
    paths' = paths.map (fun e => (e.1, e.2.mapOperations (g e.1))) ∧
      s' = s ++ paths.flatMap
        (fun e => e.2.operations.flatMap (fun mo => d e.1 mo.1 mo.2)) := by
  induction paths generalizing paths' s s' with
  | nil =>
    simp only [visitPaths, Except.ok.injEq, Prod.mk.injEq] at h
    simp [← h.1, ← h.2]
  | cons e rest ih =>
    rcases e with ⟨path, pathItem⟩
    unfold visitPaths at h
    split at h
    · cases h
    · rename_i item1 s1 h1
      have p1 := VisitOperationsPathItem_map_of_ok hf h1
      split at h
      · cases h
      · rename_i rest1 s2 h2
        have p2 := ih h2
        cases h
        refine ⟨?_, ?_⟩
        · rw [p1.1, p2.1]
          rfl
        · rw [p2.2, p1.2]
          simp [List.flatMap_cons]

/-- Whenever the visitor returns, for a callback that maps an operation to `g` of it and adds
the diagnostics `d` of it, the document is mapped by `g` and the diagnostics are those of `d`
for the declared operations. -/
theorem VisitOperations_map_of_ok {g : String → String → Operation → Operation}
    {d : String → String → Operation → List OperationMeta}
    {visitOp : VisitOp (List OperationMeta)}
    (hf : ∀ path method op s op' s', visitOp path method op s = .ok (op', s') →
      op' = g path method op ∧ s' = s ++ d path method op)
    {spec spec' : Spec} {s s' : List OperationMeta}
    (h : VisitOperations spec visitOp s = .ok (spec', s')) :
    spec' = spec.mapOperations g ∧ s' = s ++ spec.collect d := by
  unfold VisitOperations at h
  split at h
  · cases h
  · rename_i paths1 s1 h1
    have p1 := visitPaths_map_of_ok hf h1
    cases h
    exact ⟨by rw [p1.1]; rfl, p1.2⟩

/-- A callback that always returns makes the visitor return. -/
theorem visitPaths_total {σ : Type} {visitOp : VisitOp σ}
    (hf : ∀ path method op s, ∃ r, visitOp path method op s = .ok r)
    (paths : List (String × PathItem)) (s : σ) :
    ∃ r, visitPaths visitOp paths s = .ok r := by
  have hm : ∀ path method (op : Option Operation) (s : σ),
      ∃ r, visitMethod visitOp path method op s = .ok r := by
    intro path method op s
    cases op with
    | none => exact ⟨_, rfl⟩
    | some o =>
      rcases hf path method o s with ⟨⟨o', s'⟩, hr⟩
      exact ⟨(some o', s'), by simp [visitMethod, hr]⟩
  induction paths generalizing s with
  | nil => exact ⟨_, rfl⟩
  | cons e rest ih =>
    rcases e with ⟨path, pathItem⟩
    rcases hm path "GET" pathItem.Get s with ⟨⟨o1, s1⟩, h1⟩
    rcases hm path "PATCH" pathItem.Patch s1 with ⟨⟨o2, s2⟩, h2⟩
    rcases hm path "POST" pathItem.Post s2 with ⟨⟨o3, s3⟩, h3⟩
    rcases hm path "PUT" pathItem.Put s3 with ⟨⟨o4, s4⟩, h4⟩
    rcases hm path "DELETE" pathItem.Delete s4 with ⟨⟨o5, s5⟩, h5⟩
    rcases ih s5 with ⟨⟨rest', s6⟩, h6⟩
    refine ⟨((path, { Get := o1, Patch := o2, Post := o3, Put := o4, Delete := o5 }) :: rest',
      s6), ?_⟩
    simp [visitPaths, VisitOperationsPathItem, h1, h2, h3, h4, h5, h6]

theorem VisitOperations_total {σ : Type} {visitOp : VisitOp σ}
    (hf : ∀ path method op s, ∃ r, visitOp path method op s = .ok r)
    (spec : Spec) (s : σ) :
    ∃ r, VisitOperations spec visitOp s = .ok r := by
  rcases visitPaths_total hf spec.Paths s with ⟨⟨paths', s'⟩, h⟩
  refine ⟨({ spec with Paths := paths' }, s'), ?_⟩
  simp [VisitOperations, h]

end Spectrum

namespace Spectrum

theorem VisitOperationsPathItem_map_of_pre {g : String → String → Operation → Operation}
    {d : String → String → Operation → List OperationMeta}
    {visitOp : VisitOp (List OperationMeta)} {P : Operation → Prop}
    (hf : ∀ path method op s, P op →
      visitOp path method op s = .ok (g path method op, s ++ d path method op))
    (path : String) (pathItem : PathItem) (s : List OperationMeta)
    (hP : ∀ mo ∈ pathItem.operations, P mo.2) :
    VisitOperationsPathItem visitOp path pathItem s =
      .ok (pathItem.mapOperations (g path),
        s ++ pathItem.operations.flatMap (fun mo => d path mo.1 mo.2)) := by
  have hm : ∀ method (op : Option Operation) (s : List OperationMeta),
      (∀ o, op = some o → P o) →
      visitMethod visitOp path method op s =
        .ok (op.map (g path method), s ++ (op.map (d path method)).getD []) := by
    intro method op s hop
    cases op with
    | none => simp [visitMethod]
    | some o => simp [visitMethod, hf path method o s (hop o rfl)]
  have hslot : ∀ method o, (method, o) ∈ pathItem.operations → P o :=
    fun method o h => hP (method, o) h
  have h1 : ∀ o, pathItem.Get = some o → P o := fun o h =>
    hslot "GET" o (by simp [PathItem.operations, h])
  have h2 : ∀ o, pathItem.Patch = some o → P o := fun o h =>
    hslot "PATCH" o (by simp [PathItem.operations, h])
  have h3 : ∀ o, pathItem.Post = some o → P o := fun o h =>
    hslot "POST" o (by simp [PathItem.operations, h])
  have h4 : ∀ o, pathItem.Put = some o → P o := fun o h =>
    hslot "PUT" o (by simp [PathItem.operations, h])
  have h5 : ∀ o, pathItem.Delete = some o → P o := fun o h =>
    hslot "DELETE" o (by simp [PathItem.operations, h])
  unfold VisitOperationsPathItem
  simp only [hm _ _ _ h1, hm _ _ _ h2, hm _ _ _ h3, hm _ _ _ h4, hm _ _ _ h5]
  rw [operations_flatMap]
  simp only [List.append_assoc]
  rfl

theorem visitPaths_map_of_pre {g : String → String → Operation → Operation}
    {d : String → String → Operation → List OperationMeta}
    {visitOp : VisitOp (List OperationMeta)} {P : Operation → Prop}
    (hf : ∀ path method op s, P op →
      visitOp path method op s = .ok (g path method op, s ++ d path method op))
    (paths : List (String × PathItem)) (s : List OperationMeta)
    (hP : ∀ e ∈ paths, ∀ mo ∈ e.2.operations, P mo.2) :
    visitPaths visitOp paths s =
      .ok (paths.map (fun e => (e.1, e.2.mapOperations (g e.1))),
        s ++ paths.flatMap (fun e => e.2.operations.flatMap (fun mo => d e.1 mo.1 mo.2))) := by
  induction paths generalizing s with
  | nil => simp [visitPaths]
  | cons e rest ih =>
    rcases e with ⟨path, pathItem⟩
    have h1 := VisitOperationsPathItem_map_of_pre hf path pathItem s
      (hP (path, pathItem) (List.mem_cons_self _ _))
    have h2 := ih (s ++ pathItem.operations.flatMap (fun mo => d path mo.1 mo.2))
      (fun e he => hP e (List.mem_cons_of_mem _ he))
    simp [visitPaths, h1, h2, List.flatMap_cons]

/-- For a callback that, on every operation satisfying `P`, returns `g` of the operation and
adds the diagnostics `d` of it: on a document whose declared operations satisfy `P` the visitor
returns the document mapped by `g` and the diagnostics of `d`. -/
theorem VisitOperations_map_of_pre {g : String → String → Operation → Operation}
    {d : String → String → Operation → List OperationMeta}
    {visitOp : VisitOp (List OperationMeta)} {P : Operation → Prop}
    (hf : ∀ path method op s, P op →
      visitOp path method op s = .ok (g path method op, s ++ d path method op))
    (spec : Spec) (s : List OperationMeta)
    (hP : ∀ e ∈ spec.Paths, ∀ mo ∈ e.2.operations, P mo.2) :
    VisitOperations spec visitOp s = .ok (spec.mapOperations g, s ++ spec.collect d) := by
  unfold VisitOperations
  rw [visitPaths_map_of_pre hf spec.Paths s hP]
  rfl

theorem collect_nil (spec : Spec) : spec.collect (fun _ _ _ => []) = [] := by
  unfold Spec.collect
  simp [List.flatMap]

theorem mapOperations_id (spec : Spec) : spec.mapOperations (fun _ _ op => op) = spec := by
  unfold Spec.mapOperations
  have h : ∀ (e : String × PathItem),
      (e.1, e.2.mapOperations (fun _ op => op)) = e := by
    rintro ⟨path, ⟨get, patch, post, put, delete⟩⟩
    simp [PathItem.mapOperations]
  simp [h]

end Spectrum

/-! ### Move mode of the request-body pass -/

namespace Spectrum

theorem moveRequestBodiesVisit_move (components : Components) (path method : String)
    (op : Operation) (s : List OperationMeta) :
    moveRequestBodiesVisit components true path method op s =
      .ok (moveBody components op, s ++ []) := by
  unfold moveRequestBodiesVisit moveBody
  cases op.RequestBody with
  | none => simp
  | some requestBody =>
    simp only [if_true]
    split
    · split <;> simp
    · simp

/-- The result of the request-body pass in move mode: no diagnostic and no error. -/
theorem MoveRequestBodies_move (spec : Spec) :
    MoveRequestBodies spec true =
      .ok { spec := spec.mapOperations (fun _ _ => moveBody spec.Components),
            errorOperations := [], err := none } := by
  unfold MoveRequestBodies
  have h := VisitOperations_map_of_pre (P := fun _ => True)
    (g := fun _ _ => moveBody spec.Components) (d := fun _ _ _ => [])
    (fun path method op s _ => moveRequestBodiesVisit_move spec.Components path method op s)
    spec [] (fun _ _ _ _ => trivial)
  rw [h, collect_nil]
  rfl

/-- Claim C18 (counterexample). For a document whose only operation has a request body that is
a bare reference the (empty) component registry cannot resolve, move mode returns the document
unchanged together with an empty diagnostic list and a nil error. -/
theorem move_mode_silent_on_unresolved_reference :
    ComponentRequestBody specUnresolvedBody.Components "#/components/requestBodies/Missing"
        = none ∧
      MoveRequestBodies specUnresolvedBody true =
        .ok { spec := specUnresolvedBody, errorOperations := [], err := none } := by
  decide

/-- Claim C18 (amended). In move mode the request-body pass always returns an empty diagnostic
list and a nil error, and the document with `moveBody` applied to every operation: an operation
whose request body is a bare reference that the component registry cannot resolve is left
unchanged, and nothing is recorded for it. -/
theorem move_mode_leaves_unresolved_reference (spec : Spec) :
    MoveRequestBodies spec true =
        .ok { spec := spec.mapOperations (fun _ _ => moveBody spec.Components),
              errorOperations := [], err := none } ∧
      ∀ (op : Operation) (requestBody : RequestBodyRef),
        op.RequestBody = some requestBody → requestBody.Ref.length > 0 →
        ComponentRequestBody spec.Components requestBody.Ref = none →
          moveBody spec.Components op = op := by
  refine ⟨MoveRequestBodies_move spec, ?_⟩
  intro op requestBody hbody href hnone
  unfold moveBody
  simp [hbody, href, hnone]

/-- Witness for claim C18: the operation of `specUnresolvedBody` is left unchanged. -/
theorem move_mode_leaves_unresolved_reference_witness :
    moveBody specUnresolvedBody.Components opUnresolvedBody = opUnresolvedBody :=
  (move_mode_leaves_unresolved_reference specUnresolvedBody).2 opUnresolvedBody
    { Ref := "#/components/requestBodies/Missing", Value := none } rfl (by decide) (by decide)

end Spectrum

/-! ### The response-type pass -/

namespace Spectrum

theorem responseTypeStep_report_ok (path method : String) (op : Operation)
    (st : GoMap (Option MediaType) × List OperationMeta) (mediaTypeOrig : String)
    (mtRef : Option MediaType) (hwf : contentEntryWellFormed mediaTypeOrig mtRef = true) :
    responseTypeStep false path method op st mediaTypeOrig mtRef =
      .ok (st.1, st.2 ++ reportContentEntry path method mediaTypeOrig mtRef) := by
  unfold contentEntryWellFormed at hwf
  unfold responseTypeStep reportContentEntry inlineSchemaType
  by_cases hj : isJSONMediaType mediaTypeOrig = true
  · have hj' : ToLower (TrimSpace mediaTypeOrig) = ContentTypeAppJSON := by
      simpa [isJSONMediaType] using hj
    simp only [hj, if_true] at hwf
    simp only [hj, hj', if_true, Bool.false_and, Bool.false_eq_true, if_false]
    cases mtRef with
    | none => simp at hwf
    | some mt =>
      cases hs : mt.Schema with
      | none => simp [hs] at hwf
      | some schemaRef =>
        simp only [hs] at hwf
        by_cases hr : schemaRef.Ref.length = 0
        · simp only [hr, if_true] at hwf
          cases hv : schemaRef.Value with
          | none => simp [hv] at hwf
          | some schema =>
            by_cases ht1 : schema.SchemaType = "object"
            · simp [hs, hr, hv, ht1]
            · by_cases ht2 : schema.SchemaType = "array"
              · simp [hs, hr, hv, ht2]
              · simp [hs, hr, hv, ht1, ht2, hj', OperationToMeta, badMimeTypeMeta]
        · simp [hs, hr]
  · have hj' : ¬ ToLower (TrimSpace mediaTypeOrig) = ContentTypeAppJSON := by
      simpa [isJSONMediaType] using hj
    simp [hj, hj']

theorem responseContentLoop_report_ok (path method : String) (op : Operation)
    (entries : List (String × Option MediaType))
    (st : GoMap (Option MediaType) × List OperationMeta)
    (hwf : entries.all (fun c => contentEntryWellFormed c.1 c.2) = true) :
    responseContentLoop false path method op entries st =
      .ok (st.1, st.2 ++ entries.flatMap
        (fun c => reportContentEntry path method c.1 c.2)) := by
  induction entries generalizing st with
  | nil => simp [responseContentLoop]
  | cons e rest ih =>
    rcases e with ⟨mediaTypeOrig, mtRef⟩
    rw [List.all_cons, Bool.and_eq_true] at hwf
    unfold responseContentLoop
    rw [responseTypeStep_report_ok path method op st mediaTypeOrig mtRef hwf.1]
    simp only
    rw [ih _ hwf.2]
    simp [List.flatMap_cons]

theorem responsesLoop_report_ok (path method : String) (op : Operation)
    (responses : List (String × Option ResponseRef)) (errs : List OperationMeta)
    (hwf : responses.all (fun e =>
      match e.2 with
      | none => true
      | some resRef =>
        match resRef.Value with
        | none => true
        | some value => value.Content.all (fun c => contentEntryWellFormed c.1 c.2)) = true) :
    responsesLoop false path method op responses errs =
      .ok (responses, errs ++ responses.flatMap (fun e =>
        match e.2 with
        | none => []
        | some resRef =>
          match resRef.Value with
          | none => []
          | some value =>
            value.Content.flatMap (fun c => reportContentEntry path method c.1 c.2))) := by
  induction responses generalizing errs with
  | nil => simp [responsesLoop]
  | cons e rest ih =>
    rcases e with ⟨code, resRef⟩
    rw [List.all_cons, Bool.and_eq_true] at hwf
    unfold responsesLoop
    cases resRef with
    | none =>
      simp only
      rw [ih _ hwf.2]
      simp [List.flatMap_cons]
    | some response =>
      rcases response with ⟨ref, value⟩
      cases value with
      | none =>
        simp only
        rw [ih _ hwf.2]
        simp [List.flatMap_cons]
      | some value =>
        have h1 := hwf.1
        simp only at h1
        simp only
        rw [responseContentLoop_report_ok path method op value.Content _ h1]
        simp only
        rw [ih _ hwf.2]
        simp [List.flatMap_cons]

theorem responseTypesVisit_report_ok (path method : String) (op : Operation)
    (s : List OperationMeta) (hwf : responsesWellFormed op = true) :
    responseTypesVisit false path method op s =
      .ok (op, s ++ reportResponseTypes path method op) := by
  unfold responseTypesVisit
  rw [responsesLoop_report_ok path method op op.Responses s hwf]
  rfl

/-- In non-fix mode, on a document whose response entries can be read (no missing media type
object, schema reference or inline schema under a JSON entry), the response-type pass returns,
and the diagnostics it records are, entry by entry in visiting order: exactly one for a JSON
entry whose inline schema type is neither `object` nor `array`, and none for a JSON entry whose
schema is a reference or has type `object` or `array`, nor for an entry of any other media type
(`reportContentEntry`). -/
theorem ValidateFixOperationResponseTypes_report_ok (spec : Spec)
    (hwf : ∀ e ∈ spec.Paths, ∀ mo ∈ e.2.operations, responsesWellFormed mo.2 = true) :
    ValidateFixOperationResponseTypes spec false =
      .ok (finishPass spec (spec.collect reportResponseTypes)) := by
  unfold ValidateFixOperationResponseTypes
  have h := VisitOperations_map_of_pre (P := fun op => responsesWellFormed op = true)
    (g := fun _ _ op => op) (d := reportResponseTypes)
    (fun path method op s hop => responseTypesVisit_report_ok path method op s hop)
    spec [] hwf
  rw [h, mapOperations_id]
  rfl

/-- Claim C20 (the code at the failing input). The operation of `specStringAndNoSchema` has a
JSON entry with an inline schema of type `string`, for which one diagnostic is due, and a JSON
entry that declares no schema. In non-fix mode the pass ends in the nil dereference of the
second entry and returns no diagnostic at all; without the second entry it returns the one
diagnostic. -/
theorem non_fix_mode_fails_next_to_entry_without_schema :
    reportResponseTypes "/text" "GET"
        { sampleOperation [] with
          Responses := [("200", some (jsonResponse "string")),
            ("500", some { Ref := "", Value := some { Content :=
              [("application/json", some mediaTypeNoSchema)] } })] } =
      [metaStringResponse] ∧
    ValidateFixOperationResponseTypes specStringAndNoSchema false =
      .error Failure.nilDereference ∧
    ValidateFixOperationResponseTypes specStringResponse false =
      .ok (finishPass specStringResponse [metaStringResponse]) := by
  decide

end Spectrum

namespace Spectrum

theorem mapGet_mapDelete {β : Type} (m : GoMap β) (k k' : String) :
    mapGet (mapDelete m k) k' = if k = k' then none else mapGet m k' := by
  induction m with
  | nil => simp [mapDelete, mapGet]
  | cons e rest ih =>
    rcases e with ⟨k0, v0⟩
    unfold mapDelete at ih ⊢
    by_cases h0 : k0 = k
    · subst h0
      simp only [List.filter_cons, ne_eq, not_true_eq_false, decide_False, Bool.false_eq_true,
        if_false, ih, mapGet]
      by_cases h1 : k0 = k' <;> simp [h1]
    · have hk : decide (k0 ≠ k) = true := by simpa using h0
      simp only [List.filter_cons, hk, if_true, mapGet, ih]
      by_cases h1 : k0 = k'
      · subst h1
        have : ¬ k = k0 := fun e => h0 e.symm
        simp [this]
      · simp [h1]

theorem json_ne_text_plain {mediaTypeOrig : String}
    (h : isJSONMediaType mediaTypeOrig = true) : mediaTypeOrig ≠ ContentTypeTextPlain := by
  intro e
  rw [e] at h
  exact absurd h (by decide)

theorem responseTypeStep_fix_ok (path method : String) (op : Operation)
    (st : GoMap (Option MediaType) × List OperationMeta) (mediaTypeOrig : String)
    (mtRef : Option MediaType) (hwf : contentEntryWellFormed mediaTypeOrig mtRef = true) :
    responseTypeStep true path method op st mediaTypeOrig mtRef =
      .ok ((fixContentEntry path method st.1 mediaTypeOrig mtRef).1,
        st.2 ++ (fixContentEntry path method st.1 mediaTypeOrig mtRef).2) := by
  unfold contentEntryWellFormed at hwf
  unfold responseTypeStep fixContentEntry inlineSchemaType
  by_cases hj : isJSONMediaType mediaTypeOrig = true
  · have hj' : ToLower (TrimSpace mediaTypeOrig) = ContentTypeAppJSON := by
      simpa [isJSONMediaType] using hj
    simp only [hj, if_true] at hwf
    simp only [hj, hj', if_true, Bool.true_and]
    cases mtRef with
    | none => simp at hwf
    | some mt =>
      cases hs : mt.Schema with
      | none => simp [hs] at hwf
      | some schemaRef =>
        simp only [hs] at hwf
        by_cases hr : schemaRef.Ref.length = 0
        · simp only [hr, if_true] at hwf
          cases hv : schemaRef.Value with
          | none => simp [hv] at hwf
          | some schema =>
            by_cases ht : schema.SchemaType = "string" ∨ schema.SchemaType = "integer"
            · have ht' : (decide (schema.SchemaType = "string") ||
                  decide (schema.SchemaType = "integer")) = true := by
                rcases ht with h | h <;> simp [h]
              simp only [hs, hr, hv, ht, ht', if_true, Option.map_some']
              cases hm : mapGet (mapDelete st.1 mediaTypeOrig) ContentTypeTextPlain with
              | none => simp
              | some other =>
                by_cases hc : some mt = other
                · simp [hc]
                · simp [hc, OperationToMeta, collisionMeta, hj']
            · have h1 : ¬ schema.SchemaType = "string" := fun h => ht (Or.inl h)
              have h2 : ¬ schema.SchemaType = "integer" := fun h => ht (Or.inr h)
              have ht' : (decide (schema.SchemaType = "string") ||
                  decide (schema.SchemaType = "integer")) = false := by
                simp [h1, h2]
              simp only [hs, hr, hv, ht', if_false, Option.map_some', Bool.false_eq_true]
              by_cases ht1 : schema.SchemaType = "object"
              · simp [ht1]
              · by_cases ht2 : schema.SchemaType = "array"
                · simp [ht2]
                · simp [h1, h2, ht1, ht2, hj', OperationToMeta, badMimeTypeMeta]
        · simp [hs, hr]
  · have hj' : ¬ ToLower (TrimSpace mediaTypeOrig) = ContentTypeAppJSON := by
      simpa [isJSONMediaType] using hj
    simp [hj, hj']

theorem responseContentLoop_fix_ok (path method : String) (op : Operation)
    (entries : List (String × Option MediaType))
    (st : GoMap (Option MediaType) × List OperationMeta)
    (hwf : entries.all (fun c => contentEntryWellFormed c.1 c.2) = true) :
    responseContentLoop true path method op entries st =
      .ok ((fixContent path method entries st.1).1,
        st.2 ++ (fixContent path method entries st.1).2) := by
  induction entries generalizing st with
  | nil => simp [responseContentLoop, fixContent]
  | cons e rest ih =>
    rcases e with ⟨mediaTypeOrig, mtRef⟩
    rw [List.all_cons, Bool.and_eq_true] at hwf
    unfold responseContentLoop
    rw [responseTypeStep_fix_ok path method op st mediaTypeOrig mtRef hwf.1]
    simp only
    rw [ih _ hwf.2]
    simp [fixContent, List.append_assoc]

theorem responsesLoop_fix_ok (path method : String) (op : Operation)
    (responses : List (String × Option ResponseRef)) (errs : List OperationMeta)
    (hwf : responses.all (fun e =>
      match e.2 with
      | none => true
      | some resRef =>
        match resRef.Value with
        | none => true
        | some value => value.Content.all (fun c => contentEntryWellFormed c.1 c.2)) = true) :
    responsesLoop true path method op responses errs =
      .ok (responses.map (fun e => (e.1, (fixResponse path method e.2).1)),
        errs ++ responses.flatMap (fun e => (fixResponse path method e.2).2)) := by
  induction responses generalizing errs with
  | nil => simp [responsesLoop]
  | cons e rest ih =>
    rcases e with ⟨code, resRef⟩
    rw [List.all_cons, Bool.and_eq_true] at hwf
    unfold responsesLoop
    cases resRef with
    | none =>
      simp only
      rw [ih _ hwf.2]
      simp [List.flatMap_cons, fixResponse]
    | some response =>
      rcases response with ⟨ref, value⟩
      cases value with
      | none =>
        simp only
        rw [ih _ hwf.2]
        simp [List.flatMap_cons, fixResponse]
      | some value =>
        have h1 := hwf.1
        simp only at h1
        simp only
        rw [responseContentLoop_fix_ok path method op value.Content _ h1]
        simp only
        rw [ih _ hwf.2]
        simp [List.flatMap_cons, fixResponse, List.append_assoc]

theorem responseTypesVisit_fix_ok (path method : String) (op : Operation)
    (s : List OperationMeta) (hwf : responsesWellFormed op = true) :
    responseTypesVisit true path method op s =
      .ok (fixResponses path method op, s ++ fixDiagnostics path method op) := by
  unfold responseTypesVisit
  rw [responsesLoop_fix_ok path method op op.Responses s hwf]
  rfl

/-- A JSON entry with an inline schema of type `string` or `integer`, handled in fix mode on a
content map without a `text/plain` entry, is stored under `text/plain` and no diagnostic is
recorded; on a content map with a different `text/plain` entry it is removed and the collision
is recorded. -/
theorem fixContentEntry_json (path method : String) (content : GoMap (Option MediaType))
    (mediaTypeOrig : String) (mtRef : Option MediaType) (schemaType : String)
    (hjson : isJSONMediaType mediaTypeOrig = true)
    (hinline : inlineSchemaType mtRef = some schemaType)
    (htype : schemaType = "string" ∨ schemaType = "integer") :
    (mapGet content ContentTypeTextPlain = none →
      fixContentEntry path method content mediaTypeOrig mtRef =
        (mapSet (mapDelete content mediaTypeOrig) ContentTypeTextPlain mtRef, [])) ∧
    (∀ other, mapGet content ContentTypeTextPlain = some other → other ≠ mtRef →
      fixContentEntry path method content mediaTypeOrig mtRef =
        (mapDelete content mediaTypeOrig,
          [collisionMeta path method mediaTypeOrig schemaType])) ∧
    (∀ other, mapGet content ContentTypeTextPlain = some other → other = mtRef →
      fixContentEntry path method content mediaTypeOrig mtRef =
        (mapDelete content mediaTypeOrig, [])) := by
  have hne := json_ne_text_plain hjson
  have hget : mapGet (mapDelete content mediaTypeOrig) ContentTypeTextPlain =
      mapGet content ContentTypeTextPlain := by
    rw [mapGet_mapDelete]
    simp [hne]
  unfold fixContentEntry
  simp only [hjson, if_true, hinline, htype, hget]
  refine ⟨?_, ?_, ?_⟩
  · intro hnone
    simp only [hnone]
  · intro other hsome hdiff
    have hc : mtRef ≠ other := fun e => hdiff e.symm
    simp only [hsome, hc, ne_eq, not_false_eq_true, if_true]
  · intro other hsome hsame
    simp [hsome, hsame]

theorem fixContentEntry_keeps_absent (path method : String)
    (content : GoMap (Option MediaType)) (mediaTypeOrig : String) (mtRef : Option MediaType)
    (k : String) (hk : k ≠ ContentTypeTextPlain) (habsent : mapGet content k = none) :
    mapGet (fixContentEntry path method content mediaTypeOrig mtRef).1 k = none := by
  have hdel : mapGet (mapDelete content mediaTypeOrig) k = none := by
    rw [mapGet_mapDelete]
    by_cases h : mediaTypeOrig = k
    · simp [h]
    · simp [h, habsent]
  have hset : mapGet (mapSet (mapDelete content mediaTypeOrig) ContentTypeTextPlain mtRef) k =
      none := by
    rw [mapGet_mapSet]
    have : ¬ ContentTypeTextPlain = k := fun e => hk e.symm
    simp [this, hdel]
  unfold fixContentEntry
  repeat (first | assumption | split)

theorem fixContent_keeps_absent (path method : String)
    (entries : List (String × Option MediaType)) (content : GoMap (Option MediaType))
    (k : String) (hk : k ≠ ContentTypeTextPlain) (habsent : mapGet content k = none) :
    mapGet (fixContent path method entries content).1 k = none := by
  induction entries generalizing content with
  | nil => simpa [fixContent] using habsent
  | cons e rest ih =>
    simp only [fixContent]
    exact ih _ (fixContentEntry_keeps_absent path method content e.1 e.2 k hk habsent)

theorem fixContent_removes (path method : String)
    (entries : List (String × Option MediaType)) (content : GoMap (Option MediaType))
    (mediaTypeOrig : String) (mtRef : Option MediaType) (schemaType : String)
    (hmem : (mediaTypeOrig, mtRef) ∈ entries)
    (hjson : isJSONMediaType mediaTypeOrig = true)
    (hinline : inlineSchemaType mtRef = some schemaType)
    (htype : schemaType = "string" ∨ schemaType = "integer") :
    mapGet (fixContent path method entries content).1 mediaTypeOrig = none := by
  have hne := json_ne_text_plain hjson
  induction entries generalizing content with
  | nil => simp at hmem
  | cons e rest ih =>
    simp only [fixContent]
    rcases List.mem_cons.mp hmem with h | h
    · subst h
      apply fixContent_keeps_absent path method rest _ mediaTypeOrig hne
      have hdel : mapGet (mapDelete content mediaTypeOrig) mediaTypeOrig = none := by
        rw [mapGet_mapDelete]
        simp
      have hset : mapGet (mapSet (mapDelete content mediaTypeOrig) ContentTypeTextPlain mtRef)
          mediaTypeOrig = none := by
        rw [mapGet_mapSet]
        have : ¬ ContentTypeTextPlain = mediaTypeOrig := fun e => hne e.symm
        simp [this, hdel]
      have h3 := fixContentEntry_json path method content mediaTypeOrig mtRef schemaType
        hjson hinline htype
      cases hm : mapGet content ContentTypeTextPlain with
      | none => rw [h3.1 hm]; exact hset
      | some other =>
        by_cases hc : other = mtRef
        · rw [h3.2.2 other hm hc]; exact hdel
        · rw [h3.2.1 other hm hc]; exact hdel
    · exact ih _ h

theorem fixContentEntry_keeps_text_plain (path method : String)
    (content : GoMap (Option MediaType)) (mediaTypeOrig : String) (mtRef : Option MediaType)
    (other : Option MediaType) (hother : mapGet content ContentTypeTextPlain = some other) :
    mapGet (fixContentEntry path method content mediaTypeOrig mtRef).1 ContentTypeTextPlain =
      some other := by
  by_cases hjson : isJSONMediaType mediaTypeOrig = true
  · have hne := json_ne_text_plain hjson
    have hget : mapGet (mapDelete content mediaTypeOrig) ContentTypeTextPlain = some other := by
      rw [mapGet_mapDelete]
      simp [hne, hother]
    unfold fixContentEntry
    simp only [hjson, if_true, hget]
    repeat (first | assumption | split)
  · unfold fixContentEntry
    simp only [hjson, Bool.false_eq_true, if_false]
    exact hother

theorem fixContent_keeps_text_plain (path method : String)
    (entries : List (String × Option MediaType)) (content : GoMap (Option MediaType))
    (other : Option MediaType) (hother : mapGet content ContentTypeTextPlain = some other) :
    mapGet (fixContent path method entries content).1 ContentTypeTextPlain = some other := by
  induction entries generalizing content with
  | nil => simpa [fixContent] using hother
  | cons e rest ih =>
    simp only [fixContent]
    exact ih _ (fixContentEntry_keeps_text_plain path method content e.1 e.2 other hother)

/-- Claim C19 (the claim as stated fails). The 200 response of `specTwoJSONKeys` has the JSON
entries `application/json` (a string) and `Application/JSON` (an integer) and no `text/plain`
entry. Fix mode stores the first under `text/plain`, and for the second it finds that entry and
records a collision, although the response had no `text/plain` entry. On the document
`specStringAndNoSchema`, whose second JSON entry declares no schema, fix mode ends in a nil
dereference. -/
theorem second_json_entry_collides_with_first :
    mapGet [("application/json", some (inlineMediaType "string")),
        ("Application/JSON", some (inlineMediaType "integer"))] ContentTypeTextPlain = none ∧
    isJSONMediaType "Application/JSON" = true ∧
    inlineSchemaType (some (inlineMediaType "integer")) = some "integer" ∧
    ValidateFixOperationResponseTypes specTwoJSONKeys true =
      .ok (finishPass
        (sampleSpec "/n"
          { sampleOperation [] with
            Responses := [("200", some { Ref := "", Value := some { Content :=
              [("text/plain", some (inlineMediaType "string"))] } })] })
        [collisionMeta "/n" "GET" "Application/JSON" "integer"]) ∧
    collisionMeta "/n" "GET" "Application/JSON" "integer" =
      { Path := "/n", Method := "GET",
        MetaNotes := ["E_BAD_MIME_TYPE_AND_SCHEMA_COLLISION MT[application/json] type[integer]"] } ∧
    ValidateFixOperationResponseTypes specStringAndNoSchema true =
      .error Failure.nilDereference := by
  decide

/-- Claim C19 (amended). In fix mode, on a document whose response entries can be read (no
missing media type object, schema reference or inline schema under a JSON entry), the
response-type pass returns; it handles the content entries of each response one after the other
(`fixResponses`, `fixDiagnostics`, `fixContent`), each on the content map as the entries before
it have left it (`fixContentEntry`). Every entry whose media type is `application/json` after
trimming and lower-casing and whose schema is inline with type `string` or `integer` is absent
from the content the pass leaves, and a `text/plain` entry the response had before the pass is
kept as it was. When the content map has no `text/plain` entry at the moment such a JSON entry
is handled, the entry is stored under `text/plain` and no diagnostic is recorded; when it then
has a `text/plain` entry with different content, the JSON entry is removed, the `text/plain`
entry stays and exactly the collision diagnostic is recorded for the operation. -/
theorem fix_mode_moves_json_entries (spec : Spec)
    (hwf : ∀ e ∈ spec.Paths, ∀ mo ∈ e.2.operations, responsesWellFormed mo.2 = true) :
    ValidateFixOperationResponseTypes spec true =
        .ok (finishPass (spec.mapOperations fixResponses) (spec.collect fixDiagnostics)) ∧
      (∀ (path method : String) (content : GoMap (Option MediaType)) (mediaTypeOrig : String)
          (mtRef : Option MediaType) (schemaType : String),
        (mediaTypeOrig, mtRef) ∈ content → isJSONMediaType mediaTypeOrig = true →
        inlineSchemaType mtRef = some schemaType →
        (schemaType = "string" ∨ schemaType = "integer") →
        mapGet (fixContent path method content content).1 mediaTypeOrig = none) ∧
      (∀ (path method : String) (content : GoMap (Option MediaType))
          (other : Option MediaType),
        mapGet content ContentTypeTextPlain = some other →
        mapGet (fixContent path method content content).1 ContentTypeTextPlain = some other) ∧
      (∀ (path method : String) (content : GoMap (Option MediaType)) (mediaTypeOrig : String)
          (mtRef : Option MediaType) (schemaType : String),
        isJSONMediaType mediaTypeOrig = true →
        inlineSchemaType mtRef = some schemaType →
        (schemaType = "string" ∨ schemaType = "integer") →
        (mapGet content ContentTypeTextPlain = none →
          fixContentEntry path method content mediaTypeOrig mtRef =
            (mapSet (mapDelete content mediaTypeOrig) ContentTypeTextPlain mtRef, [])) ∧
        (∀ other, mapGet content ContentTypeTextPlain = some other → other ≠ mtRef →
          fixContentEntry path method content mediaTypeOrig mtRef =
              (mapDelete content mediaTypeOrig,
                [collisionMeta path method mediaTypeOrig schemaType]) ∧
            mapGet (mapDelete content mediaTypeOrig) ContentTypeTextPlain = some other ∧
            mapGet (mapDelete content mediaTypeOrig) mediaTypeOrig = none)) := by
  refine ⟨?_, ?_, ?_, ?_⟩
  · unfold ValidateFixOperationResponseTypes
    have h := VisitOperations_map_of_pre (P := fun op => responsesWellFormed op = true)
      (g := fixResponses) (d := fixDiagnostics)
      (fun path method op s hop => responseTypesVisit_fix_ok path method op s hop)
      spec [] hwf
    rw [h]
    rfl
  · intro path method content mediaTypeOrig mtRef schemaType hmem hjson hinline htype
    exact fixContent_removes path method content content mediaTypeOrig mtRef schemaType
      hmem hjson hinline htype
  · intro path method content other hother
    exact fixContent_keeps_text_plain path method content content other hother
  · intro path method content mediaTypeOrig mtRef schemaType hjson hinline htype
    have h := fixContentEntry_json path method content mediaTypeOrig mtRef schemaType
      hjson hinline htype
    refine ⟨h.1, ?_⟩
    intro other hsome hdiff
    refine ⟨h.2.1 other hsome hdiff, ?_, ?_⟩
    · rw [mapGet_mapDelete]
      simp [json_ne_text_plain hjson, hsome]
    · rw [mapGet_mapDelete]
      simp

/-- Witness for claim C19: the operations of `specCollision` can be read, and the pass removes
its JSON integer entry, keeps the different plain-text entry and records the collision; on
`specStringResponse`, which has no plain-text entry, it stores the entry under `text/plain`
without a diagnostic. -/
theorem fix_mode_moves_json_entries_witness :
    (∀ e ∈ specCollision.Paths, ∀ mo ∈ e.2.operations, responsesWellFormed mo.2 = true) ∧
    ValidateFixOperationResponseTypes specCollision true =
      .ok (finishPass specCollisionFixed
        [collisionMeta "/n" "GET" "application/json" "integer"]) ∧
    ValidateFixOperationResponseTypes specStringResponse true =
      .ok (finishPass specStringResponseFixed []) :=
  ⟨by decide,
    ((fix_mode_moves_json_entries specCollision (by decide)).1).trans (by decide),
    ((fix_mode_moves_json_entries specStringResponse (by decide)).1).trans (by decide)⟩

end Spectrum

/-! ### Legacy response references -/

namespace Spectrum

theorem dropLeading_append (pre x : List Char) : dropLeading pre (pre ++ x) = some x := by
  induction pre with
  | nil => cases x <;> rfl
  | cons p ps ih => simp [dropLeading, ih]

theorem dropLeading_eq_some {pre cs x : List Char} (h : dropLeading pre cs = some x) :
    cs = pre ++ x := by
  induction pre generalizing cs with
  | nil =>
    cases cs <;> simp [dropLeading] at h <;> simp [h]
  | cons p ps ih =>
    cases cs with
    | nil => simp [dropLeading] at h
    | cons c cs =>
      simp only [dropLeading] at h
      split at h
      · rename_i hpc
        rw [hpc, ih h]
        rfl
      · cases h

theorem dropLeading_isSome_iff (pre cs : List Char) :
    (dropLeading pre cs).isSome = pre.isPrefixOf cs := by
  induction pre generalizing cs with
  | nil => cases cs <;> rfl
  | cons p ps ih =>
    cases cs with
    | nil => rfl
    | cons c cs =>
      simp only [dropLeading, List.isPrefixOf]
      by_cases h : p = c
      · simp [h, ih]
      · simp [h]

theorem trimSpaceChars_definitions (x : List Char) :
    trimSpaceChars (oas2BasePathDefinitions.data ++ x) =
      oas2BasePathDefinitions.data ++ trimRightChars x := by
  have hhead : List.dropWhile isSpace (oas2BasePathDefinitions.data ++ x) =
      oas2BasePathDefinitions.data ++ x := by
    have : isSpace '#' = false := by decide
    show List.dropWhile isSpace ('#' :: _) = _
    rw [List.dropWhile_cons]
    simp [this]
    rfl
  have hlast : List.dropWhile isSpace oas2BasePathDefinitions.data.reverse =
      oas2BasePathDefinitions.data.reverse := by decide
  unfold trimSpaceChars trimRightChars
  rw [hhead, List.reverse_append, List.dropWhile_append]
  split
  · rename_i hempty
    rw [hlast, List.isEmpty_iff.mp hempty]
    simp
  · simp

/-- What the loop body does to a response reference. -/
theorem fixResponseReferenceStep_eq (path method : String) (op : Operation) (resCode : String)
    (resRef : ResponseRef) (errs : List OperationMeta) :
    fixResponseReferenceStep path method op resCode resRef errs =
      (rewriteResponseRef resRef,
        errs ++ (if (legacyTarget resRef.Ref).isSome then
          [legacyReferenceMeta path method resCode resRef.Ref] else [])) := by
  unfold fixResponseReferenceStep rewriteResponseRef legacyTarget
  cases hd : dropLeading oas2BasePathDefinitions.data resRef.Ref.data with
  | none =>
    have hp : oas2BasePathDefinitions.data.isPrefixOf resRef.Ref.data = false := by
      rw [← dropLeading_isSome_iff, hd]
      rfl
    simp [hp]
  | some x =>
    have hp : oas2BasePathDefinitions.data.isPrefixOf resRef.Ref.data = true := by
      rw [← dropLeading_isSome_iff, hd]
      rfl
    have hdata : resRef.Ref.data = oas2BasePathDefinitions.data ++ x := dropLeading_eq_some hd
    have htrim : (TrimSpace resRef.Ref).data =
        oas2BasePathDefinitions.data ++ trimRightChars x := by
      unfold TrimSpace
      simp only
      rw [hdata, trimSpaceChars_definitions]
    have hmatch : matchOAS2RefDefinition (TrimSpace resRef.Ref) =
        some (String.mk ((trimRightChars x).takeWhile (fun c => c ≠ '\n'))) := by
      unfold matchOAS2RefDefinition
      rw [htrim, dropLeading_append]
    simp [hp, hmatch, OperationToMeta, legacyReferenceMeta]

theorem fixResponseReferencesLoop_eq (path method : String) (op : Operation)
    (responses : List (String × Option ResponseRef)) (errs : List OperationMeta)
    (hnil : responses.all (fun e => e.2.isSome) = true) :
    fixResponseReferencesLoop path method op responses errs =
      .ok (responses.map (fun e => (e.1, e.2.map rewriteResponseRef)),
        errs ++ responses.flatMap (fun e =>
          match e.2 with
          | none => []
          | some resRef =>
            if (legacyTarget resRef.Ref).isSome then
              [legacyReferenceMeta path method e.1 resRef.Ref]
            else [])) := by
  induction responses generalizing errs with
  | nil => simp [fixResponseReferencesLoop]
  | cons e rest ih =>
    rcases e with ⟨resCode, resRef⟩
    rw [List.all_cons, Bool.and_eq_true] at hnil
    cases resRef with
    | none => simp at hnil
    | some resRef =>
      unfold fixResponseReferencesLoop
      simp only [fixResponseReferenceStep_eq]
      rw [ih _ hnil.2]
      simp [List.flatMap_cons]

theorem fixResponseReferencesVisit_eq (path method : String) (op : Operation)
    (s : List OperationMeta) (hnil : noNilResponse op = true) :
    fixResponseReferencesVisit path method op s =
      .ok (rewriteResponses op, s ++ reportLegacyReferences path method op) := by
  unfold fixResponseReferencesVisit
  rw [fixResponseReferencesLoop_eq path method op op.Responses s hnil]
  rfl

theorem trimRightChars_of_no_space (x : List Char) (h : ∀ c ∈ x, isSpace c = false) :
    trimRightChars x = x := by
  unfold trimRightChars
  cases hx : x.reverse with
  | nil => simp [List.reverse_eq_nil_iff.mp hx]
  | cons c cs =>
    have hc : isSpace c = false := h c (by
      have : c ∈ x.reverse := by rw [hx]; exact List.mem_cons_self _ _
      exact List.mem_reverse.mp this)
    rw [List.dropWhile_cons]
    simp only [hc, Bool.false_eq_true, if_false]
    rw [← hx, List.reverse_reverse]

/-- Claim C17 (counterexample). The response reference `#/definitions/Widget ` (with a trailing
blank) is rewritten to `#/components/schemas/Widget`, which does not keep the remainder
`Widget ` of the reference; and the response reference `#/definitions/A`, line feed, `B` is
rewritten to `#/components/schemas/A`, which does not keep the remainder either. On a document
with a nil response entry the function ends in a nil dereference. -/
theorem legacy_reference_remainder_trimmed :
    (SpecOperationsFixResponseReferences (specWithResponseRef "#/definitions/Widget ") =
        .ok (specWithResponseRef "#/components/schemas/Widget",
          [{ Path := "/widgets", Method := "GET",
             MetaNotes := ["E_BAD_RESPONSE_REF_OAS2_DEF [200] type[#/definitions/Widget]"] }]) ∧
      "#/components/schemas/Widget" ≠ "#/components/schemas/" ++ "Widget ") ∧
    (SpecOperationsFixResponseReferences (specWithResponseRef "#/definitions/A\nB") =
        .ok (specWithResponseRef "#/components/schemas/A",
          [{ Path := "/widgets", Method := "GET",
             MetaNotes := ["E_BAD_RESPONSE_REF_OAS2_DEF [200] type[#/definitions/A\nB]"] }]) ∧
      "#/components/schemas/A" ≠ "#/components/schemas/" ++ "A\nB") ∧
    SpecOperationsFixResponseReferences
        (sampleSpec "/widgets" { sampleOperation [] with Responses := [("200", none)] }) =
      .error Failure.nilDereference := by
  decide

/-- Claim C17 (amended). On a document without a nil response entry,
`SpecOperationsFixResponseReferences` returns the document in which every response reference
`#/definitions/X` is rewritten to `#/components/schemas/` followed by `X` without its trailing
white space and cut at its first line feed, and every other response reference is unchanged,
together with exactly one diagnostic per rewritten reference and none for any other. For a
remainder `X` without white space the rewritten reference is `#/components/schemas/X`. -/
theorem legacy_references_rewritten (spec : Spec)
    (hnil : ∀ e ∈ spec.Paths, ∀ mo ∈ e.2.operations, noNilResponse mo.2 = true) :
    SpecOperationsFixResponseReferences spec =
        .ok (spec.mapOperations (fun _ _ => rewriteResponses),
          spec.collect reportLegacyReferences) ∧
      ∀ x : List Char, (∀ c ∈ x, isSpace c = false) →
        legacyTarget (String.mk (oas2BasePathDefinitions.data ++ x)) =
          some (String.mk (oas3BasePathComponentsSchemas.data ++ x)) := by
  refine ⟨?_, ?_⟩
  · unfold SpecOperationsFixResponseReferences
    have h := VisitOperations_map_of_pre (P := fun op => noNilResponse op = true)
      (g := fun _ _ => rewriteResponses) (d := reportLegacyReferences)
      (fun path method op s hop => fixResponseReferencesVisit_eq path method op s hop)
      spec [] hnil
    rw [h]
    rfl
  · intro x hx
    unfold legacyTarget
    simp only [dropLeading_append]
    rw [trimRightChars_of_no_space x hx]
    have hline : x.takeWhile (fun c => c ≠ '\n') = x := by
      apply List.takeWhile_eq_self_iff.mpr
      intro c hc
      have h1 := hx c hc
      have : c ≠ '\n' := by
        intro e
        rw [e] at h1
        exact absurd h1 (by decide)
      simpa using this
    rw [hline]
    rfl

/-- Witness for claim C17: `#/definitions/Widget` becomes `#/components/schemas/Widget`, with
one diagnostic, and the reference to a component response is left alone. -/
theorem legacy_references_rewritten_witness :
    SpecOperationsFixResponseReferences (specWithResponseRef "#/definitions/Widget") =
      .ok (specWithResponseRef "#/components/schemas/Widget",
        [{ Path := "/widgets", Method := "GET",
           MetaNotes := ["E_BAD_RESPONSE_REF_OAS2_DEF [200] type[#/definitions/Widget]"] }]) :=
  (legacy_references_rewritten (specWithResponseRef "#/definitions/Widget") (by decide)).1.trans
    (by decide)

end Spectrum

/-! ### Folders from tag groups -/

namespace Spectrum

theorem length_eq_zero_iff (s : String) : s.length = 0 ↔ s = "" := by
  rcases s with ⟨cs⟩
  cases cs with
  | nil => exact ⟨fun _ => rfl, fun _ => rfl⟩
  | cons c cs =>
    constructor
    · intro h
      simp [String.length] at h
    · intro h
      exact absurd (congrArg String.data h) (by simp)

theorem addTagGroups_error_iff (tags : List (Option Tag)) (groups : List TagGroup)
    (pman : Collection) :
    (addTagGroups tags groups pman).2 ≠ none ↔
      ∃ tg ∈ groups, tg.Tags ≠ [] ∧ TrimSpace tg.Name = "" := by
  induction groups generalizing pman with
  | nil => simp [addTagGroups]
  | cons tg rest ih =>
    unfold addTagGroups
    simp only
    by_cases h : (TrimSpace tg.Name).length = 0 ∧ tg.Tags.length > 0
    · simp only [h, and_self, if_true]
      have h1 : TrimSpace tg.Name = "" := (length_eq_zero_iff _).mp h.1
      have h2 : tg.Tags ≠ [] := by
        intro e
        rw [e] at h
        simp at h
      constructor
      · intro _
        exact ⟨tg, List.mem_cons_self _ _, h2, h1⟩
      · intro _
        simp
    · simp only [h, if_false]
      rw [ih]
      constructor
      · rintro ⟨tg', hmem, ht⟩
        exact ⟨tg', List.mem_cons_of_mem _ hmem, ht⟩
      · rintro ⟨tg', hmem, ht⟩
        rcases List.mem_cons.mp hmem with e | e
        · subst e
          exfalso
          apply h
          refine ⟨(length_eq_zero_iff _).mpr ht.2, ?_⟩
          cases hh : tg'.Tags with
          | nil => exact absurd hh ht.1
          | cons t ts => simp
        · exact ⟨tg', e, ht⟩

/-- Claim C16. `addFoldersFromTagGroups` returns an error if and only if some tag group has a
non-empty tag list and a name that is empty or consists only of white space. -/
theorem tag_group_error_iff_unnamed_group (pman : Collection) (tgSet : TagGroupSet)
    (tags : List (Option Tag)) :
    (addFoldersFromTagGroups pman tgSet tags).2 ≠ none ↔
      ∃ tg ∈ tgSet.TagGroups, tg.Tags ≠ [] ∧ TrimSpace tg.Name = "" := by
  unfold addFoldersFromTagGroups
  exact addTagGroups_error_iff tags tgSet.TagGroups pman

end Spectrum

/-! ### Replacing or appending an item by name -/

namespace Spectrum

theorem findItem_upsertItem (items : List Item) (newItem : Item) (name : String) :
    findItem (upsertItem items newItem) name =
      if newItem.Name = name then some newItem else findItem items name := by
  induction items with
  | nil =>
    by_cases h : newItem.Name = name <;> simp [upsertItem, findItem, h]
  | cons item rest ih =>
    unfold upsertItem
    by_cases h1 : item.Name = newItem.Name
    · simp only [h1, if_true]
      by_cases h2 : newItem.Name = name
      · simp [findItem, h2]
      · have : ¬ item.Name = name := fun e => h2 (h1 ▸ e)
        simp [findItem, h2, this]
    · simp only [h1, if_false]
      unfold findItem at ih ⊢
      by_cases h3 : item.Name = name
      · have : ¬ newItem.Name = name := fun e => h1 (h3.trans e.symm)
        simp [h3, this]
      · simp only [List.find?_cons, h3, decide_False]
        exact ih

theorem upsertItem_self {items : List Item} {newItem : Item}
    (h : findItem items newItem.Name = some newItem) : upsertItem items newItem = items := by
  induction items with
  | nil => simp [findItem] at h
  | cons item rest ih =>
    unfold upsertItem
    unfold findItem at h ih
    by_cases h1 : item.Name = newItem.Name
    · simp only [List.find?_cons, h1, decide_True, Option.some.injEq] at h
      simp [h1, h]
    · simp only [List.find?_cons, h1, decide_False] at h
      simp [h1, ih h]

theorem itemNames_upsertItem (items : List Item) (newItem : Item) :
    itemNames (upsertItem items newItem) =
      if newItem.Name ∈ itemNames items then itemNames items
      else itemNames items ++ [newItem.Name] := by
  induction items with
  | nil => simp [upsertItem, itemNames]
  | cons item rest ih =>
    unfold upsertItem
    by_cases h1 : item.Name = newItem.Name
    · simp [h1, itemNames]
    · have h1' : ¬ newItem.Name = item.Name := fun e => h1 e.symm
      simp only [h1, if_false]
      unfold itemNames at ih ⊢
      simp only [List.map_cons, ih, List.mem_cons, h1', false_or]
      split <;> simp

theorem nodup_itemNames_upsertItem {items : List Item} (newItem : Item)
    (h : (itemNames items).Nodup) : (itemNames (upsertItem items newItem)).Nodup := by
  rw [itemNames_upsertItem]
  split
  · exact h
  · rename_i hn
    apply List.Nodup.append h (List.nodup_singleton _)
    intro x hx hx'
    rw [List.mem_singleton] at hx'
    exact hn (hx' ▸ hx)

theorem mem_upsertItem {items : List Item} {newItem f : Item}
    (h : f ∈ upsertItem items newItem) : f = newItem ∨ f ∈ items := by
  induction items with
  | nil =>
    simp [upsertItem] at h
    exact Or.inl h
  | cons item rest ih =>
    unfold upsertItem at h
    split at h
    · rcases List.mem_cons.mp h with e | e
      · exact Or.inl e
      · exact Or.inr (List.mem_cons_of_mem _ e)
    · rcases List.mem_cons.mp h with e | e
      · exact Or.inr (e ▸ List.mem_cons_self _ _)
      · rcases ih e with e' | e'
        · exact Or.inl e'
        · exact Or.inr (List.mem_cons_of_mem _ e')

theorem mem_itemNames_upsertItem (items : List Item) (newItem : Item) :
    newItem.Name ∈ itemNames (upsertItem items newItem) := by
  rw [itemNames_upsertItem]
  split
  · assumption
  · simp

theorem itemNames_subset_upsertItem {items : List Item} (newItem : Item) {name : String}
    (h : name ∈ itemNames items) : name ∈ itemNames (upsertItem items newItem) := by
  rw [itemNames_upsertItem]
  split
  · exact h
  · exact List.mem_append_left _ h

theorem upsertItem_upsertItem_same (items : List Item) (v' v : Item) (h : v'.Name = v.Name) :
    upsertItem (upsertItem items v') v = upsertItem items v := by
  induction items with
  | nil => simp [upsertItem, h]
  | cons item rest ih =>
    by_cases h1 : item.Name = v'.Name
    · have h2 : item.Name = v.Name := h1.trans h
      simp [upsertItem, h1, h2, h]
    · have h2 : ¬ item.Name = v.Name := fun e => h1 (e.trans h.symm)
      simp [upsertItem, h1, h2, ih]

theorem upsertItem_comm (items : List Item) (v w : Item) (hne : v.Name ≠ w.Name)
    (hmem : v.Name ∈ itemNames items) :
    upsertItem (upsertItem items v) w = upsertItem (upsertItem items w) v := by
  induction items with
  | nil => simp [itemNames] at hmem
  | cons item rest ih =>
    by_cases h1 : item.Name = v.Name
    · have h2 : ¬ item.Name = w.Name := fun e => hne (h1.symm.trans e)
      simp [upsertItem, h1, h2, hne]
    · by_cases h2 : item.Name = w.Name
      · have hne' : ¬ w.Name = v.Name := fun e => hne e.symm
        simp [upsertItem, h1, h2, hne']
      · have hmem' : v.Name ∈ itemNames rest := by
          simp only [itemNames, List.map_cons, List.mem_cons] at hmem
          rcases hmem with e | e
          · exact absurd e.symm h1
          · exact e
        simp [upsertItem, h1, h2, ih hmem']

end Spectrum

namespace Spectrum

theorem findItem_foldl_other (news items : List Item) (name : String)
    (h : ∀ w ∈ news, w.Name ≠ name) :
    findItem (news.foldl upsertItem items) name = findItem items name := by
  induction news generalizing items with
  | nil => rfl
  | cons w rest ih =>
    rw [List.foldl_cons, ih _ (fun x hx => h x (List.mem_cons_of_mem _ hx)),
      findItem_upsertItem]
    simp [h w (List.mem_cons_self _ _)]

theorem itemNames_foldl_mono (news : List Item) {items : List Item} {name : String}
    (h : name ∈ itemNames items) : name ∈ itemNames (news.foldl upsertItem items) := by
  induction news generalizing items with
  | nil => exact h
  | cons w rest ih =>
    rw [List.foldl_cons]
    exact ih (itemNames_subset_upsertItem w h)

theorem foldl_upsert_absorb (news items : List Item) (v : Item)
    (hmem : v.Name ∈ itemNames items) (hlater : ∃ w ∈ news, w.Name = v.Name) :
    news.foldl upsertItem (upsertItem items v) = news.foldl upsertItem items := by
  induction news generalizing items with
  | nil =>
    rcases hlater with ⟨w, hw, _⟩
    cases hw
  | cons w rest ih =>
    rw [List.foldl_cons, List.foldl_cons]
    by_cases hwv : w.Name = v.Name
    · rw [upsertItem_upsertItem_same items v w hwv.symm]
    · have hlater' : ∃ x ∈ rest, x.Name = v.Name := by
        rcases hlater with ⟨x, hx, hxn⟩
        rcases List.mem_cons.mp hx with e | e
        · exact absurd (e ▸ hxn) hwv
        · exact ⟨x, e, hxn⟩
      rw [upsertItem_comm items v w (fun e => hwv e.symm) hmem]
      exact ih (upsertItem items w) (itemNames_subset_upsertItem w hmem) hlater'

/-- Setting a list of folders twice gives the same items as setting it once. -/
theorem foldl_upsert_idem (news items : List Item) :
    news.foldl upsertItem (news.foldl upsertItem items) = news.foldl upsertItem items := by
  induction news generalizing items with
  | nil => rfl
  | cons v rest ih =>
    rw [List.foldl_cons, List.foldl_cons]
    have hmem : v.Name ∈ itemNames (rest.foldl upsertItem (upsertItem items v)) :=
      itemNames_foldl_mono rest (mem_itemNames_upsertItem items v)
    by_cases hlater : ∃ w ∈ rest, w.Name = v.Name
    · rw [foldl_upsert_absorb rest _ v hmem hlater]
      exact ih (upsertItem items v)
    · have hnone : ∀ w ∈ rest, w.Name ≠ v.Name := fun w hw e => hlater ⟨w, hw, e⟩
      have hfind : findItem (rest.foldl upsertItem (upsertItem items v)) v.Name = some v := by
        rw [findItem_foldl_other rest _ _ hnone, findItem_upsertItem]
        simp
      rw [upsertItem_self hfind]
      exact ih (upsertItem items v)

theorem nodup_itemNames_foldl (news : List Item) {items : List Item}
    (h : (itemNames items).Nodup) : (itemNames (news.foldl upsertItem items)).Nodup := by
  induction news generalizing items with
  | nil => exact h
  | cons w rest ih =>
    rw [List.foldl_cons]
    exact ih (nodup_itemNames_upsertItem w h)

theorem mem_foldl_upsert (news : List Item) {items : List Item} {f : Item}
    (h : f ∈ news.foldl upsertItem items) : f ∈ news ∨ f ∈ items := by
  induction news generalizing items with
  | nil => exact Or.inr h
  | cons w rest ih =>
    rw [List.foldl_cons] at h
    rcases ih h with e | e
    · exact Or.inl (List.mem_cons_of_mem _ e)
    · rcases mem_upsertItem e with e' | e'
      · exact Or.inl (e' ▸ List.mem_cons_self _ _)
      · exact Or.inr e'

/-! ### Folders from tags -/

theorem addFoldersFromTags_eq (pman : Collection) (tags : List (Option Tag)) :
    addFoldersFromTags pman tags =
      { pman with Item := (tagFolders tags).foldl upsertItem pman.Item } := by
  induction tags generalizing pman with
  | nil => rfl
  | cons tag rest ih =>
    cases tag with
    | none =>
      rw [addFoldersFromTags, tagFolders]
      exact ih pman
    | some tag =>
      rw [addFoldersFromTags, tagFolders]
      simp only
      split
      · exact ih pman
      · rw [ih]
        rfl

theorem tagFolders_no_children {tags : List (Option Tag)} {f : Item}
    (h : f ∈ tagFolders tags) : f.Item = [] := by
  induction tags with
  | nil => cases h
  | cons tag rest ih =>
    cases tag with
    | none =>
      rw [tagFolders] at h
      exact ih h
    | some tag =>
      rw [tagFolders] at h
      split at h
      · exact ih h
      · rcases List.mem_cons.mp h with e | e
        · rw [e]
        · exact ih e

end Spectrum

namespace Spectrum

/-! ### Folders from tag groups -/

theorem findItem_Name {items : List Item} {name : String} {f : Item}
    (h : findItem items name = some f) : f.Name = name := by
  unfold findItem at h
  have := List.find?_some (p := fun item : Item => decide (item.Name = name)) h
  simpa using this

theorem findItem_mem {items : List Item} {name : String} {f : Item}
    (h : findItem items name = some f) : f ∈ items := by
  unfold findItem at h
  exact List.mem_of_find?_eq_some h

theorem tagSubFolder_Name (tags : List (Option Tag)) (tagName : String) :
    (tagSubFolder tags tagName).Name = tagName := by
  unfold tagSubFolder
  cases TagsMoreGet tags tagName <;> rfl

theorem tagSubFolder_Description (tags : List (Option Tag)) (tagName : String) (tag : Tag)
    (h : TagsMoreGet tags tagName = some tag) :
    (tagSubFolder tags tagName).Description =
      some { Content := TrimSpace tag.Description, DescriptionType := "text/plain" } := by
  unfold tagSubFolder
  rw [h]
  rfl

theorem GetOrNewFolder_Name (pman : Collection) (name : String) :
    (pman.GetOrNewFolder name).Name = name := by
  unfold Collection.GetOrNewFolder
  cases h : findItem pman.Item name with
  | none => rfl
  | some f => exact findItem_Name h

theorem GetOrNewFolder_of_find {pman : Collection} {name : String} {f : Item}
    (h : findItem pman.Item name = some f) : pman.GetOrNewFolder name = f := by
  unfold Collection.GetOrNewFolder
  rw [h]

theorem upsertTagFolders_Name (tags : List (Option Tag)) (ts : List String) (folder : Item) :
    (upsertTagFolders tags ts folder).Name = folder.Name := by
  induction ts generalizing folder with
  | nil => rfl
  | cons t rest ih =>
    rw [upsertTagFolders]
    split
    · exact ih folder
    · rw [ih]
      rfl

theorem findItem_upsertTagFolders (tags : List (Option Tag)) (ts : List String) (folder : Item)
    (name : String) :
    findItem (upsertTagFolders tags ts folder).Item name =
      if (∃ t ∈ ts, TrimSpace t = name ∧ (TrimSpace t).length ≠ 0) then
        some (tagSubFolder tags name)
      else findItem folder.Item name := by
  induction ts generalizing folder with
  | nil => simp [upsertTagFolders]
  | cons t rest ih =>
    rw [upsertTagFolders]
    by_cases hblank : (TrimSpace t).length = 0
    · rw [if_pos hblank, ih]
      by_cases hrest : ∃ t ∈ rest, TrimSpace t = name ∧ (TrimSpace t).length ≠ 0
      · have : ∃ x ∈ t :: rest, TrimSpace x = name ∧ (TrimSpace x).length ≠ 0 := by
          rcases hrest with ⟨x, hx, hxn⟩
          exact ⟨x, List.mem_cons_of_mem _ hx, hxn⟩
        rw [if_pos hrest, if_pos this]
      · have : ¬ ∃ x ∈ t :: rest, TrimSpace x = name ∧ (TrimSpace x).length ≠ 0 := by
          rintro ⟨x, hx, hxn⟩
          rcases List.mem_cons.mp hx with e | e
          · exact hxn.2 (e ▸ hblank)
          · exact hrest ⟨x, e, hxn⟩
        rw [if_neg hrest, if_neg this]
    · rw [if_neg hblank, ih]
      by_cases hrest : ∃ t ∈ rest, TrimSpace t = name ∧ (TrimSpace t).length ≠ 0
      · have : ∃ x ∈ t :: rest, TrimSpace x = name ∧ (TrimSpace x).length ≠ 0 := by
          rcases hrest with ⟨x, hx, hxn⟩
          exact ⟨x, List.mem_cons_of_mem _ hx, hxn⟩
        rw [if_pos hrest, if_pos this]
      · rw [if_neg hrest]
        have hfind : findItem (folder.UpsertSubItem (tagSubFolder tags (TrimSpace t))).Item name =
            if TrimSpace t = name then some (tagSubFolder tags (TrimSpace t))
            else findItem folder.Item name := by
          unfold Item.UpsertSubItem
          simp only
          rw [findItem_upsertItem, tagSubFolder_Name]
        rw [hfind]
        by_cases hname : TrimSpace t = name
        · have : ∃ x ∈ t :: rest, TrimSpace x = name ∧ (TrimSpace x).length ≠ 0 :=
            ⟨t, List.mem_cons_self _ _, hname, hblank⟩
          rw [if_pos hname, if_pos this, hname]
        · have : ¬ ∃ x ∈ t :: rest, TrimSpace x = name ∧ (TrimSpace x).length ≠ 0 := by
            rintro ⟨x, hx, hxn⟩
            rcases List.mem_cons.mp hx with e | e
            · exact hname (e ▸ hxn.1)
            · exact hrest ⟨x, e, hxn⟩
          rw [if_neg hname, if_neg this]

theorem upsertTagFolders_self (tags : List (Option Tag)) (ts : List String) (folder : Item)
    (h : ∀ t ∈ ts, (TrimSpace t).length ≠ 0 →
      findItem folder.Item (TrimSpace t) = some (tagSubFolder tags (TrimSpace t))) :
    upsertTagFolders tags ts folder = folder := by
  induction ts with
  | nil => rfl
  | cons t rest ih =>
    rw [upsertTagFolders]
    have hrest := ih (fun x hx => h x (List.mem_cons_of_mem _ hx))
    split
    · exact hrest
    · rename_i hblank
      have hfind := h t (List.mem_cons_self _ _) hblank
      have hsame : folder.UpsertSubItem (tagSubFolder tags (TrimSpace t)) = folder := by
        unfold Item.UpsertSubItem
        have hfind' : findItem folder.Item (tagSubFolder tags (TrimSpace t)).Name =
            some (tagSubFolder tags (TrimSpace t)) := by
          rw [tagSubFolder_Name]
          exact hfind
        rw [upsertItem_self hfind']
        cases folder
        rfl
      rw [hsame]
      exact hrest

theorem nodup_upsertTagFolders (tags : List (Option Tag)) (ts : List String) (folder : Item)
    (h : (itemNames folder.Item).Nodup) :
    (itemNames (upsertTagFolders tags ts folder).Item).Nodup := by
  induction ts generalizing folder with
  | nil => exact h
  | cons t rest ih =>
    rw [upsertTagFolders]
    split
    · exact ih folder h
    · apply ih
      unfold Item.UpsertSubItem
      exact nodup_itemNames_upsertItem _ h

end Spectrum

namespace Spectrum

theorem tagGroupStep_present (tags : List (Option Tag)) (pman : Collection) (tg : TagGroup) :
    groupFolderPresent tags tg (tagGroupStep tags pman tg) := by
  refine ⟨upsertTagFolders tags tg.Tags (pman.GetOrNewFolder (TrimSpace tg.Name)), ?_, ?_⟩
  · unfold tagGroupStep Collection.SetFolder
    simp only
    rw [findItem_upsertItem, upsertTagFolders_Name, GetOrNewFolder_Name]
    simp
  · intro t ht hblank
    rw [findItem_upsertTagFolders]
    rw [if_pos ⟨t, ht, rfl, hblank⟩]

theorem tagGroupStep_keeps_present (tags : List (Option Tag)) (pman : Collection)
    (tg other : TagGroup) (h : groupFolderPresent tags tg pman) :
    groupFolderPresent tags tg (tagGroupStep tags pman other) := by
  rcases h with ⟨folder, hfolder, hchildren⟩
  by_cases hname : TrimSpace other.Name = TrimSpace tg.Name
  · refine ⟨upsertTagFolders tags other.Tags folder, ?_, ?_⟩
    · unfold tagGroupStep Collection.SetFolder
      simp only
      rw [hname, GetOrNewFolder_of_find hfolder, findItem_upsertItem, upsertTagFolders_Name,
        findItem_Name hfolder]
      simp
    · intro t ht hblank
      rw [findItem_upsertTagFolders]
      split
      · rfl
      · exact hchildren t ht hblank
  · refine ⟨folder, ?_, hchildren⟩
    unfold tagGroupStep Collection.SetFolder
    simp only
    rw [findItem_upsertItem, upsertTagFolders_Name, GetOrNewFolder_Name, if_neg hname]
    exact hfolder

theorem tagGroupStep_self (tags : List (Option Tag)) (pman : Collection) (tg : TagGroup)
    (h : groupFolderPresent tags tg pman) : tagGroupStep tags pman tg = pman := by
  rcases h with ⟨folder, hfolder, hchildren⟩
  unfold tagGroupStep Collection.SetFolder
  rw [GetOrNewFolder_of_find hfolder, upsertTagFolders_self tags tg.Tags folder hchildren]
  have hfind : findItem pman.Item folder.Name = some folder := by
    rw [findItem_Name hfolder]
    exact hfolder
  rw [upsertItem_self hfind]

theorem foldl_tagGroupStep_keeps_present (tags : List (Option Tag)) (groups : List TagGroup)
    (pman : Collection) (tg : TagGroup) (h : groupFolderPresent tags tg pman) :
    groupFolderPresent tags tg (groups.foldl (tagGroupStep tags) pman) := by
  induction groups generalizing pman with
  | nil => exact h
  | cons other rest ih =>
    rw [List.foldl_cons]
    exact ih _ (tagGroupStep_keeps_present tags pman tg other h)

theorem foldl_tagGroupStep_present (tags : List (Option Tag)) (groups : List TagGroup)
    (pman : Collection) (tg : TagGroup) (h : tg ∈ groups) :
    groupFolderPresent tags tg (groups.foldl (tagGroupStep tags) pman) := by
  induction groups generalizing pman with
  | nil => cases h
  | cons other rest ih =>
    rw [List.foldl_cons]
    rcases List.mem_cons.mp h with e | e
    · rw [← e]
      exact foldl_tagGroupStep_keeps_present tags rest _ tg (tagGroupStep_present tags pman tg)
    · exact ih _ e

theorem foldl_tagGroupStep_self (tags : List (Option Tag)) (groups : List TagGroup)
    (pman : Collection) (h : ∀ tg ∈ groups, groupFolderPresent tags tg pman) :
    groups.foldl (tagGroupStep tags) pman = pman := by
  induction groups with
  | nil => rfl
  | cons tg rest ih =>
    rw [List.foldl_cons, tagGroupStep_self tags pman tg (h tg (List.mem_cons_self _ _))]
    exact ih (fun x hx => h x (List.mem_cons_of_mem _ hx))

theorem addTagGroups_eq (tags : List (Option Tag)) (groups : List TagGroup)
    (pman : Collection) :
    addTagGroups tags groups pman =
      ((processedGroups groups).foldl (tagGroupStep tags) pman, groupsError groups) := by
  induction groups generalizing pman with
  | nil => rfl
  | cons tg rest ih =>
    rw [addTagGroups, processedGroups, groupsError]
    by_cases hbad : (TrimSpace tg.Name).length = 0 ∧ tg.Tags.length > 0
    · have hb : unnamedWithTags tg = true := by
        simp [unnamedWithTags, hbad.1, hbad.2]
      simp [hbad.1, hbad.2, hb]
    · have hb : unnamedWithTags tg = false := by
        simp only [unnamedWithTags, Bool.and_eq_false_iff, decide_eq_false_iff_not]
        by_cases h1 : (TrimSpace tg.Name).length = 0
        · exact Or.inr (fun h2 => hbad ⟨h1, h2⟩)
        · exact Or.inl h1
      rw [if_neg hbad]
      simp only [hb, Bool.false_eq_true, if_false, List.foldl_cons]
      rw [ih]
      rfl

theorem processedGroups_of_no_error {groups : List TagGroup} (h : groupsError groups = none) :
    processedGroups groups = groups := by
  induction groups with
  | nil => rfl
  | cons tg rest ih =>
    rw [groupsError] at h
    rw [processedGroups]
    split at h
    · cases h
    · rename_i hb
      rw [if_neg hb, ih h]

theorem nodup_tagGroupStep (tags : List (Option Tag)) (pman : Collection) (tg : TagGroup)
    (h : (itemNames pman.Item).Nodup) :
    (itemNames (tagGroupStep tags pman tg).Item).Nodup := by
  unfold tagGroupStep Collection.SetFolder
  exact nodup_itemNames_upsertItem _ h

theorem nodup_children_tagGroupStep (tags : List (Option Tag)) (pman : Collection)
    (tg : TagGroup) (h : ∀ f ∈ pman.Item, (itemNames f.Item).Nodup) :
    ∀ f ∈ (tagGroupStep tags pman tg).Item, (itemNames f.Item).Nodup := by
  intro f hf
  unfold tagGroupStep Collection.SetFolder at hf
  rcases mem_upsertItem hf with e | e
  · rw [e]
    apply nodup_upsertTagFolders
    unfold Collection.GetOrNewFolder
    cases hfind : findItem pman.Item (TrimSpace tg.Name) with
    | none => exact List.nodup_nil
    | some folder => exact h folder (findItem_mem hfind)
  · exact h f e

theorem nodup_foldl_tagGroupStep (tags : List (Option Tag)) (groups : List TagGroup)
    (pman : Collection) (h : (itemNames pman.Item).Nodup) :
    (itemNames (groups.foldl (tagGroupStep tags) pman).Item).Nodup := by
  induction groups generalizing pman with
  | nil => exact h
  | cons tg rest ih =>
    rw [List.foldl_cons]
    exact ih _ (nodup_tagGroupStep tags pman tg h)

theorem nodup_children_foldl_tagGroupStep (tags : List (Option Tag)) (groups : List TagGroup)
    (pman : Collection) (h : ∀ f ∈ pman.Item, (itemNames f.Item).Nodup) :
    ∀ f ∈ (groups.foldl (tagGroupStep tags) pman).Item, (itemNames f.Item).Nodup := by
  induction groups generalizing pman with
  | nil => exact h
  | cons tg rest ih =>
    rw [List.foldl_cons]
    exact ih _ (nodup_children_tagGroupStep tags pman tg h)

end Spectrum

namespace Spectrum

theorem CreateTagsAndTagGroups_eq (pman : Collection) (spec : Spec) :
    CreateTagsAndTagGroups pman spec =
      match spec.TagGroups with
      | .error err => (pman, some err)
      | .ok groups =>
        if groups.length > 0 then
          ((processedGroups groups).foldl (tagGroupStep spec.Tags) pman, groupsError groups)
        else ({ pman with Item := (tagFolders spec.Tags).foldl upsertItem pman.Item }, none) := by
  unfold CreateTagsAndTagGroups SpecTagGroups addFoldersFromTagGroups
  cases spec.TagGroups with
  | error err => rfl
  | ok groups =>
    simp only
    split
    · rw [addTagGroups_eq]
    · rw [addFoldersFromTags_eq]

theorem unnamedWithTags_eq_false {tg : TagGroup}
    (h : ¬ (tg.Tags ≠ [] ∧ TrimSpace tg.Name = "")) : unnamedWithTags tg = false := by
  unfold unnamedWithTags
  cases hb : (decide ((TrimSpace tg.Name).length = 0) && decide (tg.Tags.length > 0)) with
  | false => rfl
  | true =>
    rw [Bool.and_eq_true, decide_eq_true_eq, decide_eq_true_eq] at hb
    exfalso
    apply h
    refine ⟨?_, (length_eq_zero_iff _).mp hb.1⟩
    intro hnil
    rw [hnil] at hb
    exact absurd hb.2 (by simp)

theorem processedGroups_append (front back : List TagGroup)
    (hfront : ∀ g ∈ front, ¬ (g.Tags ≠ [] ∧ TrimSpace g.Name = "")) :
    processedGroups (front ++ back) = front ++ processedGroups back := by
  induction front with
  | nil => rfl
  | cons g rest ih =>
    rw [List.cons_append, processedGroups,
      unnamedWithTags_eq_false (hfront g (List.mem_cons_self _ _))]
    simp only [Bool.false_eq_true, if_false, List.cons_append]
    rw [ih (fun x hx => hfront x (List.mem_cons_of_mem _ hx))]

/-- Claim C14 (counterexample). For the tag groups `A`, a group without name but with tags, and
`B`, the organizer returns the error of the group without name and a collection whose only
top-level folder is `A`: the group `B`, which has a name, gets no folder. -/
theorem unnamed_group_stops_organizer :
    (CreateTagsAndTagGroups emptyCollection specUnnamedGroup).2 =
        some "E_TAG_GROUP_EMPTY_NAME TAGS [x,y]" ∧
      itemNames (CreateTagsAndTagGroups emptyCollection specUnnamedGroup).1.Item = ["A"] ∧
      (findItem (CreateTagsAndTagGroups emptyCollection specUnnamedGroup).1.Item
        (TrimSpace "B")).isNone = true := by
  decide

/-- Claim C14 (amended). When tag groups are declared, the collection that the organizer
returns has, for every tag group that is listed before every group with tags but a blank name
(so for every group when there is no such group, which is when no error is returned), a
top-level folder named after the (trimmed) group name, and that folder has, for every tag of
the group whose trimmed name is not empty, a child folder named after the trimmed tag; the
child folder carries the trimmed description of the tag, as `text/plain`, when the tag list of
the document declares the tag. In particular the tag groups `{"Core": ["Widgets"]}` with the
tags `[{"Widgets", "desc"}]` turn the empty collection into the collection whose only top-level
folder is `Core`, whose only child is the folder `Widgets` with the description `desc`. -/
theorem tag_groups_yield_folders (pman : Collection) (spec : Spec)
    (front back : List TagGroup) (tg : TagGroup)
    (hgroups : spec.TagGroups = .ok (front ++ back))
    (hfront : ∀ g ∈ front, ¬ (g.Tags ≠ [] ∧ TrimSpace g.Name = ""))
    (htg : tg ∈ front) :
    (∃ folder, findItem (CreateTagsAndTagGroups pman spec).1.Item (TrimSpace tg.Name) =
        some folder ∧
      folder.Name = TrimSpace tg.Name ∧
      ∀ t ∈ tg.Tags, TrimSpace t ≠ "" →
        ∃ child, findItem folder.Item (TrimSpace t) = some child ∧
          child.Name = TrimSpace t ∧
          ∀ tag, TagsMoreGet spec.Tags (TrimSpace t) = some tag →
            child.Description =
              some { Content := TrimSpace tag.Description, DescriptionType := "text/plain" }) ∧
    CreateTagsAndTagGroups emptyCollection specCore =
      ({ emptyCollection with Item := [coreFolder] }, none) := by
  refine ⟨?_, rfl⟩
  have hlen : (front ++ back).length > 0 := List.length_pos_of_mem (List.mem_append_left _ htg)
  rw [CreateTagsAndTagGroups_eq, hgroups]
  simp only [hlen, if_true]
  rw [processedGroups_append front back hfront, List.foldl_append]
  rcases foldl_tagGroupStep_keeps_present spec.Tags (processedGroups back) _ tg
      (foldl_tagGroupStep_present spec.Tags front pman tg htg) with
    ⟨folder, hfolder, hchildren⟩
  refine ⟨folder, hfolder, findItem_Name hfolder, ?_⟩
  intro t ht hblank
  have hlength : (TrimSpace t).length ≠ 0 := fun h => hblank ((length_eq_zero_iff _).mp h)
  exact ⟨tagSubFolder spec.Tags (TrimSpace t), hchildren t ht hlength, tagSubFolder_Name _ _,
    fun tag htag => tagSubFolder_Description _ _ tag htag⟩

/-- Witness for claim C14: the tag group `Core` of the example document yields the top-level
folder `Core`, whose child
`Widgets` carries the description `desc`; and the group `A` of the document with a group
without name, listed before that group, has its folder. -/
theorem tag_groups_yield_folders_witness :
    ((∃ folder, findItem (CreateTagsAndTagGroups emptyCollection specCore).1.Item
        (TrimSpace "Core") = some folder ∧
      folder.Name = TrimSpace "Core" ∧
      ∀ t ∈ ["Widgets"], TrimSpace t ≠ "" →
        ∃ child, findItem folder.Item (TrimSpace t) = some child ∧
          child.Name = TrimSpace t ∧
          ∀ tag, TagsMoreGet specCore.Tags (TrimSpace t) = some tag →
            child.Description =
              some { Content := TrimSpace tag.Description, DescriptionType := "text/plain" }) ∧
    CreateTagsAndTagGroups emptyCollection specCore =
      ({ emptyCollection with Item := [coreFolder] }, none)) ∧
    (∃ folder, findItem (CreateTagsAndTagGroups emptyCollection specUnnamedGroup).1.Item
        (TrimSpace "A") = some folder ∧ folder.Name = TrimSpace "A") :=
  ⟨tag_groups_yield_folders emptyCollection specCore [{ Name := "Core", Tags := ["Widgets"] }]
      [] { Name := "Core", Tags := ["Widgets"] } rfl (by decide) (List.mem_singleton.mpr rfl),
    (tag_groups_yield_folders emptyCollection specUnnamedGroup [{ Name := "A", Tags := ["x"] }]
      [{ Name := " ", Tags := ["x", "y"] }, { Name := "B", Tags := ["z"] }]
      { Name := "A", Tags := ["x"] } rfl (by decide) (List.mem_singleton.mpr rfl)).1.imp
      (fun _ h => ⟨h.1, h.2.1⟩)⟩

/-- C15: applying `CreateTagsAndTagGroups` to the collection it returned, with the same
document, returns that collection again (and the same error), so no folder is duplicated; and
the organizer keeps folder names unique: when the top-level names of the collection are
pairwise distinct they are so in the result, and when the child names of every top-level folder
are pairwise distinct they are so in the result. -/
theorem organizer_rerun_adds_no_duplicate (pman : Collection) (spec : Spec) :
    CreateTagsAndTagGroups (CreateTagsAndTagGroups pman spec).1 spec =
        CreateTagsAndTagGroups pman spec ∧
      ((itemNames pman.Item).Nodup →
        (itemNames (CreateTagsAndTagGroups pman spec).1.Item).Nodup) ∧
      ((∀ f ∈ pman.Item, (itemNames f.Item).Nodup) →
        ∀ f ∈ (CreateTagsAndTagGroups pman spec).1.Item, (itemNames f.Item).Nodup) := by
  simp only [CreateTagsAndTagGroups_eq]
  cases spec.TagGroups with
  | error err => exact ⟨rfl, fun h => h, fun h => h⟩
  | ok groups =>
    simp only
    by_cases hlen : groups.length > 0
    · simp only [hlen, if_true]
      refine ⟨?_, nodup_foldl_tagGroupStep _ _ _, nodup_children_foldl_tagGroupStep _ _ _⟩
      rw [foldl_tagGroupStep_self spec.Tags (processedGroups groups) _
        (fun tg htg => foldl_tagGroupStep_present spec.Tags _ pman tg htg)]
    · simp only [hlen, if_false]
      refine ⟨?_, fun h => nodup_itemNames_foldl _ h, ?_⟩
      · rw [foldl_upsert_idem]
      · intro h f hf
        rcases mem_foldl_upsert _ hf with e | e
        · rw [tagFolders_no_children e]
          exact List.nodup_nil
        · exact h f e

/-- Running the organizer a second time on the example document returns the collection with
the single folder `Core` again, and the names stay unique at both levels. -/
theorem organizer_rerun_adds_no_duplicate_witness :
    CreateTagsAndTagGroups (CreateTagsAndTagGroups emptyCollection specCore).1 specCore =
        CreateTagsAndTagGroups emptyCollection specCore ∧
      (itemNames (CreateTagsAndTagGroups emptyCollection specCore).1.Item).Nodup ∧
      (∀ f ∈ (CreateTagsAndTagGroups emptyCollection specCore).1.Item,
        (itemNames f.Item).Nodup) ∧
      itemNames (CreateTagsAndTagGroups (CreateTagsAndTagGroups emptyCollection specCore).1
        specCore).1.Item = ["Core"] :=
  ⟨(organizer_rerun_adds_no_duplicate emptyCollection specCore).1,
    (organizer_rerun_adds_no_duplicate emptyCollection specCore).2.1 List.nodup_nil,
    (organizer_rerun_adds_no_duplicate emptyCollection specCore).2.2
      (fun _ hf => absurd hf (List.not_mem_nil _)),
    rfl⟩

end Spectrum

namespace Spectrum

/-! ### `Merge` as a sequence of visits -/

theorem mergeMethod_eq (cfg : Configuration) (swag : Specification) (u : String) (path : Path)
    (method : String) (endpoint : Option Endpoint) (pman : Collection)
    (h : ∀ e, endpoint = some e → path.HasMethodWithTag method = decide (e.Tags.length > 0)) :
    mergeMethod cfg swag u path method endpoint pman =
      (endpoint.map (fun e =>
        fileVisit cfg swag pman { Path := u, Method := method, Endpoint := e })).getD
        (.ok pman) := by
  unfold mergeMethod
  cases endpoint with
  | none => simp
  | some e =>
    rw [h e rfl]
    cases hTags : e.Tags with
    | nil => simp [fileVisit, hTags]
    | cons tag rest =>
      simp only [List.length_cons, gt_iff_lt, Nat.zero_lt_succ, decide_True, if_true,
        Option.map_some', Option.getD_some, fileVisit, hTags, operationItem]

theorem mergeMethod_GET (cfg : Configuration) (swag : Specification) (u : String)
    (path : Path) (pman : Collection) :
    mergeMethod cfg swag u path "GET" path.Get pman =
      (path.Get.map (fun e =>
        fileVisit cfg swag pman { Path := u, Method := "GET", Endpoint := e })).getD
        (.ok pman) :=
  mergeMethod_eq cfg swag u path "GET" path.Get pman
    (fun e he => by simp [Path.HasMethodWithTag, he])

theorem mergeMethod_PATCH (cfg : Configuration) (swag : Specification) (u : String)
    (path : Path) (pman : Collection) :
    mergeMethod cfg swag u path "PATCH" path.Patch pman =
      (path.Patch.map (fun e =>
        fileVisit cfg swag pman { Path := u, Method := "PATCH", Endpoint := e })).getD
        (.ok pman) :=
  mergeMethod_eq cfg swag u path "PATCH" path.Patch pman
    (fun e he => by simp [Path.HasMethodWithTag, he])

theorem mergeMethod_POST (cfg : Configuration) (swag : Specification) (u : String)
    (path : Path) (pman : Collection) :
    mergeMethod cfg swag u path "POST" path.Post pman =
      (path.Post.map (fun e =>
        fileVisit cfg swag pman { Path := u, Method := "POST", Endpoint := e })).getD
        (.ok pman) :=
  mergeMethod_eq cfg swag u path "POST" path.Post pman
    (fun e he => by simp [Path.HasMethodWithTag, he])

theorem mergeMethod_PUT (cfg : Configuration) (swag : Specification) (u : String)
    (path : Path) (pman : Collection) :
    mergeMethod cfg swag u path "PUT" path.Put pman =
      (path.Put.map (fun e =>
        fileVisit cfg swag pman { Path := u, Method := "PUT", Endpoint := e })).getD
        (.ok pman) :=
  mergeMethod_eq cfg swag u path "PUT" path.Put pman
    (fun e he => by simp [Path.HasMethodWithTag, he])

theorem mergeMethod_DELETE (cfg : Configuration) (swag : Specification) (u : String)
    (path : Path) (pman : Collection) :
    mergeMethod cfg swag u path "DELETE" path.Delete pman =
      (path.Delete.map (fun e =>
        fileVisit cfg swag pman { Path := u, Method := "DELETE", Endpoint := e })).getD
        (.ok pman) :=
  mergeMethod_eq cfg swag u path "DELETE" path.Delete pman
    (fun e he => by simp [Path.HasMethodWithTag, he])

theorem fileVisits_cons_error {cfg : Configuration} {swag : Specification} {v : Visit}
    {rest : List Visit} {pman : Collection} {failure : Failure}
    (h : fileVisit cfg swag pman v = .error failure) :
    fileVisits cfg swag (v :: rest) pman = .error failure := by
  rw [fileVisits, h]

theorem fileVisits_cons_ok {cfg : Configuration} {swag : Specification} {v : Visit}
    {rest : List Visit} {pman next : Collection}
    (h : fileVisit cfg swag pman v = .ok next) :
    fileVisits cfg swag (v :: rest) pman = fileVisits cfg swag rest next := by
  rw [fileVisits, h]

theorem mergePath_eq (cfg : Configuration) (swag : Specification) (pman : Collection)
    (u : String) :
    mergePath cfg swag pman u = fileVisits cfg swag (pathVisits swag u) pman := by
  unfold mergePath pathVisits
  rw [show ({ Get := none, Patch := none, Post := none, Put := none, Delete := none } : Path) =
    noEndpoints from rfl]
  generalize (mapGet swag.Paths u).getD noEndpoints = path
  simp only [mergeMethod_GET, mergeMethod_PATCH, mergeMethod_POST, mergeMethod_PUT,
    mergeMethod_DELETE]
  rcases path with ⟨g, pa, po, pu, d⟩
  cases g <;> cases pa <;> cases po <;> cases pu <;> cases d <;>
    simp only [Option.map_none', Option.map_some', Option.getD_none, Option.getD_some,
      Path.endpoints, List.filterMap_cons, List.filterMap_nil, List.map_cons, List.map_nil,
      fileVisits] <;>
    repeat (first | rfl | assumption | split)

theorem fileVisits_append (cfg : Configuration) (swag : Specification)
    (first second : List Visit) (pman : Collection) :
    fileVisits cfg swag (first ++ second) pman =
      match fileVisits cfg swag first pman with
      | .error failure => .error failure
      | .ok next => fileVisits cfg swag second next := by
  induction first generalizing pman with
  | nil => rfl
  | cons v rest ih =>
    rw [List.cons_append]
    cases hv : fileVisit cfg swag pman v with
    | error failure => rw [fileVisits_cons_error hv, fileVisits_cons_error hv]
    | ok next => rw [fileVisits_cons_ok hv, fileVisits_cons_ok hv, ih]

theorem mergePaths_eq (cfg : Configuration) (swag : Specification) (urls : List String)
    (pman : Collection) :
    mergePaths cfg swag urls pman =
      fileVisits cfg swag (urls.flatMap (pathVisits swag)) pman := by
  induction urls generalizing pman with
  | nil => rfl
  | cons u rest ih =>
    rw [mergePaths, List.flatMap_cons, fileVisits_append, mergePath_eq]
    cases fileVisits cfg swag (pathVisits swag u) pman with
    | error failure => rfl
    | ok next => exact ih next

theorem Merge_eq_fileVisits (cfg : Configuration) (pman : Collection)
    (swag : Specification) :
    Merge cfg pman swag =
      fileVisits cfg swag (declaredOperations swag) (mergeInfo pman swag) := by
  unfold Merge declaredOperations
  exact mergePaths_eq cfg swag _ _

theorem folderItems_GetOrNewFolder (col : Collection) (name : String) :
    (col.GetOrNewFolder name).Item = folderItems col name := by
  unfold Collection.GetOrNewFolder folderItems
  cases findItem col.Item name <;> rfl

theorem folderItems_postmanAddItemToFolder (col : Collection) (item : Item)
    (target name : String) :
    folderItems (postmanAddItemToFolder col item target) name =
      if target = name then folderItems col target ++ [item] else folderItems col name := by
  unfold postmanAddItemToFolder Collection.SetFolder
  simp only
  rw [folderItems, findItem_upsertItem]
  simp only [GetOrNewFolder_Name, folderItems_GetOrNewFolder]
  by_cases h : target = name
  · simp [h]
  · simp only [h, if_false]
    rfl

theorem folderItems_mergeInfo (pman : Collection) (swag : Specification) (name : String) :
    folderItems (mergeInfo pman swag) name = folderItems pman name := rfl

/-- When the visits are all filed, the items that a folder has received are those of the visits
whose trimmed first tag is the name of the folder, in the order of the visits. -/
theorem folderItems_fileVisits (cfg : Configuration) (swag : Specification)
    (visits : List Visit) (col result : Collection) (name : String)
    (h : fileVisits cfg swag visits col = .ok result) :
    ∃ items : List Item,
      List.Forall₂ (fun v item => operationItem cfg swag v = .ok item)
        (visits.filter (fun v => decide (v.Endpoint.Tags.head?.map TrimSpace = some name)))
        items ∧
      folderItems result name = folderItems col name ++ items := by
  induction visits generalizing col with
  | nil =>
    rw [fileVisits] at h
    cases h
    exact ⟨[], List.Forall₂.nil, by simp⟩
  | cons v rest ih =>
    cases hv : fileVisit cfg swag col v with
    | error failure =>
      rw [fileVisits_cons_error hv] at h
      cases h
    | ok next =>
      rw [fileVisits_cons_ok hv] at h
      rcases ih next h with ⟨items, hall, hfolder⟩
      unfold fileVisit at hv
      cases hTags : v.Endpoint.Tags with
      | nil =>
        rw [hTags] at hv
        cases hv
        refine ⟨items, ?_, hfolder⟩
        simpa [List.filter_cons, hTags] using hall
      | cons tag others =>
        rw [hTags] at hv
        simp only at hv
        cases hitem : operationItem cfg swag v with
        | error failure =>
          rw [hitem] at hv
          cases hv
        | ok item =>
          rw [hitem] at hv
          cases hv
          rw [folderItems_postmanAddItemToFolder] at hfolder
          by_cases hname : TrimSpace tag = name
          · refine ⟨item :: items, ?_, ?_⟩
            · simp only [List.filter_cons, hTags, List.head?_cons, Option.map_some', hname,
                decide_True, if_true]
              exact List.Forall₂.cons hitem (by simpa using hall)
            · rw [hfolder, if_pos hname, hname]
              simp
          · refine ⟨items, ?_, ?_⟩
            · have hne : ¬ (some (TrimSpace tag) = some name) := fun e =>
                hname (Option.some.inj e)
              simp only [List.filter_cons, hTags, List.head?_cons, Option.map_some', hne,
                decide_False, Bool.false_eq_true, if_false]
              simpa using hall
            · rw [hfolder, if_neg hname]

end Spectrum

namespace Spectrum

/-! ### The order of the paths -/

theorem charsLe_total (a b : List Char) : charsLe a b = true ∨ charsLe b a = true := by
  induction a generalizing b with
  | nil => exact Or.inl (by simp [charsLe])
  | cons x xs ih =>
    cases b with
    | nil => exact Or.inr (by simp [charsLe])
    | cons y ys =>
      simp only [charsLe, Bool.or_eq_true, Bool.and_eq_true, decide_eq_true_eq]
      rcases Nat.lt_trichotomy x.toNat y.toNat with h | h | h
      · exact Or.inl (Or.inl h)
      · rcases ih ys with h' | h'
        · exact Or.inl (Or.inr ⟨h, h'⟩)
        · exact Or.inr (Or.inr ⟨h.symm, h'⟩)
      · exact Or.inr (Or.inl h)

theorem charsLe_trans (a b c : List Char) (hab : charsLe a b = true)
    (hbc : charsLe b c = true) : charsLe a c = true := by
  induction a generalizing b c with
  | nil => simp [charsLe]
  | cons x xs ih =>
    cases b with
    | nil => simp [charsLe] at hab
    | cons y ys =>
      cases c with
      | nil => simp [charsLe] at hbc
      | cons z zs =>
        simp only [charsLe, Bool.or_eq_true, Bool.and_eq_true, decide_eq_true_eq] at hab hbc ⊢
        rcases hab with h1 | ⟨h1, h1'⟩
        · rcases hbc with h2 | ⟨h2, _⟩
          · exact Or.inl (Nat.lt_trans h1 h2)
          · exact Or.inl (h2 ▸ h1)
        · rcases hbc with h2 | ⟨h2, h2'⟩
          · exact Or.inl (h1 ▸ h2)
          · exact Or.inr ⟨h1.trans h2, ih ys zs h1' h2'⟩

theorem charsLe_antisymm (a b : List Char) (hab : charsLe a b = true)
    (hba : charsLe b a = true) : a = b := by
  induction a generalizing b with
  | nil =>
    cases b with
    | nil => rfl
    | cons y ys => simp [charsLe] at hba
  | cons x xs ih =>
    cases b with
    | nil => simp [charsLe] at hab
    | cons y ys =>
      simp only [charsLe, Bool.or_eq_true, Bool.and_eq_true, decide_eq_true_eq] at hab hba
      rcases hab with h1 | ⟨h1, h1'⟩
      · rcases hba with h2 | ⟨h2, _⟩
        · exact absurd h1 (Nat.lt_asymm h2)
        · exact absurd h1 (by rw [h2]; exact Nat.lt_irrefl _)
      · rcases hba with h2 | ⟨_, h2'⟩
        · exact absurd h2 (by rw [h1]; exact Nat.lt_irrefl _)
        · have hx : x = y := Char.ext (UInt32.ext h1)
          rw [hx, ih ys h1' h2']

theorem strLe_isTotal : IsTotal String (fun a b => strLe a b = true) :=
  ⟨fun a b => charsLe_total a.data b.data⟩

theorem strLe_isTrans : IsTrans String (fun a b => strLe a b = true) :=
  ⟨fun a b c hab hbc => charsLe_trans a.data b.data c.data hab hbc⟩

theorem strLe_isAntisymm : IsAntisymm String (fun a b => strLe a b = true) :=
  ⟨fun a b hab hba => by
    have h := charsLe_antisymm a.data b.data hab hba
    cases a
    cases b
    simp only at h
    rw [h]⟩

theorem sortStrings_sorted (urls : List String) :
    (sortStrings urls).Pairwise (fun a b => strLe a b = true) :=
  haveI := strLe_isTotal
  haveI := strLe_isTrans
  List.sorted_insertionSort (fun a b => strLe a b = true) urls

theorem sortStrings_perm (urls : List String) : (sortStrings urls).Perm urls :=
  List.perm_insertionSort (fun a b => strLe a b = true) urls

theorem sortStrings_eq_of_perm {urls others : List String} (h : urls.Perm others) :
    sortStrings urls = sortStrings others :=
  haveI := strLe_isAntisymm
  List.eq_of_perm_of_sorted (r := fun a b => strLe a b = true)
    ((sortStrings_perm urls).trans (h.trans (sortStrings_perm others).symm))
    (sortStrings_sorted urls) (sortStrings_sorted others)

theorem sortStrings_strict {urls : List String} (h : urls.Nodup) :
    (sortStrings urls).Pairwise (fun a b => strLe a b = true ∧ a ≠ b) :=
  (sortStrings_sorted urls).and ((sortStrings_perm urls).nodup_iff.mpr h)

/-! ### Map lookup and the stored order of the entries -/

theorem mapGet_eq_some_iff {β : Type} {m : GoMap β} (h : (m.map (fun e => e.1)).Nodup)
    (k : String) (v : β) : mapGet m k = some v ↔ (k, v) ∈ m := by
  induction m with
  | nil => simp [mapGet]
  | cons e rest ih =>
    rcases e with ⟨k', v'⟩
    rw [List.map_cons, List.nodup_cons] at h
    rw [mapGet]
    by_cases hk : k' = k
    · rw [if_pos hk]
      constructor
      · intro hv
        cases hv
        rw [hk]
        exact List.mem_cons_self _ _
      · intro hmem
        rcases List.mem_cons.mp hmem with e | e
        · cases e
          rfl
        · exact absurd (List.mem_map_of_mem (fun e => e.1) e) (hk ▸ h.1)
    · rw [if_neg hk, ih h.2]
      constructor
      · exact fun hmem => List.mem_cons_of_mem _ hmem
      · intro hmem
        rcases List.mem_cons.mp hmem with e | e
        · cases e
          exact absurd rfl hk
        · exact e

theorem mapGet_eq_of_perm {β : Type} {m m' : GoMap β} (h : (m.map (fun e => e.1)).Nodup)
    (hperm : m'.Perm m) (k : String) : mapGet m' k = mapGet m k := by
  have h' : (m'.map (fun e => e.1)).Nodup := (hperm.map _).nodup_iff.mpr h
  apply Option.ext
  intro v
  rw [Option.mem_def, Option.mem_def, mapGet_eq_some_iff h, mapGet_eq_some_iff h']
  exact hperm.mem_iff

theorem mapGet_isSome_iff {β : Type} (m : GoMap β) (k : String) :
    (∃ v, mapGet m k = some v) ↔ k ∈ m.map (fun e => e.1) := by
  induction m with
  | nil => simp [mapGet]
  | cons e rest ih =>
    rcases e with ⟨k', v'⟩
    rw [mapGet, List.map_cons, List.mem_cons]
    by_cases hk : k' = k
    · simp [hk]
    · rw [if_neg hk, ih]
      constructor
      · exact Or.inr
      · rintro (e | e)
        · exact absurd e.symm hk
        · exact e

end Spectrum

namespace Spectrum

/-! ### The order of the visits -/

theorem endpoints_pairwise (path : Path) :
    path.endpoints.Pairwise (fun a b => methodRank a.1 < methodRank b.1) := by
  rcases path with ⟨g, pa, po, pu, d⟩
  cases g <;> cases pa <;> cases po <;> cases pu <;> cases d <;>
    simp [Path.endpoints, methodRank]

theorem pathVisits_Path {swag : Specification} {u : String} {v : Visit}
    (h : v ∈ pathVisits swag u) : v.Path = u := by
  unfold pathVisits at h
  rcases List.mem_map.mp h with ⟨e, _, he⟩
  rw [← he]

theorem pathVisits_pairwise (swag : Specification) (u : String) :
    (pathVisits swag u).Pairwise (fun a b => visitedBefore a b = true) := by
  unfold pathVisits
  rw [List.pairwise_map]
  refine (endpoints_pairwise _).imp ?_
  intro a b hab
  simp [visitedBefore, hab]

theorem declaredOperations_pairwise (swag : Specification)
    (hkeys : (swag.Paths.map (fun e => e.1)).Nodup) :
    (declaredOperations swag).Pairwise (fun a b => visitedBefore a b = true) := by
  unfold declaredOperations
  rw [List.pairwise_flatMap]
  refine ⟨fun u _ => pathVisits_pairwise swag u, ?_⟩
  refine (sortStrings_strict hkeys).imp ?_
  intro u1 u2 h x hx y hy
  rw [← pathVisits_Path hx, ← pathVisits_Path hy] at h
  simp [visitedBefore, h.1, h.2]

theorem visitedBefore_ne {a b : Visit} (h : visitedBefore a b = true) :
    (a.Path, a.Method) ≠ (b.Path, b.Method) := by
  intro heq
  have hp : a.Path = b.Path := congrArg Prod.fst heq
  have hm : a.Method = b.Method := congrArg Prod.snd heq
  simp [visitedBefore, hp, hm] at h

theorem mem_declaredOperations (swag : Specification) (v : Visit) :
    v ∈ declaredOperations swag ↔
      ∃ path, mapGet swag.Paths v.Path = some path ∧ (v.Method, v.Endpoint) ∈ path.endpoints := by
  unfold declaredOperations
  rw [List.mem_flatMap]
  constructor
  · rintro ⟨u, hu, hv⟩
    have hu' : u ∈ swag.Paths.map (fun e => e.1) := (sortStrings_perm _).mem_iff.mp hu
    rcases (mapGet_isSome_iff swag.Paths u).mpr hu' with ⟨path, hpath⟩
    have hPath := pathVisits_Path hv
    unfold pathVisits at hv
    rw [hpath] at hv
    rcases List.mem_map.mp hv with ⟨e, he, hev⟩
    refine ⟨path, hPath ▸ hpath, ?_⟩
    rw [← hev]
    exact he
  · rintro ⟨path, hpath, hmem⟩
    refine ⟨v.Path, ?_, ?_⟩
    · exact (sortStrings_perm _).mem_iff.mpr
        ((mapGet_isSome_iff swag.Paths v.Path).mp ⟨path, hpath⟩)
    · unfold pathVisits
      rw [hpath]
      exact List.mem_map.mpr ⟨(v.Method, v.Endpoint), hmem, rfl⟩

/-! ### The stored order of the paths does not matter -/

theorem mergeMethod_Paths (cfg : Configuration) (swag : Specification) (paths : GoMap Path)
    (u : String) (path : Path) (method : String) (endpoint : Option Endpoint)
    (pman : Collection) :
    mergeMethod cfg { swag with Paths := paths } u path method endpoint pman =
      mergeMethod cfg swag u path method endpoint pman := rfl

theorem mergePath_of_perm (cfg : Configuration) (swag : Specification) (paths : GoMap Path)
    (hkeys : (swag.Paths.map (fun e => e.1)).Nodup) (hperm : paths.Perm swag.Paths)
    (pman : Collection) (u : String) :
    mergePath cfg { swag with Paths := paths } pman u = mergePath cfg swag pman u := by
  unfold mergePath
  simp only [mergeMethod_Paths]
  rw [mapGet_eq_of_perm hkeys hperm u]

theorem mergePaths_of_perm (cfg : Configuration) (swag : Specification) (paths : GoMap Path)
    (hkeys : (swag.Paths.map (fun e => e.1)).Nodup) (hperm : paths.Perm swag.Paths)
    (urls : List String) (pman : Collection) :
    mergePaths cfg { swag with Paths := paths } urls pman = mergePaths cfg swag urls pman := by
  induction urls generalizing pman with
  | nil => rfl
  | cons u rest ih =>
    rw [mergePaths, mergePaths, mergePath_of_perm cfg swag paths hkeys hperm]
    cases mergePath cfg swag pman u with
    | error failure => rfl
    | ok next => exact ih next

theorem Merge_of_perm (cfg : Configuration) (pman : Collection) (swag : Specification)
    (paths : GoMap Path) (hkeys : (swag.Paths.map (fun e => e.1)).Nodup)
    (hperm : paths.Perm swag.Paths) :
    Merge cfg pman { swag with Paths := paths } = Merge cfg pman swag := by
  unfold Merge
  simp only
  rw [sortStrings_eq_of_perm (hperm.map (fun e => e.1)),
    mergePaths_of_perm cfg swag paths hkeys hperm]
  rfl

end Spectrum

namespace Spectrum

/-- C12: for a specification whose path map has every key once, `Merge` files the declared
operations one after the other in the order of `declaredOperations`, up to the first failure of
building an item. This list holds exactly the endpoints that the paths of the map declare,
every pair of a path and a method at most once, and any earlier entry is on a smaller path than
any later entry, or on the same path with an earlier method in the order GET, PATCH, POST, PUT,
DELETE. Hence, at every point of the run, the items that a folder has received are the items of
a sublist of the operations visited so far, in the order of the visits; and the result, a
collection or a failure, does not depend on the order in which the map hands out its
entries. -/
theorem merge_visits_in_fixed_order (cfg : Configuration) (pman : Collection)
    (swag : Specification) (hkeys : (swag.Paths.map (fun e => e.1)).Nodup) :
    Merge cfg pman swag =
        fileVisits cfg swag (declaredOperations swag) (mergeInfo pman swag) ∧
      (∀ v, v ∈ declaredOperations swag ↔
        ∃ path, mapGet swag.Paths v.Path = some path ∧
          (v.Method, v.Endpoint) ∈ path.endpoints) ∧
      (declaredOperations swag).Pairwise (fun a b => visitedBefore a b = true) ∧
      ((declaredOperations swag).map (fun v => (v.Path, v.Method))).Nodup ∧
      (∀ (visited later : List Visit) (col : Collection),
        declaredOperations swag = visited ++ later →
        fileVisits cfg swag visited (mergeInfo pman swag) = .ok col →
        ∀ folder, ∃ (added : List Visit) (items : List Item),
          added.Sublist visited ∧
          added.Pairwise (fun a b => visitedBefore a b = true) ∧
          List.Forall₂ (fun v item => operationItem cfg swag v = .ok item) added items ∧
          folderItems col folder = folderItems pman folder ++ items) ∧
      (∀ paths, paths.Perm swag.Paths →
        Merge cfg pman { swag with Paths := paths } = Merge cfg pman swag) := by
  have hpairwise := declaredOperations_pairwise swag hkeys
  refine ⟨Merge_eq_fileVisits cfg pman swag, mem_declaredOperations swag, hpairwise, ?_, ?_,
    fun paths hperm => Merge_of_perm cfg pman swag paths hkeys hperm⟩
  · rw [List.Nodup, List.pairwise_map]
    exact hpairwise.imp (fun h => visitedBefore_ne h)
  · intro visited later col hsplit hcol folder
    rcases folderItems_fileVisits cfg swag visited _ col folder hcol with ⟨items, hall, hitems⟩
    have hsub : (visited.filter
        (fun v => decide (v.Endpoint.Tags.head?.map TrimSpace = some folder))).Sublist
        visited := List.filter_sublist _
    have hvisited : visited.Pairwise (fun a b => visitedBefore a b = true) := by
      rw [hsplit] at hpairwise
      exact (List.pairwise_append.mp hpairwise).1
    refine ⟨_, items, hsub, hvisited.sublist hsub, hall, ?_⟩
    rw [hitems, folderItems_mergeInfo]

/-- Witness for claim C12: the example specification stores `/pets/{id}`, `/health`, `/pets` in
this order; the visits
are on `/health`, `/pets`, `/pets/{id}`, the folder `Pets` receives its four items in that
order, and storing the paths in the opposite order gives the same collection. -/
theorem merge_visits_in_fixed_order_witness :
    (swaggerPets.Paths.map (fun e => e.1)).Nodup ∧
      (declaredOperations swaggerPets).Pairwise (fun a b => visitedBefore a b = true) ∧
      (declaredOperations swaggerPets).map (fun v => (v.Path, v.Method)) =
        [("/health", "GET"), ("/pets", "GET"), ("/pets", "POST"), ("/pets/{id}", "GET"),
          ("/pets/{id}", "DELETE")] ∧
      (Merge noOverrides emptyCollection swaggerPets).map
          (fun col => itemNames (folderItems col "Pets")) =
        .ok ["list pets", "create pet", "get pet", "delete pet"] ∧
      Merge noOverrides emptyCollection
          { swaggerPets with Paths := swaggerPets.Paths.reverse } =
        Merge noOverrides emptyCollection swaggerPets :=
  ⟨by decide,
    (merge_visits_in_fixed_order noOverrides emptyCollection swaggerPets (by decide)).2.2.1,
    by decide, by decide,
    (merge_visits_in_fixed_order noOverrides emptyCollection swaggerPets (by decide)).2.2.2.2.2
      swaggerPets.Paths.reverse (List.reverse_perm _)⟩

/-- When `Merge` returns a collection, the items that the folder of a given name has received
are the items of the declared operations whose first tag, with white space trimmed, is that
name, one item for every such operation and in their order. -/
theorem Merge_ok_folderItems (cfg : Configuration) (pman result : Collection)
    (swag : Specification) (h : Merge cfg pman swag = .ok result) (folder : String) :
    ∃ items : List Item,
      List.Forall₂ (fun v item => operationItem cfg swag v = .ok item)
        ((declaredOperations swag).filter
          (fun v => decide (v.Endpoint.Tags.head?.map TrimSpace = some folder))) items ∧
      folderItems result folder = folderItems pman folder ++ items := by
  rw [Merge_eq_fileVisits] at h
  rcases folderItems_fileVisits cfg swag _ _ result folder h with ⟨items, hall, hitems⟩
  exact ⟨items, hall, by rw [hitems, folderItems_mergeInfo]⟩

/-- Claim C13 (the code at the failing input). The specification `swaggerJSONBody` has one
operation, the POST on `/pets`, with the tag `Pets`; it consumes `application/json;
charset=utf-8` and has a body parameter with an example for that media type. Building its item
writes to the body of a request that has none, so `Merge` ends in a nil dereference and files
the operation in no folder. The example specification without such an endpoint is merged, and
there the operation tagged `Pets` and `Admin` is in the folder `Pets` only. -/
theorem merge_fails_on_json_body_example :
    (declaredOperations swaggerJSONBody).map (fun v => (v.Path, v.Method, v.Endpoint.Tags)) =
        [("/pets", "POST", ["Pets"])] ∧
      (Merge noOverrides emptyCollection swaggerJSONBody).map
          (fun col => itemNames col.Item) = .error Failure.nilDereference ∧
      (Merge noOverrides emptyCollection swaggerPets).map
          (fun col => (itemNames col.Item, itemNames (folderItems col "Pets"),
            itemNames (folderItems col "Admin"))) =
        .ok (["Pets"], ["list pets", "create pet", "get pet", "delete pet"], []) := by
  decide

/-! ### The tag-casing rule -/

theorem operationTagViolations_eq (isFirstAlphaUpper : String → Bool) (opLoc : String)
    (i : Nat) (tags : List String) :
    operationTagViolations isFirstAlphaUpper opLoc i tags =
      ((tags.enumFrom i).filter (fun it => !isFirstAlphaUpper it.2)).map
        (fun it => tagStyleViolation (opLoc ++ toString it.1) it.2) := by
  induction tags generalizing i with
  | nil => rfl
  | cons tag rest ih =>
    rw [operationTagViolations, List.enumFrom_cons, List.filter_cons, ih]
    cases isFirstAlphaUpper tag
    · simp
      rfl
    · simp

theorem documentTagViolations_eq (isFirstAlphaUpper : String → Bool) (pointerBase : String)
    (i : Nat) (tags : List (Option Tag)) :
    documentTagViolations isFirstAlphaUpper pointerBase i tags =
      ((tags.enumFrom i).filter
        (fun it => (it.2.map (fun tag => !isFirstAlphaUpper tag.Name)).getD true)).map
        (fun it => tagStyleViolation (documentTagPointer pointerBase it.1)
          ((it.2.map (fun tag => tag.Name)).getD "")) := by
  induction tags generalizing i with
  | nil => rfl
  | cons tag rest ih =>
    cases tag with
    | none =>
      rw [documentTagViolations, List.enumFrom_cons, List.filter_cons, ih]
      simp
      rfl
    | some tag =>
      rw [documentTagViolations, List.enumFrom_cons, List.filter_cons, ih]
      cases h : isFirstAlphaUpper tag.Name
      · simp [h]
        rfl
      · simp [h]

theorem ProcessSpec_eq (isFirstAlphaUpper : String → Bool) (spec : Spec)
    (pointerBase : String) :
    RuleTagStyleFirstUpperCase.ProcessSpec isFirstAlphaUpper spec pointerBase =
      .ok (spec.Paths.flatMap (fun e => e.2.operations.flatMap (fun mo =>
          operationTagViolations isFirstAlphaUpper
            (operationTagsPointer pointerBase e.1 mo.1) 0 mo.2.Tags)) ++
        documentTagViolations isFirstAlphaUpper pointerBase 0 spec.Tags) := by
  unfold RuleTagStyleFirstUpperCase.ProcessSpec
  rw [@VisitOperations_report PolicyViolation
    (fun path method op => operationTagViolations isFirstAlphaUpper
      (operationTagsPointer pointerBase path method) 0 op.Tags)
    (tagStyleVisit isFirstAlphaUpper pointerBase) (fun path method op s => rfl) spec []]
  simp

end Spectrum

namespace Spectrum

/-- Claim C21. For every document, `ProcessSpec` of the tag-casing rule returns, and its
violations are: for every operation in visiting order, one violation for each occurrence of a
tag (with its index) that `IsFirstAlphaUpper` rejects, carrying the tag as value; then, for
every entry of the document-level tag list (with its index), one violation when the entry is
nil (with the empty value) or when `IsFirstAlphaUpper` rejects its name (with the name as
value); and no others. All carry the rule name `tag-style-first-uppercase`. So when `widgets` is
rejected, the document with the tag `widgets` on its one operation and in its tag list gets
exactly two violations, one for each place. -/
theorem tag_style_violations (isFirstAlphaUpper : String → Bool) (spec : Spec)
    (pointerBase : String) :
    RuleTagStyleFirstUpperCase.ProcessSpec isFirstAlphaUpper spec pointerBase =
        .ok (spec.Paths.flatMap (fun e => e.2.operations.flatMap (fun mo =>
            (mo.2.Tags.enum.filter (fun it => !isFirstAlphaUpper it.2)).map
              (fun it => tagStyleViolation
                (operationTagsPointer pointerBase e.1 mo.1 ++ toString it.1) it.2))) ++
          (spec.Tags.enum.filter
            (fun it => (it.2.map (fun tag => !isFirstAlphaUpper tag.Name)).getD true)).map
            (fun it => tagStyleViolation (documentTagPointer pointerBase it.1)
              ((it.2.map (fun tag => tag.Name)).getD ""))) ∧
      (isFirstAlphaUpper "widgets" = false →
        RuleTagStyleFirstUpperCase.ProcessSpec isFirstAlphaUpper specWidgets "" =
          .ok [tagStyleViolation "#/paths/~1widgets/GET/tags/0" "widgets",
            tagStyleViolation "#/tags/0/name" "widgets"]) := by
  constructor
  · rw [ProcessSpec_eq]
    simp only [operationTagViolations_eq, documentTagViolations_eq, List.enum]
  · intro h
    rw [ProcessSpec_eq]
    have h1 : operationTagsPointer "" "/widgets" "GET" ++ toString 0 =
        "#/paths/~1widgets/GET/tags/0" := by decide
    have h2 : documentTagPointer "" 0 = "#/tags/0/name" := by decide
    simp [specWidgets, sampleSpec, operationTagged, sampleOperation, PathItem.operations,
      operationTagViolations, documentTagViolations, h, h1, h2, tagStyleViolation,
      RuleTagStyleFirstUpperCase.Name, RulenameTagStyleFirstUpperCase]

/-- Witness for claim C21: with the first character deciding, `widgets` is rejected and the
example document gets its two violations. -/
theorem tag_style_violations_witness :
    startsUpper "widgets" = false ∧
      RuleTagStyleFirstUpperCase.ProcessSpec startsUpper specWidgets "" =
        .ok [tagStyleViolation "#/paths/~1widgets/GET/tags/0" "widgets",
          tagStyleViolation "#/tags/0/name" "widgets"] :=
  ⟨by decide, (tag_style_violations startsUpper specWidgets "").2 (by decide)⟩

end Spectrum

namespace Spectrum

/-! ### The tag-membership rule -/

theorem Exists_iff (tagGroups : TagGroupSet) (tagName : String) :
    tagGroups.Exists tagName = true ↔ ∃ tg ∈ tagGroups.TagGroups, tagName ∈ tg.Tags := by
  unfold TagGroupSet.Exists
  simp [List.any_eq_true]

theorem tagGroupViolations_eq (joinAbsolute : List String → String) (tagGroups : TagGroupSet)
    (opPointer : String) (i : Nat) (tags : List String) :
    tagGroupViolations joinAbsolute tagGroups opPointer i tags =
      ((tags.enumFrom i).filter
        (fun it => decide (¬ ∃ tg ∈ tagGroups.TagGroups, it.2 ∈ tg.Tags))).map
        (fun it => tagGroupViolation (joinAbsolute [opPointer, "tags", toString it.1])
          it.2) := by
  induction tags generalizing i with
  | nil => rfl
  | cons tag rest ih =>
    rw [tagGroupViolations, List.enumFrom_cons, List.filter_cons, ih]
    by_cases h : ∃ tg ∈ tagGroups.TagGroups, tag ∈ tg.Tags
    · have hex : tagGroups.Exists tag = true := (Exists_iff tagGroups tag).mpr h
      simp [hex, h]
    · have hex : tagGroups.Exists tag = false := by
        cases hb : tagGroups.Exists tag with
        | false => rfl
        | true => exact absurd ((Exists_iff tagGroups tag).mp hb) h
      simp only [hex, Bool.not_false, if_true, h, not_false_eq_true, decide_True, List.map_cons]
      rfl

/-- Claim C22. For a document whose tag groups can be read and an operation, `ProcessOperation`
of the tag-membership rule returns, in tag order, one violation for each occurrence of a tag
of the operation that no declared tag group lists, and none for a tag that some group lists;
the violation has the rule name `x-tag-has-group`, the location that `JoinAbsolute` makes of
the operation pointer, `tags` and the index of the tag in the operation, and the tag name as
value. -/
theorem tag_membership_violations (joinAbsolute : List String → String) (spec : Spec)
    (groups : List TagGroup) (op : Operation) (opPointer path method : String)
    (hgroups : spec.TagGroups = .ok groups) :
    RuleTagHasGroup.ProcessOperation joinAbsolute (some spec) (some op) opPointer path method =
      (op.Tags.enum.filter (fun it => decide (¬ ∃ tg ∈ groups, it.2 ∈ tg.Tags))).map
        (fun it => tagGroupViolation (joinAbsolute [opPointer, "tags", toString it.1])
          it.2) := by
  unfold RuleTagHasGroup.ProcessOperation SpecTagGroups
  simp only [hgroups]
  split
  · rename_i hlen
    rw [List.length_eq_zero.mp hlen]
    rfl
  · rw [tagGroupViolations_eq]
    rfl

/-- Witness for claim C22: with the groups `{"Core": ["Widgets"]}`, the operation tagged
`Widgets` and `Gadgets` gets one violation, for `Gadgets` at index 1. -/
theorem tag_membership_violations_witness :
    RuleTagHasGroup.ProcessOperation joinSlash (some specGadgets)
        (some (operationTagged ["Widgets", "Gadgets"])) "#/paths/~1widgets/get" "/widgets"
        "GET" =
      ((operationTagged ["Widgets", "Gadgets"]).Tags.enum.filter
        (fun it => decide (¬ ∃ tg ∈ [({ Name := "Core", Tags := ["Widgets"] } : TagGroup)],
          it.2 ∈ tg.Tags))).map
        (fun it => tagGroupViolation
          (joinSlash ["#/paths/~1widgets/get", "tags", toString it.1]) it.2) ∧
    RuleTagHasGroup.ProcessOperation joinSlash (some specGadgets)
        (some (operationTagged ["Widgets", "Gadgets"])) "#/paths/~1widgets/get" "/widgets"
        "GET" =
      [tagGroupViolation "#/paths/~1widgets/get/tags/1" "Gadgets"] :=
  ⟨tag_membership_violations joinSlash specGadgets [{ Name := "Core", Tags := ["Widgets"] }]
    (operationTagged ["Widgets", "Gadgets"]) "#/paths/~1widgets/get" "/widgets" "GET" rfl,
    by decide⟩

end Spectrum

namespace Spectrum

/-! ### The API key security scheme -/

/-- Claim C23. `SecuritySchemeApikeyAddDefinition` returns an error if and only if the trimmed
location is not one of `header`, `query`, `cookie`, or the trimmed key name is empty. When it
returns an error the document, and so its security schemes, is unchanged. When it succeeds, the
scheme registered under the trimmed scheme name (`ApiKeyAuth` when that is empty) has the type
`apiKey` with the trimmed location and the trimmed key name. -/
theorem apikey_definition_error_iff (spec : Spec) (schemeName location name : String) :
    ((SecuritySchemeApikeyAddDefinition spec schemeName location name).2 ≠ none ↔
      ¬ (TrimSpace location = "header" ∨ TrimSpace location = "query" ∨
          TrimSpace location = "cookie") ∨
        TrimSpace name = "") ∧
      ((SecuritySchemeApikeyAddDefinition spec schemeName location name).2 ≠ none →
        (SecuritySchemeApikeyAddDefinition spec schemeName location name).1 = spec) ∧
      ((SecuritySchemeApikeyAddDefinition spec schemeName location name).2 = none →
        mapGet
            ((SecuritySchemeApikeyAddDefinition spec schemeName location
              name).1.Components.SecuritySchemes.getD [])
            (if TrimSpace schemeName = "" then "ApiKeyAuth" else TrimSpace schemeName) =
          some { Ref := "",
                 Value := some { SchemeType := "apiKey", In := TrimSpace location,
                                 Name := TrimSpace name, Scheme := "",
                                 BearerFormat := "" } }) := by
  unfold SecuritySchemeApikeyAddDefinition
  simp only [length_eq_zero_iff]
  by_cases hempty : TrimSpace location = ""
  · simp [hempty]
  · by_cases hloc : TrimSpace location ≠ "header" ∧ TrimSpace location ≠ "query" ∧
        TrimSpace location ≠ "cookie"
    · have hnot : ¬ (TrimSpace location = "header" ∨ TrimSpace location = "query" ∨
          TrimSpace location = "cookie") := by
        rintro (h | h | h)
        · exact hloc.1 h
        · exact hloc.2.1 h
        · exact hloc.2.2 h
      simp only [hempty, if_false, hloc, and_self, if_true, ne_eq, not_false_eq_true,
        hnot, true_or, true_implies, true_and]
      simp
    · have hin : TrimSpace location = "header" ∨ TrimSpace location = "query" ∨
          TrimSpace location = "cookie" := by
        by_contra hcon
        apply hloc
        refine ⟨fun h => hcon (Or.inl h), fun h => hcon (Or.inr (Or.inl h)),
          fun h => hcon (Or.inr (Or.inr h))⟩
      by_cases hname : TrimSpace name = ""
      · simp [hempty, hloc, hname]
      · simp only [hempty, if_false, hloc, hname, ne_eq, not_true_eq_false, false_iff,
          not_or, not_not, hin, not_false_eq_true, and_self, false_implies, true_and,
          true_implies]
        rw [Option.getD_some, mapGet_mapSet]
        by_cases hscheme : TrimSpace schemeName = ""
        · simp [hscheme, SecuritySchemeApikeyDefaultName]
        · simp [hscheme]

/-- Witness for claim C23: the location `body` is refused and leaves the document as it is; the
location `header` with the key name `X-API-Key` and a blank scheme name registers
`ApiKeyAuth`. -/
theorem apikey_definition_error_iff_witness :
    (SecuritySchemeApikeyAddDefinition specCore "" "body" "X-API-Key").1 = specCore ∧
      mapGet
          ((SecuritySchemeApikeyAddDefinition specCore " " " header " "X-API-Key"
            ).1.Components.SecuritySchemes.getD [])
          (if TrimSpace " " = "" then "ApiKeyAuth" else TrimSpace " ") =
        some { Ref := "",
               Value := some { SchemeType := "apiKey", In := TrimSpace " header ",
                               Name := TrimSpace "X-API-Key", Scheme := "",
                               BearerFormat := "" } } :=
  ⟨(apikey_definition_error_iff specCore "" "body" "X-API-Key").2.1 (by decide),
    (apikey_definition_error_iff specCore " " " header " "X-API-Key").2.2 (by decide)⟩

end Spectrum

namespace Spectrum

/-! ### Failures and slips -/

/-- Claim C24 (failing input). On a document whose JSON response entry declares no schema, the
response-type pass ends in a nil dereference (`mtRef.Schema.Ref`) in either mode, and so it
does on one whose inline schema entry has no value (`schemaRef.Value.Type`). -/
theorem response_types_pass_fails_without_schema :
    ValidateFixOperationResponseTypes (specJSONEntry (some mediaTypeNoSchema)) false =
        .error Failure.nilDereference ∧
      ValidateFixOperationResponseTypes (specJSONEntry (some mediaTypeNoSchema)) true =
        .error Failure.nilDereference ∧
      ValidateFixOperationResponseTypes (specJSONEntry (some mediaTypeNoValue)) false =
        .error Failure.nilDereference ∧
      ValidateFixOperationResponseTypes (specJSONEntry (some mediaTypeNoValue)) true =
        .error Failure.nilDereference := by
  decide

/-- With an empty inclusion map and a non-empty exclusion map, the flag `addSecurity` is set
as soon as one tag of the operation is not a key of the exclusion map. -/
theorem addSecurityLoop_skip (skipTagsMap : GoMap Nat) (hskip : skipTagsMap.length ≠ 0)
    (tags : List String) (addSecurity : Bool) :
    addSecurityLoop [] skipTagsMap tags addSecurity =
      (addSecurity ||
        tags.any (fun tag => !(mapGet skipTagsMap (ToLower (TrimSpace tag))).isSome)) := by
  induction tags generalizing addSecurity with
  | nil => simp [addSecurityLoop]
  | cons tag rest ih =>
    rw [addSecurityLoop]
    simp only [mapGet, Option.isSome_none, Bool.false_eq_true, if_false, List.length_nil,
      if_true, hskip, List.any_cons]
    rw [ih]
    cases addSecurity <;>
      cases (mapGet skipTagsMap (ToLower (TrimSpace tag))).isSome <;> simp

/-- Claim C25 (failing input). With an empty inclusion list and the exclusion list `admin`, the
operation with the tags `admin` and `public` carries a tag of the exclusion list and still gets
the security requirement; the operation with the tag `admin` alone does not get it. -/
theorem excluded_tag_still_secured :
    SecuritySchemeBearertokenAddOperationsByTags (specReports ["admin", "public"])
        "BearerAuth" [] ["admin"] =
        .ok (specReportsSecured ["admin", "public"]) ∧
      SecuritySchemeBearertokenAddOperationsByTags (specReports ["Admin "])
        "BearerAuth" [] ["admin"] =
        .ok (specReports ["Admin "]) := by
  decide

/-- Claim C26 (failing input). The tag-casing rule declares the scope `operation`, and its
`ProcessOperation` returns no violation for the operation with the tag `widgets`, which does
not start with an upper-case letter; the violation for that tag comes from `ProcessSpec`
only. The tag-membership rule, of the same scope, does its work in `ProcessOperation`. -/
theorem tag_style_rule_idle_on_operations :
    RuleTagStyleFirstUpperCase.Scope = "operation" ∧
      startsUpper "widgets" = false ∧
      RuleTagStyleFirstUpperCase.ProcessOperation (some specWidgets)
        (some (operationTagged ["widgets"])) "#/paths/~1widgets/get" "/widgets" "GET" = [] ∧
      RuleTagStyleFirstUpperCase.ProcessSpec startsUpper
        (sampleSpec "/widgets" (operationTagged ["widgets"])) "" =
        .ok [tagStyleViolation "#/paths/~1widgets/GET/tags/0" "widgets"] ∧
      RuleTagHasGroup.Scope = "operation" ∧
      RuleTagHasGroup.ProcessOperation joinSlash (some specWidgets)
        (some (operationTagged ["widgets"])) "#/paths/~1widgets/get" "/widgets" "GET" =
        [tagGroupViolation "#/paths/~1widgets/get/tags/0" "widgets"] := by
  decide

end Spectrum
